import Mathlib

/-!
# Humorpedia — Section Tree Manager, shallow embedding

A shallow embedding of `backend/routes/sections.py` (the hierarchical
section/path subsystem) and proofs about it.

The MongoDB collection `db.sections` is modelled as a `List Doc` in natural
(insertion) order:
* `find_one(q)` is the first list element matching `q`;
* `find(q).to_list(n)` is `(filter q).take n`;
* `update_one(q, $set)` rewrites the first element matching `q`;
* `delete_one(q)` removes the first element matching `q`;
* `insert_one` appends;
* `sort("order", 1)` is a stable sort on the `order` field (the store keeps
  natural order between equal keys in this model).

MongoDB enforces `_id` uniqueness; general theorems take this as the
`UniqueIds` hypothesis.  Python truthiness of an optional string field
(`if not parent_id:` treats both `None` and `""` as absent) is modelled by
`truthy`.  The unbounded Python recursions / while-loops
(`update_children_paths`, `check_circular_reference`, cascade delete, the
breadcrumb walk) get an explicit fuel argument; API entry points pass
`db.length + 1`, and the theorems show this fuel is enough on well-formed
states, so the fuel never changes the modelled behaviour there.
`HTTPException` is modelled by `Except HTTPError`; every raise in the Python
routes we model occurs before any store write on that control path (cascade
delete aside, whose mid-cascade failure paths are unreachable under the
theorems' hypotheses), so an `.error` result coincides with "no mutation".
The external tag registry (`tag_service.sync_tags`) touches only the tags
collection, never `db.sections`, and is omitted.
-/

namespace Humorpedia

/-- One document of the `sections` collection, with the fields of
`models/section.py`'s `Section`.  Opaque payloads (`cover_image`, `modules`,
`seo`, timestamps) are modelled as opaque strings. -/
structure Doc where
  _id : String
  title : String
  slug : String
  full_path : String
  description : Option String
  cover_image : Option String
  parent_id : Option String
  parent_path : Option String
  level : Nat
  order : Int
  in_main_menu : Bool
  menu_title : Option String
  modules : List String
  child_types : List String
  show_children_list : Bool
  seo : String
  tags : List String
  status : String
  views : Nat
  created_at : String
  updated_at : String
deriving DecidableEq, Repr

/-- A raised `fastapi.HTTPException`: status code and detail string. -/
structure HTTPError where
  status : Nat
  detail : String
deriving DecidableEq, Repr

/-- Python truthiness of an optional string (`None` and `""` are falsy). -/
def truthy : Option String → Bool
  | none => false
  | some s => !(s == "")

/-- `db.sections.find_one(q)`: first stored document matching `q`. -/
def findOne (db : List Doc) (q : Doc → Bool) : Option Doc :=
  db.find? q

/-- `db.sections.update_one(q, {"$set": …})`: rewrite the first match. -/
def updateFirst (q : Doc → Bool) (f : Doc → Doc) : List Doc → List Doc
  | [] => []
  | d :: ds => if q d then f d :: ds else d :: updateFirst q f ds

/-- `db.sections.delete_one(q)`: remove the first match. -/
def eraseFirst (q : Doc → Bool) : List Doc → List Doc
  | [] => []
  | d :: ds => if q d then ds else d :: eraseFirst q ds

/-- Stable insertion into a list sorted ascending on `order`. -/
def insOrd (d : Doc) : List Doc → List Doc
  | [] => [d]
  | x :: xs => if x.order < d.order then x :: insOrd d xs else d :: x :: xs

/-- `sort("order", 1)`: stable ascending sort on the `order` field. -/
def sortByOrder (db : List Doc) : List Doc :=
  db.foldr insOrd []

/-- `build_full_path(parent_id, slug, db)` from `routes/sections.py`:
root path `"/" + slug` at level 0 when `parent_id` is falsy, else the
parent's `full_path + "/" + slug` at `parent.level + 1`, 404 when the
parent id does not resolve. -/
def build_full_path (db : List Doc) (pid : Option String) (slug : String) :
    Except HTTPError (String × Nat) :=
  match pid with
  | none => .ok ("/" ++ slug, 0)
  | some p =>
    if p == "" then .ok ("/" ++ slug, 0)
    else
      match findOne db (fun d => d._id == p) with
      | none => .error ⟨404, "Parent section not found"⟩
      | some parent => .ok (parent.full_path ++ "/" ++ slug, parent.level + 1)

/-- `update_children_paths(section_id, new_path, db)`: for each of the first
1000 documents whose `parent_id` is `section_id`, set
`full_path := new_path + "/" + slug` and `parent_path := new_path`, then
recurse into that child with its new path.  Only `full_path` and
`parent_path` are written — `level` is not.  `fuel` bounds the recursion
depth (the Python recursion is unbounded and diverges on cyclic data). -/
def update_children_paths (fuel : Nat) (section_id : String)
    (new_path : String) (db : List Doc) : List Doc :=
  match fuel with
  | 0 => db
  | fuel + 1 =>
    let children := (db.filter (fun d => d.parent_id == some section_id)).take 1000
    children.foldl (fun acc child =>
      let child_full_path := new_path ++ "/" ++ child.slug
      let acc1 := updateFirst (fun d => d._id == child._id)
        (fun d => { d with full_path := child_full_path,
                           parent_path := some new_path }) acc
      update_children_paths fuel child._id child_full_path acc1) db

/-- The `while current_id:` loop of `check_circular_reference`: revisit of a
visited id or reaching `section_id` yields `true`; a dangling or falsy
parent pointer ends the walk with `false`. -/
def circLoop (db : List Doc) (section_id : String) :
    Nat → String → List String → Bool
  | 0, _, _ => false
  | fuel + 1, current_id, visited =>
    if visited.contains current_id then true
    else if current_id == section_id then true
    else
      match findOne db (fun d => d._id == current_id) with
      | none => false
      | some parent =>
        match parent.parent_id with
        | none => false
        | some nxt =>
          if nxt == "" then false
          else circLoop db section_id fuel nxt (current_id :: visited)

/-- `check_circular_reference(section_id, new_parent_id, db)`: `true` iff
setting `new_parent_id` would create a cycle — the candidate equals the
section, or walking up from the candidate reaches the section (or revisits
an id).  A falsy candidate is safe. -/
def check_circular_reference (db : List Doc) (section_id : String)
    (new_parent_id : Option String) : Bool :=
  match new_parent_id with
  | none => false
  | some p =>
    if p == "" then false
    else if section_id == p then true
    else circLoop db section_id (db.length + 1) p []

/-- `SectionCreate` from `models/section.py`. -/
structure SectionCreate where
  title : String
  slug : String
  description : Option String := none
  cover_image : Option String := none
  parent_id : Option String := none
  order : Int := 0
  in_main_menu : Bool := false
  menu_title : Option String := none
  modules : List String := []
  child_types : List String := []
  show_children_list : Bool := true
  seo : Option String := none
  tags : List String := []
  status : String := "draft"
deriving DecidableEq, Repr

/-- `create_section`: sibling-uniqueness check on `(slug, parent_id)`
(comparing `None` to `None` for roots), path computation, then insertion.
`newId` stands for the generated uuid4 and `now` for the creation
timestamp.  On success returns the new store plus the response triple
`{id, slug, full_path}`. -/
def create_section (db : List Doc) (data : SectionCreate)
    (newId now : String) :
    Except HTTPError (List Doc × String × String × String) :=
  let existing :=
    if truthy data.parent_id then
      findOne db (fun d => d.slug == data.slug && d.parent_id == data.parent_id)
    else
      findOne db (fun d => d.slug == data.slug && d.parent_id == none)
  match existing with
  | some _ => .error ⟨400, "Section with this slug already exists at this level"⟩
  | none =>
    match build_full_path db data.parent_id data.slug with
    | .error e => .error e
    | .ok (full_path, level) =>
      let parent_path :=
        if truthy data.parent_id then
          (findOne db (fun d => some d._id == data.parent_id)).map (·.full_path)
        else none
      let doc : Doc :=
        { _id := newId, title := data.title, slug := data.slug,
          full_path := full_path, description := data.description,
          cover_image := data.cover_image, parent_id := data.parent_id,
          parent_path := parent_path, level := level, order := data.order,
          in_main_menu := data.in_main_menu, menu_title := data.menu_title,
          modules := data.modules, child_types := data.child_types,
          show_children_list := data.show_children_list,
          seo := data.seo.getD "{}", tags := data.tags, status := data.status,
          views := 0, created_at := now, updated_at := now }
      .ok (db ++ [doc], newId, data.slug, full_path)

/-- The optional status filter of `get_sections_tree`. -/
def statusFilter (status : Option String) : Doc → Bool := fun d =>
  match status with
  | none => true
  | some s => d.status == s

/-- One node of the `/sections/tree` response (`SectionTree` in
`models/section.py`). -/
inductive SectionTree where
  | node : String → String → String → String → Nat → Int → String → Bool →
      List SectionTree → SectionTree

/-- Whether some node of a tree carries the id `x`. -/
def SectionTree.hasId (x : String) : SectionTree → Bool
  | .node i _ _ _ _ _ _ _ cs => i == x || cs.attach.any (fun t => t.1.hasId x)
decreasing_by
  have := List.sizeOf_lt_of_mem t.2
  simp_wf
  omega

/-- Whether some node of a forest carries the id `x`. -/
def forestHasId (x : String) (ts : List SectionTree) : Bool :=
  ts.any (fun t => t.hasId x)

/-- The children lists produced by `get_sections_tree`'s two-pass build: a
node's children are exactly the loaded documents whose `parent_id` equals
its id, in loaded order, recursively (the Python version builds this object
graph by mutating shared `SectionTree` values; with unique `_id`s among the
loaded documents the result is this forest).  `fuel` bounds nesting depth. -/
def childForest (loaded : List Doc) : Nat → String → List SectionTree
  | 0, _ => []
  | fuel + 1, pid =>
    (loaded.filter (fun d => d.parent_id == some pid)).map (fun d =>
      SectionTree.node d._id d.title d.slug d.full_path d.level d.order
        d.status d.in_main_menu (childForest loaded fuel d._id))

/-- `get_sections_tree(status?)`: load at most 1000 sections (optionally
filtered by status, sorted by `order`), return the loaded documents with
falsy `parent_id` as roots, each with its `childForest`. -/
def get_sections_tree (db : List Doc) (status : Option String) :
    List SectionTree :=
  let q := db.filter (statusFilter status)
  let loaded := (sortByOrder q).take 1000
  (loaded.filter (fun d => !truthy d.parent_id)).map (fun d =>
    SectionTree.node d._id d.title d.slug d.full_path d.level d.order
      d.status d.in_main_menu (childForest loaded loaded.length d._id))

/-- One breadcrumb entry `{id, title, full_path}`. -/
structure Crumb where
  id : String
  title : String
  full_path : String
deriving DecidableEq, Repr

/-- The breadcrumb `while current_parent_id:` loop: walk `parent_id`
pointers upward, prepending each resolved ancestor, stopping silently at a
dangling pointer or a falsy `parent_id`. -/
def crumbWalk (db : List Doc) : Nat → String → List Crumb → List Crumb
  | 0, _, acc => acc
  | fuel + 1, current, acc =>
    match findOne db (fun d => d._id == current) with
    | none => acc
    | some parent =>
      let acc' : List Crumb := ⟨parent._id, parent.title, parent.full_path⟩ :: acc
      match parent.parent_id with
      | none => acc'
      | some nxt =>
        if nxt == "" then acc' else crumbWalk db fuel nxt acc'

/-- The enriched document returned by `get_section`: the fetched document
(pre-increment), its `children_count` and its `breadcrumbs`. -/
structure GetResult where
  sec : Doc
  children_count : Nat
  breadcrumbs : List Crumb
deriving DecidableEq, Repr

/-- `get_section(id_or_slug)`: resolve by `_id`, then `slug`, then
`full_path` with a leading `"/"` prepended, then raw `full_path`; 404 when
nothing matches.  Increments `views` on the resolved document (when
`increment_views`), computes `children_count` and breadcrumbs, and returns
the result together with the store after the view increment. -/
def get_section (db : List Doc) (id_or_slug : String)
    (increment_views : Bool) : Except HTTPError (GetResult × List Doc) :=
  let found :=
    match findOne db (fun d => d._id == id_or_slug) with
    | some s => some s
    | none =>
      match findOne db (fun d => d.slug == id_or_slug) with
      | some s => some s
      | none =>
        match findOne db (fun d => d.full_path == "/" ++ id_or_slug) with
        | some s => some s
        | none => findOne db (fun d => d.full_path == id_or_slug)
  match found with
  | none => .error ⟨404, "Section not found"⟩
  | some s =>
    let db1 :=
      if increment_views then
        updateFirst (fun d => d._id == s._id)
          (fun d => { d with views := d.views + 1 }) db
      else db
    let cc := (db1.filter (fun d => d.parent_id == some s._id)).length
    let bc :=
      match s.parent_id with
      | none => []
      | some p => if p == "" then [] else crumbWalk db1 (db1.length + 1) p []
    .ok ({ sec := s, children_count := cc, breadcrumbs := bc }, db1)

/-- `SectionUpdate` from `models/section.py`: every field optional; a `none`
field is absent from `update_data` (`model_dump()` filtered by
`v is not None`). -/
structure SectionUpdate where
  title : Option String := none
  slug : Option String := none
  description : Option String := none
  cover_image : Option String := none
  parent_id : Option String := none
  order : Option Int := none
  in_main_menu : Option Bool := none
  menu_title : Option String := none
  modules : Option (List String) := none
  child_types : Option (List String) := none
  show_children_list : Option Bool := none
  seo : Option String := none
  tags : Option (List String) := none
  status : Option String := none
deriving DecidableEq, Repr

/-- Application of the non-`None` payload fields of `update_data` to a
document, plus the unconditional `updated_at` refresh.  The derived
`full_path`/`level`/`parent_path` writes are layered on top of this by
`update_section`'s branches. -/
def applyBase (data : SectionUpdate) (now : String) (d : Doc) : Doc :=
  { d with
    title := data.title.getD d.title,
    slug := data.slug.getD d.slug,
    description := (match data.description with
      | some v => some v
      | none => d.description),
    cover_image := (match data.cover_image with
      | some v => some v
      | none => d.cover_image),
    parent_id := (match data.parent_id with
      | some v => some v
      | none => d.parent_id),
    order := data.order.getD d.order,
    in_main_menu := data.in_main_menu.getD d.in_main_menu,
    menu_title := (match data.menu_title with
      | some v => some v
      | none => d.menu_title),
    modules := data.modules.getD d.modules,
    child_types := data.child_types.getD d.child_types,
    show_children_list := data.show_children_list.getD d.show_children_list,
    seo := data.seo.getD d.seo,
    tags := data.tags.getD d.tags,
    status := data.status.getD d.status,
    updated_at := now }

/-- `update_section(id, data)`: 404 when `id` is absent; when the payload
carries a non-null `parent_id`, run the cycle check (400 on failure),
recompute `full_path`/`level`/`parent_path` from the new parent, propagate
to descendants, then write; when only a non-null `slug` is carried,
recompute the path against the stored parent and propagate; otherwise write
just the non-null payload fields plus `updated_at`.  Children propagation
happens before the node's own write, exactly as in the Python code. -/
def update_section (db : List Doc) (id : String) (data : SectionUpdate)
    (now : String) : Except HTTPError (List Doc) :=
  match findOne db (fun d => d._id == id) with
  | none => .error ⟨404, "Section not found"⟩
  | some sec =>
    if data.parent_id.isSome then
      if check_circular_reference db id data.parent_id then
        .error ⟨400, "Cannot set parent: would create circular reference"⟩
      else
        let new_slug := data.slug.getD sec.slug
        match build_full_path db data.parent_id new_slug with
        | .error e => .error e
        | .ok (new_full_path, new_level) =>
          let new_parent_path :=
            match data.parent_id with
            | some p =>
              if p == "" then none
              else (findOne db (fun d => d._id == p)).map (·.full_path)
            | none => none
          let db1 := update_children_paths (db.length + 1) id new_full_path db
          .ok (updateFirst (fun d => d._id == id)
            (fun d => { applyBase data now d with
                          full_path := new_full_path, level := new_level,
                          parent_path := new_parent_path }) db1)
    else if data.slug.isSome then
      let new_slug := data.slug.getD sec.slug
      match build_full_path db sec.parent_id new_slug with
      | .error e => .error e
      | .ok (new_full_path, new_level) =>
        let db1 := update_children_paths (db.length + 1) id new_full_path db
        .ok (updateFirst (fun d => d._id == id)
          (fun d => { applyBase data now d with
                        full_path := new_full_path, level := new_level }) db1)
    else
      .ok (updateFirst (fun d => d._id == id) (applyBase data now) db)

/-- `delete_section(id, cascade)`: 404 when `id` is absent; with direct
children and `cascade=false`, 400 reporting the child count; with
`cascade=true`, recursively delete the first 1000 direct children
depth-first, then delete the node.  `fuel` bounds the recursion depth. -/
def delete_section (fuel : Nat) (db : List Doc) (id : String)
    (cascade : Bool) : Except HTTPError (List Doc) :=
  match fuel with
  | 0 => .error ⟨500, "recursion depth exceeded"⟩
  | fuel + 1 =>
    match findOne db (fun d => d._id == id) with
    | none => .error ⟨404, "Section not found"⟩
    | some _ =>
      let children_count := (db.filter (fun d => d.parent_id == some id)).length
      if children_count > 0 && !cascade then
        .error ⟨400, "Section has " ++ toString children_count ++
          " children. Use cascade=true to delete all."⟩
      else
        let rec0 : Except HTTPError (List Doc) :=
          if cascade && children_count > 0 then
            (db.filter (fun d => d.parent_id == some id)).take 1000
              |>.foldlM (fun acc c => delete_section fuel acc c._id true) db
          else .ok db
        match rec0 with
        | .error e => .error e
        | .ok db1 => .ok (eraseFirst (fun d => d._id == id) db1)

/-- The API-level delete entry point: the Python recursion carries no fuel;
`db.length + 1` is shown sufficient on well-formed states. -/
def delete_section_api (db : List Doc) (id : String) (cascade : Bool) :
    Except HTTPError (List Doc) :=
  delete_section (db.length + 1) db id cascade

/-! ## Specification-side predicates

These are the vocabulary the theorems are stated in.  They are not used by
the embedded operations above. -/

/-- The stored `_id`s, in natural order. -/
def idsOf (db : List Doc) : List String :=
  db.map (·._id)

/-- The `_id` uniqueness the document store enforces on a collection. -/
def UniqueIds (db : List Doc) : Prop :=
  (idsOf db).Nodup

/-- Ids are generated by `uuid4` at creation and are never the empty
string. -/
def NoEmptyIds (db : List Doc) : Prop :=
  ∀ d ∈ db, d._id ≠ ""

/-- The parent-pointer skeleton: each document's `(_id, parent_id)`. -/
def skelPairs (db : List Doc) : List (String × Option String) :=
  db.map (fun d => (d._id, d.parent_id))

/-- A document with its mutable-path fields blanked; two stores with equal
`strip` images agree on everything except `full_path`/`parent_path`. -/
def strip (d : Doc) : Doc :=
  { d with full_path := "", parent_path := none }

/-- First stored document carrying the id `x`. -/
def look (db : List Doc) (x : String) : Option Doc :=
  db.find? (fun d => d._id == x)

/-- `DescL l a ms c`: in the pointer skeleton `l`, the id `c` descends from
the id `a` through the pointer chain `ms` (`ms` lists the ids from `c`
upward, excluding `a` itself; its last element's pointer is `a`). -/
inductive DescL : List (String × Option String) → String → List String → String → Prop
  | direct {l : List (String × Option String)} {a c : String}
      (h : (c, some a) ∈ l) : DescL l a [c] c
  | trans {l : List (String × Option String)} {a m c : String} {ms : List String}
      (h : (c, some m) ∈ l) (hm : DescL l a ms m) : DescL l a (c :: ms) c

/-- `c` is a (direct or transitive) descendant id of `a` in the skeleton. -/
def DescId (l : List (String × Option String)) (a c : String) : Prop :=
  ∃ ms, DescL l a ms c

/-- The path rewrite `update_children_paths` applies to a child under the
prefix `p`. -/
def rw (p : String) (d : Doc) : Doc :=
  { d with full_path := p ++ "/" ++ d.slug, parent_path := some p }

/-- The `full_path` half of the spec's path invariant: a falsy `parent_id`
gives `"/" + slug`, a truthy one gives the (unique) parent document's
`full_path + "/" + slug`. -/
def FullPathInv (db : List Doc) : Prop :=
  ∀ d ∈ db,
    (¬ truthy d.parent_id = true → d.full_path = "/" ++ d.slug) ∧
    (∀ p, d.parent_id = some p → p ≠ "" →
      ∃ q, look db p = some q ∧ d.full_path = q.full_path ++ "/" ++ d.slug)

/-- The `level` half of the spec's path invariant. -/
def LevelInv (db : List Doc) : Prop :=
  ∀ d ∈ db,
    (¬ truthy d.parent_id = true → d.level = 0) ∧
    (∀ p, d.parent_id = some p → p ≠ "" →
      ∃ q, look db p = some q ∧ d.level = q.level + 1)

/-- No stored section has more than 1000 direct children, so every
`to_list(1000)` snapshot in the routes is complete. -/
def FanoutCap (db : List Doc) : Prop :=
  ∀ s : String, (db.filter (fun d => d.parent_id == some s)).length ≤ 1000

/-- A well-formed store: unique non-empty ids and a consistent `full_path`
tree — the states reachable through `create_section`/`update_section`. -/
def WF (db : List Doc) : Prop :=
  UniqueIds db ∧ NoEmptyIds db ∧ FullPathInv db

/-- `UpChain db x l`: walking `parent_id` pointers upward from the id `x`
resolves exactly the documents `l` (nearest ancestor first), the last of
which has a falsy or dangling `parent_id`. -/
inductive UpChain (db : List Doc) : String → List Doc → Prop
  | last {p : Doc} (hp : p ∈ db)
      (hstop : p.parent_id = none ∨ p.parent_id = some "" ∨
        (∀ q, p.parent_id = some q → look db q = none)) :
      UpChain db p._id [p]
  | cons {p : Doc} {x : String} {l : List Doc} (hp : p ∈ db)
      (hx : p.parent_id = some x) (hne : x ≠ "") (hl : UpChain db x l) :
      UpChain db p._id (p :: l)

/-- Executable check for `FullPathInv`, used to discharge hypotheses on
concrete stores. -/
def fullPathInvB (db : List Doc) : Bool :=
  db.all (fun d =>
    match d.parent_id with
    | none => d.full_path == "/" ++ d.slug
    | some p =>
      if p == "" then d.full_path == "/" ++ d.slug
      else
        match look db p with
        | some q => d.full_path == q.full_path ++ "/" ++ d.slug
        | none => false)

/-- Executable check for `LevelInv`. -/
def levelInvB (db : List Doc) : Bool :=
  db.all (fun d =>
    match d.parent_id with
    | none => d.level == 0
    | some p =>
      if p == "" then d.level == 0
      else
        match look db p with
        | some q => d.level == q.level + 1
        | none => false)

/-- Executable check for `NoEmptyIds`. -/
def noEmptyIdsB (db : List Doc) : Bool :=
  db.all (fun d => !(d._id == ""))

/-- A section document with the given tree position and neutral values for
the remaining fields; used to build concrete witness stores. -/
def mkDoc (i slug fp : String) (pid pp : Option String) (lv : Nat)
    (ord : Int) : Doc :=
  { _id := i, title := "T" ++ i, slug := slug, full_path := fp,
    description := none, cover_image := none, parent_id := pid,
    parent_path := pp, level := lv, order := ord, in_main_menu := false,
    menu_title := none, modules := [], child_types := [],
    show_children_list := true, seo := "{}", tags := [], status := "draft",
    views := 0, created_at := "t0", updated_at := "t0" }

/-- Witness store: root `r` with child `a` and grandchild `b`. -/
def wdb1 : List Doc :=
  [ mkDoc "r" "r" "/r" none none 0 0,
    mkDoc "a" "a" "/r/a" (some "r") (some "/r") 1 1,
    mkDoc "b" "b" "/r/a/b" (some "a") (some "/r/a") 2 2 ]

/-- The breadcrumb entry built from an ancestor document. -/
def crumbOf (q : Doc) : Crumb :=
  ⟨q._id, q.title, q.full_path⟩

/-- The section document a `get_section` result resolved to, if any. -/
def secOf (r : Except HTTPError (GetResult × List Doc)) : Option Doc :=
  r.toOption.map (fun y => y.1.sec)

/-- The document `create_section` inserts on success (given the computed
`full_path` and `level`). -/
def createdDoc (db : List Doc) (data : SectionCreate) (newId now fp : String)
    (lv : Nat) : Doc :=
  { _id := newId, title := data.title, slug := data.slug, full_path := fp,
    description := data.description, cover_image := data.cover_image,
    parent_id := data.parent_id,
    parent_path :=
      if truthy data.parent_id then
        (findOne db (fun d => some d._id == data.parent_id)).map (·.full_path)
      else none,
    level := lv, order := data.order, in_main_menu := data.in_main_menu,
    menu_title := data.menu_title, modules := data.modules,
    child_types := data.child_types,
    show_children_list := data.show_children_list, seo := data.seo.getD "{}",
    tags := data.tags, status := data.status, views := 0, created_at := now,
    updated_at := now }

/-- Witness store for lookup-precedence scenarios: `"id1"` is both the
`_id` of the first document and the `slug` of the second. -/
def wdb2 : List Doc :=
  [ mkDoc "id1" "s1" "/p1" none none 0 0,
    mkDoc "id2" "id1" "/z" none none 0 1 ]

/-- The list of sections `get_sections_tree` loads: status-filtered, sorted
by `order`, capped at 1000. -/
def loadedOf (db : List Doc) (status : Option String) : List Doc :=
  (sortByOrder (db.filter (statusFilter status))).take 1000

/-- The tree node `get_sections_tree` builds from a document. -/
def treeNodeOf (d : Doc) (cs : List SectionTree) : SectionTree :=
  SectionTree.node d._id d.title d.slug d.full_path d.level d.order d.status
    d.in_main_menu cs

/-- Three tree-scenario documents: one root and its two children. -/
def tdoc1 : Doc := mkDoc "n1" "root" "/root" none none 0 1
def tdoc2 : Doc := mkDoc "n2" "c1" "/root/c1" (some "n1") (some "/root") 1 2
def tdoc3 : Doc := mkDoc "n3" "c2" "/root/c2" (some "n1") (some "/root") 1 3

/-- What `update_children_paths` guarantees, relative to a base store `db`
(fixing the descent structure) and the store `db'` it runs on: the skeleton
is preserved; documents outside `id`'s subtree are untouched; each direct
child of `id` is rewritten under the new prefix; and every deeper
descendant is rewritten consistently with its (already rewritten) parent's
`full_path`. -/
def UcpOut (db db' : List Doc) (id new_path : String) (R : List Doc) : Prop :=
  R.map strip = db.map strip ∧
  (∀ x, ¬ DescId (skelPairs db) id x → look R x = look db' x) ∧
  (∀ x d, look db' x = some d → d.parent_id = some id →
    look R x = some (rw new_path d)) ∧
  (∀ x d m, look db' x = some d → d.parent_id = some m →
    DescId (skelPairs db) id m →
    ∃ q, look R m = some q ∧ look R x = some (rw q.full_path d))

/-- Loop invariant for the fold inside `update_children_paths`: with the
direct children split into `done ++ todo`, the subtrees of `done` are fully
rewritten in `acc` and everything else is untouched. -/
def UcpInv (db db' : List Doc) (id new_path : String)
    (done todo : List Doc) (acc : List Doc) : Prop :=
  acc.map strip = db.map strip ∧
  (∀ x, ¬ DescId (skelPairs db) id x → look acc x = look db' x) ∧
  (∀ x, (∃ ch ∈ todo, x = ch._id ∨ DescId (skelPairs db) ch._id x) →
    look acc x = look db' x) ∧
  (∀ ch ∈ done, look acc ch._id = some (rw new_path ch)) ∧
  (∀ ch ∈ done, ∀ x d m, look db' x = some d → d.parent_id = some m →
    DescId (skelPairs db) ch._id x →
    ∃ q, look acc m = some q ∧ look acc x = some (rw q.full_path d))

/-- What a cascading delete guarantees on a well-formed store: the result
is a sub-store in which the node and its entire subtree are gone and every
other document is untouched. -/
def DelOut (db' : List Doc) (id : String) (R : List Doc) : Prop :=
  List.Sublist R db' ∧
  (∀ x, (x = id ∨ DescId (skelPairs db') id x) → look R x = none) ∧
  (∀ x, ¬(x = id ∨ DescId (skelPairs db') id x) → look R x = look db' x)

/-- Loop invariant for the cascade-delete fold: the subtrees of the
processed children are gone, everything else is untouched. -/
def DelInv (db' : List Doc) (done : List Doc) (acc : List Doc) : Prop :=
  List.Sublist acc db' ∧
  (∀ x, (∃ ch ∈ done, x = ch._id ∨ DescId (skelPairs db') ch._id x) →
    look acc x = none) ∧
  (∀ x, (∀ ch ∈ done, ¬(x = ch._id ∨ DescId (skelPairs db') ch._id x)) →
    look acc x = look db' x)

/-- The store `update_section` produces in its path-recomputing branches:
children propagation on the old store, then the node's own write. -/
def updWrite (db : List Doc) (id nfp : String) (f : Doc → Doc) : List Doc :=
  updateFirst (fun d => d._id == id) f
    (update_children_paths (db.length + 1) id nfp db)

/-- The node rewrite of `update_section`'s `parent_id`-carrying branch. -/
def parentWriter (db : List Doc) (data : SectionUpdate) (now : String)
    (p nfp : String) (nlv : Nat) : Doc → Doc :=
  fun d =>
    let base := applyBase data now d
    let pp : Option String :=
      if p == "" then none
      else (findOne db (fun d2 => d2._id == p)).map (·.full_path)
    { base with full_path := nfp, level := nlv, parent_path := pp }

/-- The node rewrite of `update_section`'s slug-only branch (`parent_path`
is *not* written there). -/
def slugWriter (data : SectionUpdate) (now nfp : String) (nlv : Nat) :
    Doc → Doc :=
  fun d => { applyBase data now d with full_path := nfp, level := nlv }

/-- Move scenario: two roots, `a1` carrying the grandchild `b1`. -/
def wdbMove1 : List Doc :=
  [ mkDoc "r2" "r2" "/r2" none none 0 0,
    mkDoc "a1" "a1" "/a1" none none 0 1,
    mkDoc "b1" "b1" "/a1/b1" (some "a1") (some "/a1") 1 2 ]

/-- Move scenario with a depth change: `q` sits one level below `p`, and
the subtree `A`/`B` is moved under `q`. -/
def wdbMove2 : List Doc :=
  [ mkDoc "p" "p" "/p" none none 0 0,
    mkDoc "q" "q" "/p/q" (some "p") (some "/p") 1 1,
    mkDoc "A" "A" "/A" none none 0 2,
    mkDoc "B" "B" "/A/B" (some "A") (some "/A") 1 3 ]

/-- Slug-update scenario: a root `R` with one child `S`. -/
def wdbSlug : List Doc :=
  [ mkDoc "R" "R" "/R" none none 0 0,
    mkDoc "S" "s" "/R/s" (some "R") (some "/R") 1 1 ]

/-- Cascade-delete scenario: a root `D` with two children. -/
def wdbDel : List Doc :=
  [ mkDoc "D" "D" "/D" none none 0 0,
    mkDoc "e1" "e1" "/D/e1" (some "D") (some "/D") 1 1,
    mkDoc "e2" "e2" "/D/e2" (some "D") (some "/D") 1 2 ]

/-- Child ids for the wide store: pairwise distinct by construction. -/
def cid (i : Nat) : String :=
  String.mk ('c' :: List.replicate i 'x')

/-- The `i`-th direct child of the wide root `P`. -/
def cdoc (i : Nat) : Doc :=
  mkDoc (cid i) (cid i) ("/P/" ++ cid i) (some "P") (some "/P") 1 (i : Int)

/-- A root `P` with 1001 direct children — one more than the `to_list(1000)`
snapshots can see. -/
def bigdb : List Doc :=
  mkDoc "P" "P" "/P" none none 0 0 :: (List.range 1001).map cdoc

/-- The store `update_section` produces when `a1` is moved under `r2` in
`wdbMove1`: `b1` gets the new path prefix but keeps `level = 1`. -/
def wdbMove1R : List Doc :=
  [ mkDoc "r2" "r2" "/r2" none none 0 0,
    { mkDoc "a1" "a1" "/r2/a1" (some "r2") (some "/r2") 1 1 with
        updated_at := "t1" },
    mkDoc "b1" "b1" "/r2/a1/b1" (some "a1") (some "/r2/a1") 1 2 ]

/-- The store `update_section` produces when the subtree `A`/`B` is moved
under `q` in `wdbMove2`: `B` keeps `level = 1` although its parent now sits
at level 2. -/
def wdbMove2R : List Doc :=
  [ mkDoc "p" "p" "/p" none none 0 0,
    mkDoc "q" "q" "/p/q" (some "p") (some "/p") 1 1,
    { mkDoc "A" "A" "/p/q/A" (some "q") (some "/p/q") 2 2 with
        updated_at := "t1" },
    mkDoc "B" "B" "/p/q/A/B" (some "A") (some "/p/q/A") 1 3 ]

/-- The store `update_section` produces on `wdbSlug` for the payload
`{slug: "x"}` (whose `parent_id` is null): `full_path` is recomputed. -/
def wdbSlugR : List Doc :=
  [ mkDoc "R" "R" "/R" none none 0 0,
    { mkDoc "S" "x" "/R/x" (some "R") (some "/R") 1 1 with
        updated_at := "t1" } ]

/-! ## Infrastructure lemmas -/

theorem look_eq_some {db : List Doc} {x : String} {d : Doc}
    (h : look db x = some d) : d ∈ db ∧ d._id = x := by
  refine ⟨List.mem_of_find?_eq_some h, ?_⟩
  have := List.find?_some h
  simpa using this

theorem look_self {db : List Doc} (hU : UniqueIds db) {d : Doc}
    (hd : d ∈ db) : look db d._id = some d := by
  induction db with
  | nil => cases hd
  | cons e ds ih =>
    rcases List.mem_cons.mp hd with rfl | hd'
    · simp [look, List.find?_cons_of_pos]
    · have hne : ¬ (e._id == d._id) = true := by
        intro hcontr
        have : e._id = d._id := by simpa using hcontr
        have : d._id ∈ ds.map (·._id) := List.mem_map_of_mem _ hd'
        have hnodup := hU
        simp only [UniqueIds, idsOf, List.map_cons, List.nodup_cons] at hnodup
        exact hnodup.1 (by rw [← ‹e._id = d._id›] at this; exact this)
      have hU' : UniqueIds ds := by
        simp only [UniqueIds, idsOf, List.map_cons, List.nodup_cons] at hU
        exact hU.2
      simpa [look, List.find?_cons_of_neg, hne] using ih hU' hd'

theorem look_updateFirst_ne {db : List Doc} {y x : String} {f : Doc → Doc}
    (hf : ∀ d, (f d)._id = d._id) (hxy : x ≠ y) :
    look (updateFirst (fun d => d._id == y) f db) x = look db x := by
  induction db with
  | nil => rfl
  | cons e ds ih =>
    by_cases hy : (e._id == y) = true
    · have hey : e._id = y := by simpa using hy
      have hex : ¬ (e._id == x) = true := by
        intro hcontr
        exact hxy (by rw [← (by simpa using hcontr : e._id = x), hey])
      have hfex : ¬ ((f e)._id == x) = true := by
        intro hcontr
        exact hex (by simpa [hf e] using hcontr)
      simp [updateFirst, hy, look, List.find?_cons_of_neg, hex, hfex]
    · by_cases hex : (e._id == x) = true
      · simp [updateFirst, hy, look, List.find?_cons_of_pos, hex]
      · simpa [updateFirst, hy, look, List.find?_cons_of_neg, hex] using ih

theorem look_updateFirst_self {db : List Doc} {y : String} {f : Doc → Doc}
    (hf : ∀ d, (f d)._id = d._id) :
    look (updateFirst (fun d => d._id == y) f db) y = (look db y).map f := by
  induction db with
  | nil => rfl
  | cons e ds ih =>
    by_cases hy : (e._id == y) = true
    · have hfey : ((f e)._id == y) = true := by simpa [hf e] using hy
      simp [updateFirst, hy, look, List.find?_cons_of_pos, hfey]
    · simpa [updateFirst, hy, look, List.find?_cons_of_neg, hy] using ih

theorem strip_rw (p : String) (d : Doc) : strip (rw p d) = strip d := rfl

theorem skelPairs_eq_of_strip {db1 db2 : List Doc}
    (h : db1.map strip = db2.map strip) : skelPairs db1 = skelPairs db2 := by
  have h1 : skelPairs db1 = (db1.map strip).map (fun d => (d._id, d.parent_id)) := by
    simp only [skelPairs, List.map_map]
    rfl
  have h2 : skelPairs db2 = (db2.map strip).map (fun d => (d._id, d.parent_id)) := by
    simp only [skelPairs, List.map_map]
    rfl
  rw [h1, h2, h]

theorem idsOf_eq_of_strip {db1 db2 : List Doc}
    (h : db1.map strip = db2.map strip) : idsOf db1 = idsOf db2 := by
  have h1 : idsOf db1 = (db1.map strip).map (·._id) := by
    simp only [idsOf, List.map_map]
    rfl
  have h2 : idsOf db2 = (db2.map strip).map (·._id) := by
    simp only [idsOf, List.map_map]
    rfl
  rw [h1, h2, h]

theorem strip_updateFirst {db : List Doc} {q : Doc → Bool} {f : Doc → Doc}
    (hf : ∀ d, strip (f d) = strip d) :
    (updateFirst q f db).map strip = db.map strip := by
  induction db with
  | nil => rfl
  | cons e ds ih =>
    by_cases hq : q e = true
    · simp [updateFirst, hq, hf e]
    · simp [updateFirst, hq, ih]

theorem childSkels_eq_of_strip {db1 db2 : List Doc} {s : String}
    (h : db1.map strip = db2.map strip) :
    (db1.filter (fun d => d.parent_id == some s)).map strip =
      (db2.filter (fun d => d.parent_id == some s)).map strip := by
  have key : ∀ db : List Doc,
      (db.filter (fun d => d.parent_id == some s)).map strip =
        (db.map strip).filter (fun d => d.parent_id == some s) := by
    intro db
    induction db with
    | nil => rfl
    | cons e ds ih =>
      by_cases hp : (e.parent_id == some s) = true
      · have hp' : ((strip e).parent_id == some s) = true := hp
        simp [List.filter_cons, hp, hp', ih]
      · have hp' : ¬ ((strip e).parent_id == some s) = true := hp
        simp [List.filter_cons, hp, hp', ih]
  rw [key db1, key db2, h]

/-! ### Descent-chain lemmas -/

theorem descL_subset_ids {l : List (String × Option String)} {a c : String}
    {ms : List String} (h : DescL l a ms c) : ∀ x ∈ ms, x ∈ l.map Prod.fst := by
  induction h with
  | direct h =>
    intro x hx
    simp only [List.mem_singleton] at hx
    subst hx
    exact List.mem_map_of_mem Prod.fst h
  | trans h _ ih =>
    intro x hx
    rcases List.mem_cons.mp hx with rfl | hx'
    · exact List.mem_map_of_mem Prod.fst h
    · exact ih x hx'

theorem descL_head {l : List (String × Option String)} {a c : String}
    {ms : List String} (h : DescL l a ms c) : ∃ tl, ms = c :: tl := by
  cases h with
  | direct _ => exact ⟨[], rfl⟩
  | trans _ hm => exact ⟨_, rfl⟩

theorem descL_comp {l : List (String × Option String)} {a b c : String}
    {ms ns : List String} (hab : DescL l a ms b) (hbc : DescL l b ns c) :
    DescL l a (ns ++ ms) c := by
  induction hbc with
  | direct h => exact DescL.trans h hab
  | trans h _ ih => exact DescL.trans h ih

/-- Parent pointers are functional in a store with unique ids. -/
theorem pointer_unique {db : List Doc} (hU : UniqueIds db)
    {x : String} {p1 p2 : Option String}
    (h1 : (x, p1) ∈ skelPairs db) (h2 : (x, p2) ∈ skelPairs db) : p1 = p2 := by
  simp only [skelPairs, List.mem_map] at h1 h2
  obtain ⟨d1, hd1, he1⟩ := h1
  obtain ⟨d2, hd2, he2⟩ := h2
  have hx1 : d1._id = x := congrArg Prod.fst he1
  have hx2 : d2._id = x := congrArg Prod.fst he2
  have hdd : d1 = d2 := by
    have hl1 := look_self hU hd1
    have hl2 := look_self hU hd2
    rw [hx1] at hl1
    rw [hx2] at hl2
    rw [hl1] at hl2
    exact (Option.some.injEq _ _).mp hl2
  have hp1 : d1.parent_id = p1 := congrArg Prod.snd he1
  have hp2 : d2.parent_id = p2 := congrArg Prod.snd he2
  rw [← hp1, ← hp2, hdd]

/-- A chain from `a` back to `a` pumps to arbitrarily long chains. -/
theorem descL_pump {l : List (String × Option String)} {a : String}
    {ms : List String} (h : DescL l a ms a) :
    ∀ n : Nat, ∃ ns, DescL l a ns a ∧ n ≤ ns.length := by
  intro n
  induction n with
  | zero => exact ⟨ms, h, Nat.zero_le _⟩
  | succ k ih =>
    obtain ⟨ns, hns, hlen⟩ := ih
    refine ⟨ms ++ ns, descL_comp hns h, ?_⟩
    have h1 : 1 ≤ ms.length := by
      obtain ⟨tl, rfl⟩ := descL_head h
      simp
    simp only [List.length_append]
    omega

/-- If all chains below `a` are bounded, no chain returns to `a`. -/
theorem no_cycle {l : List (String × Option String)} {a : String} {B : Nat}
    (hB : ∀ ms c, DescL l a ms c → ms.length < B) :
    ∀ ms, ¬ DescL l a ms a := by
  intro ms h
  obtain ⟨ns, hns, hlen⟩ := descL_pump h B
  exact absurd (hB ns a hns) (by omega)

/-- `full_path` length of the document carrying id `x` (0 when absent). -/
def fpLen (db : List Doc) (x : String) : Nat :=
  match look db x with
  | some d => d.full_path.length
  | none => 0

theorem pair_doc {db : List Doc} {x : String} {p : Option String}
    (h : (x, p) ∈ skelPairs db) :
    ∃ d ∈ db, d._id = x ∧ d.parent_id = p := by
  simp only [skelPairs, List.mem_map] at h
  obtain ⟨d, hd, he⟩ := h
  exact ⟨d, hd, congrArg Prod.fst he, congrArg Prod.snd he⟩

/-- Along a descent chain, `full_path` lengths strictly increase downward
(on a store satisfying the path invariant), so the chain ids are strictly
ordered and in particular distinct. -/
theorem descL_fpLen {db : List Doc} (hU : UniqueIds db) (hE : NoEmptyIds db)
    (hInv : FullPathInv db) {a : String} {ms : List String} {c : String}
    (h : DescL (skelPairs db) a ms c) {adoc : Doc} (ha : look db a = some adoc) :
    (∀ x ∈ ms, fpLen db a < fpLen db x) ∧
      ms.Pairwise (fun x y => fpLen db y < fpLen db x) := by
  have hane : a ≠ "" := by
    obtain ⟨hmem, hid⟩ := look_eq_some ha
    rw [← hid]
    exact hE adoc hmem
  induction h with
  | direct hpair =>
    obtain ⟨d, hd, hid, hp⟩ := pair_doc hpair
    have hfp := (hInv d hd).2 _ hp hane
    obtain ⟨q, hq, hfpe⟩ := hfp
    have hqa : q = adoc := by
      rw [ha] at hq
      exact ((Option.some.injEq _ _).mp hq).symm
    constructor
    · intro x hx
      simp only [List.mem_singleton] at hx
      subst hx
      have hlook : look db d._id = some d := look_self hU hd
      rw [hid] at hlook
      simp only [fpLen, hlook, ha, hfpe, hqa]
      have h1 : ("/" : String).length = 1 := rfl
      have : (adoc.full_path ++ "/" ++ d.slug).length =
          adoc.full_path.length + 1 + d.slug.length := by
        simp [String.length_append, h1]
      omega
    · simp
  | @trans m c' ms' hpair hm ih =>
    obtain ⟨d, hd, hid, hp⟩ := pair_doc hpair
    have hmdoc : ∃ md ∈ db, md._id = m := by
      cases hm with
      | direct h2 =>
        obtain ⟨md, hmd, hmid, _⟩ := pair_doc h2
        exact ⟨md, hmd, hmid⟩
      | trans h2 _ =>
        obtain ⟨md, hmd, hmid, _⟩ := pair_doc h2
        exact ⟨md, hmd, hmid⟩
    obtain ⟨md, hmdmem, hmdid⟩ := hmdoc
    have hmne : m ≠ "" := by
      rw [← hmdid]
      exact hE md hmdmem
    have hfp := (hInv d hd).2 _ hp hmne
    obtain ⟨q, hq, hfpe⟩ := hfp
    have hlookm : look db m = some md := by
      have := look_self hU hmdmem
      rwa [hmdid] at this
    have hqmd : q = md := by
      rw [hlookm] at hq
      exact ((Option.some.injEq _ _).mp hq).symm
    obtain ⟨ihlt, ihpw⟩ := ih
    have hmm : fpLen db m < fpLen db c' := by
      have hlookc : look db d._id = some d := look_self hU hd
      rw [hid] at hlookc
      simp only [fpLen, hlookc, hlookm, hfpe, hqmd]
      have h1 : ("/" : String).length = 1 := rfl
      have : (md.full_path ++ "/" ++ d.slug).length =
          md.full_path.length + 1 + d.slug.length := by
        simp [String.length_append, h1]
      omega
    have hmin : m ∈ ms' := by
      obtain ⟨tl, htl⟩ := descL_head hm
      rw [htl]
      exact List.mem_cons_self _ _
    have halllt : ∀ y ∈ ms', fpLen db y ≤ fpLen db m := by
      obtain ⟨tl, htl⟩ := descL_head hm
      subst htl
      intro y hy
      rcases List.mem_cons.mp hy with rfl | hy'
      · exact Nat.le_refl _
      · have := (List.pairwise_cons.mp ihpw).1 y hy'
        omega
    constructor
    · intro x hx
      rcases List.mem_cons.mp hx with rfl | hx'
      · have := ihlt m hmin
        omega
      · exact ihlt x hx'
    · refine List.pairwise_cons.mpr ⟨?_, ihpw⟩
      intro y hy
      have := halllt y hy
      omega

theorem descL_nodup {db : List Doc} (hU : UniqueIds db) (hE : NoEmptyIds db)
    (hInv : FullPathInv db) {a : String} {ms : List String} {c : String}
    (h : DescL (skelPairs db) a ms c) {adoc : Doc}
    (ha : look db a = some adoc) : ms.Nodup := by
  have hpw := (descL_fpLen hU hE hInv h ha).2
  refine List.Pairwise.imp ?_ hpw
  intro x y hxy
  intro hcontr
  subst hcontr
  omega

theorem descL_length_le {db : List Doc} (hU : UniqueIds db) (hE : NoEmptyIds db)
    (hInv : FullPathInv db) {a : String} {ms : List String} {c : String}
    (h : DescL (skelPairs db) a ms c) {adoc : Doc}
    (ha : look db a = some adoc) : ms.length ≤ db.length := by
  have hnd := descL_nodup hU hE hInv h ha
  have hsub : ms ⊆ idsOf db := by
    intro x hx
    have := descL_subset_ids h x hx
    simpa [skelPairs, idsOf, List.map_map] using this
  have hsp := List.subperm_of_subset hnd hsub
  have := hsp.length_le
  simpa [idsOf] using this

/-- The standing chain bound on a well-formed store: every descent chain is
shorter than `db.length + 1`, the fuel the API entry points pass. -/
theorem wf_chain_bound {db : List Doc} (hW : WF db) {a : String} {adoc : Doc}
    (ha : look db a = some adoc) :
    ∀ ms c, DescL (skelPairs db) a ms c → ms.length < db.length + 1 := by
  intro ms c h
  have := descL_length_le hW.1 hW.2.1 hW.2.2 h ha
  omega

/-! ### Cycle-check lemmas -/

theorem circLoop_true {db : List Doc} (hU : UniqueIds db) (hE : NoEmptyIds db)
    {S : String} (hSne : S ≠ "") {ms : List String} {p : String}
    (h : DescL (skelPairs db) S ms p) :
    ∀ fuel visited, ms.length < fuel → circLoop db S fuel p visited = true := by
  induction h with
  | @direct p' hpair =>
    intro fuel visited hlen
    obtain ⟨d, hd, hid, hp⟩ := pair_doc hpair
    match fuel, hlen with
    | fuel + 1, hlen =>
      by_cases hv : p' ∈ visited
      · simp [circLoop, hv]
      · by_cases hps : p' = S
        · simp [circLoop, hv, hps]
        · have hlook : findOne db (fun d => d._id == p') = some d := by
            have := look_self hU hd
            rw [hid] at this
            exact this
          have hstep : circLoop db S (fuel + 1) p' visited =
              circLoop db S fuel S (p' :: visited) := by
            simp [circLoop, hv, hps, hlook, hp, hSne]
          rw [hstep]
          have hf1 : 1 ≤ fuel := by
            simp only [List.length_singleton] at hlen
            omega
          match fuel, hf1 with
          | fuel + 1, _ => simp [circLoop]
  | @trans m p' ms' hpair hm ih =>
    intro fuel visited hlen
    obtain ⟨d, hd, hid, hp⟩ := pair_doc hpair
    have hmdoc : ∃ md ∈ db, md._id = m := by
      cases hm with
      | direct h2 =>
        obtain ⟨md, hmd, hmid, _⟩ := pair_doc h2
        exact ⟨md, hmd, hmid⟩
      | trans h2 _ =>
        obtain ⟨md, hmd, hmid, _⟩ := pair_doc h2
        exact ⟨md, hmd, hmid⟩
    obtain ⟨md, hmdmem, hmdid⟩ := hmdoc
    have hmne : m ≠ "" := by
      rw [← hmdid]
      exact hE md hmdmem
    match fuel, hlen with
    | fuel + 1, hlen =>
      by_cases hv : p' ∈ visited
      · simp [circLoop, hv]
      · by_cases hps : p' = S
        · simp [circLoop, hv, hps]
        · have hlook : findOne db (fun d => d._id == p') = some d := by
            have := look_self hU hd
            rw [hid] at this
            exact this
          have hstep : circLoop db S (fuel + 1) p' visited =
              circLoop db S fuel m (p' :: visited) := by
            simp [circLoop, hv, hps, hlook, hp, hmne]
          rw [hstep]
          apply ih
          simp only [List.length_cons] at hlen
          omega

/-- The cycle check fires on the section itself and on every chain
descendant of the section. -/
theorem check_circular_true {db : List Doc} (hW : WF db) {S : String}
    {Sdoc : Doc} (hS : look db S = some Sdoc) {p : String}
    (hp : p = S ∨ DescId (skelPairs db) S p) :
    check_circular_reference db S (some p) = true := by
  obtain ⟨hSmem, hSid⟩ := look_eq_some hS
  have hSne : S ≠ "" := by
    rw [← hSid]
    exact hW.2.1 Sdoc hSmem
  rcases hp with rfl | ⟨ms, hdesc⟩
  · simp only [check_circular_reference]
    have : ¬ (p == "") = true := by simpa using hSne
    simp [this]
  · have hpne : p ≠ "" := by
      cases hdesc with
      | direct h2 =>
        obtain ⟨d, hd, hid, _⟩ := pair_doc h2
        rw [← hid]
        exact hW.2.1 d hd
      | trans h2 _ =>
        obtain ⟨d, hd, hid, _⟩ := pair_doc h2
        rw [← hid]
        exact hW.2.1 d hd
    simp only [check_circular_reference]
    have hpne' : ¬ (p == "") = true := by simpa using hpne
    simp only [hpne', if_false]
    by_cases hsp : (S == p) = true
    · simp [hsp]
    · simp only [hsp, Bool.false_eq_true, if_false]
      have hbound := wf_chain_bound hW hS ms p hdesc
      exact circLoop_true hW.1 hW.2.1 hSne hdesc (db.length + 1) [] hbound

theorem fullPathInv_of_B {db : List Doc} (h : fullPathInvB db = true) :
    FullPathInv db := by
  intro d hd
  have hdall := (List.all_eq_true.mp h) d hd
  constructor
  · intro htr
    match hpid : d.parent_id with
    | none =>
      simp only [fullPathInvB, hpid] at hdall
      simpa using hdall
    | some p =>
      rw [hpid] at htr
      have hpe : p = "" := by
        by_contra hne
        simp [truthy, hne] at htr
      subst hpe
      simp only [fullPathInvB, hpid] at hdall
      simpa using hdall
  · intro p hp hne
    simp only [fullPathInvB, hp] at hdall
    have hne' : ¬ (p == "") = true := by simpa using hne
    simp only [hne', if_false] at hdall
    match hq : look db p with
    | some q =>
      rw [hq] at hdall
      exact ⟨q, rfl, by simpa using hdall⟩
    | none =>
      rw [hq] at hdall
      simp at hdall

theorem levelInv_of_B {db : List Doc} (h : levelInvB db = true) :
    LevelInv db := by
  intro d hd
  have hdall := (List.all_eq_true.mp h) d hd
  constructor
  · intro htr
    match hpid : d.parent_id with
    | none =>
      simp only [levelInvB, hpid] at hdall
      simpa using hdall
    | some p =>
      rw [hpid] at htr
      have hpe : p = "" := by
        by_contra hne
        simp [truthy, hne] at htr
      subst hpe
      simp only [levelInvB, hpid] at hdall
      simpa using hdall
  · intro p hp hne
    simp only [levelInvB, hp] at hdall
    have hne' : ¬ (p == "") = true := by simpa using hne
    simp only [hne', if_false] at hdall
    match hq : look db p with
    | some q =>
      rw [hq] at hdall
      exact ⟨q, rfl, by simpa using hdall⟩
    | none =>
      rw [hq] at hdall
      simp at hdall

theorem noEmptyIds_of_B {db : List Doc} (h : noEmptyIdsB db = true) :
    NoEmptyIds db := by
  intro d hd
  have := (List.all_eq_true.mp h) d hd
  simpa using this

theorem wf_of_B {db : List Doc} (hU : (idsOf db).Nodup)
    (hE : noEmptyIdsB db = true) (hF : fullPathInvB db = true) : WF db :=
  ⟨hU, noEmptyIds_of_B hE, fullPathInv_of_B hF⟩

/-! ## Claim C3 -/

/-- C3: for every stored Section `S`, an update whose payload sets
`parent_id` to `S` itself, to a direct child of `S` (`DescL.direct`), or to
any transitive descendant of `S` fails with the 400
"Cannot set parent: would create circular reference" `InvalidOperation`.
The raise precedes every store write on this path of the handler, which the
embedding reflects by producing no successor store: `S`'s stored
`parent_id`/`full_path`/`level` and all descendants' records are unchanged
by the failed call. -/
theorem C3_cycle_rejection {db : List Doc} (hW : WF db) {S : String}
    {Sdoc : Doc} (hS : look db S = some Sdoc) {p : String}
    (hp : p = S ∨ DescId (skelPairs db) S p) (data : SectionUpdate)
    (hpd : data.parent_id = some p) (now : String) :
    update_section db S data now =
      .error ⟨400, "Cannot set parent: would create circular reference"⟩ := by
  have hcc : check_circular_reference db S (some p) = true :=
    check_circular_true hW hS hp
  have hfind : findOne db (fun d => d._id == S) = some Sdoc := hS
  simp [update_section, hfind, hpd, hcc]

/-- Witness for C3 on the concrete store `wdb1`: re-parenting the root `r`
under its grandchild `b` is rejected. -/
theorem C3_cycle_rejection_witness :
    update_section wdb1 "r" { parent_id := some "b" } "t1" =
      .error ⟨400, "Cannot set parent: would create circular reference"⟩ :=
  C3_cycle_rejection (wf_of_B (by decide) (by decide) (by decide))
    (show look wdb1 "r" = some (mkDoc "r" "r" "/r" none none 0 0) from rfl)
    (Or.inr ⟨["b", "a"], DescL.trans (by decide) (DescL.direct (by decide))⟩)
    { parent_id := some "b" } rfl "t1"

/-! ## Claim C5 -/

theorem create_ok {db : List Doc} {data : SectionCreate} {newId now fp : String}
    {lv : Nat}
    (hex : (if truthy data.parent_id then
        findOne db (fun d => d.slug == data.slug && d.parent_id == data.parent_id)
      else
        findOne db (fun d => d.slug == data.slug && d.parent_id == none)) = none)
    (hbp : build_full_path db data.parent_id data.slug = .ok (fp, lv)) :
    create_section db data newId now =
      .ok (db ++ [createdDoc db data newId now fp lv], newId, data.slug, fp) := by
  by_cases ht : truthy data.parent_id = true
  · rw [if_pos ht] at hex
    simp [create_section, hex, hbp, createdDoc, ht]
  · rw [if_neg ht] at hex
    simp [create_section, hex, hbp, createdDoc, ht]

/-- C5: creating a Section whose `(slug, parent_id)` pair coincides with a
stored sibling's (`null` compared to `null` for roots) fails with the 400
`Conflict` and, the raise preceding the insert, stores nothing; creating
with the same slug under a different parent (here: any payload with no
sibling conflict whose parent resolves) succeeds and appends exactly the
one new document. -/
theorem C5_sibling_uniqueness
    (dbA : List Doc) (dataA : SectionCreate) (idA nowA : String) (e : Doc)
    (heA : e ∈ dbA) (hslugA : e.slug = dataA.slug)
    (hparA : e.parent_id = dataA.parent_id)
    (hokA : dataA.parent_id = none ∨ truthy dataA.parent_id)
    (dbB : List Doc) (dataB : SectionCreate) (idB nowB : String)
    (hnoB : ∀ e ∈ dbB, ¬(e.slug = dataB.slug ∧ e.parent_id = dataB.parent_id))
    (hokB : dataB.parent_id = none ∨ truthy dataB.parent_id)
    (hresB : ∀ p, dataB.parent_id = some p → ∃ q, look dbB p = some q) :
    create_section dbA dataA idA nowA =
      .error ⟨400, "Section with this slug already exists at this level"⟩ ∧
    ∃ doc : Doc,
      create_section dbB dataB idB nowB =
        .ok (dbB ++ [doc], idB, dataB.slug, doc.full_path) ∧
      doc._id = idB ∧ doc.slug = dataB.slug ∧ doc.parent_id = dataB.parent_id := by
  constructor
  · rcases hokA with hroot | htr
    · have ht : ¬ truthy dataA.parent_id = true := by
        rw [hroot]
        simp [truthy]
      have hpred : (fun d => d.slug == dataA.slug && d.parent_id == none) e = true := by
        simp [hslugA, hparA, hroot]
      have : ∃ w, findOne dbA (fun d => d.slug == dataA.slug && d.parent_id == none) = some w := by
        rw [← Option.isSome_iff_exists]
        rw [findOne, List.find?_isSome]
        exact ⟨e, heA, hpred⟩
      obtain ⟨w, hw⟩ := this
      simp [create_section, ht, hw]
    · have hpred : (fun d => d.slug == dataA.slug && d.parent_id == dataA.parent_id) e = true := by
        simp [hslugA, hparA]
      have : ∃ w, findOne dbA (fun d => d.slug == dataA.slug && d.parent_id == dataA.parent_id) = some w := by
        rw [← Option.isSome_iff_exists]
        rw [findOne, List.find?_isSome]
        exact ⟨e, heA, hpred⟩
      obtain ⟨w, hw⟩ := this
      simp [create_section, htr, hw]
  · have hexB : (if truthy dataB.parent_id then
        findOne dbB (fun d => d.slug == dataB.slug && d.parent_id == dataB.parent_id)
      else
        findOne dbB (fun d => d.slug == dataB.slug && d.parent_id == none)) = none := by
      rcases hokB with hroot | htr
      · have ht : ¬ truthy dataB.parent_id = true := by
          rw [hroot]
          simp [truthy]
        rw [if_neg ht]
        rw [findOne, List.find?_eq_none]
        intro d hd
        intro hcontr
        have h1 : d.slug = dataB.slug := by
          have := (Bool.and_eq_true _ _).mp hcontr
          simpa using this.1
        have h2 : d.parent_id = none := by
          have := (Bool.and_eq_true _ _).mp hcontr
          simpa using this.2
        exact hnoB d hd ⟨h1, h2.trans hroot.symm⟩
      · rw [if_pos htr]
        rw [findOne, List.find?_eq_none]
        intro d hd
        intro hcontr
        have h1 : d.slug = dataB.slug := by
          have := (Bool.and_eq_true _ _).mp hcontr
          simpa using this.1
        have h2 : d.parent_id = dataB.parent_id := by
          have := (Bool.and_eq_true _ _).mp hcontr
          simpa using this.2
        exact hnoB d hd ⟨h1, h2⟩
    match hpid : dataB.parent_id with
    | none =>
      have hbp : build_full_path dbB dataB.parent_id dataB.slug =
          .ok ("/" ++ dataB.slug, 0) := by
        rw [hpid]
        rfl
      refine ⟨createdDoc dbB dataB idB nowB ("/" ++ dataB.slug) 0,
        ?_, rfl, rfl, hpid ▸ rfl⟩
      exact create_ok hexB hbp
    | some p =>
      have hpne : p ≠ "" := by
        rcases hokB with hroot | htr
        · rw [hpid] at hroot
          cases hroot
        · rw [hpid] at htr
          simp [truthy] at htr
          intro hcontr
          exact htr (by simp [hcontr])
      obtain ⟨q, hq⟩ := hresB p hpid
      have hq' : findOne dbB (fun d => d._id == p) = some q := hq
      have hbp : build_full_path dbB dataB.parent_id dataB.slug =
          .ok (q.full_path ++ "/" ++ dataB.slug, q.level + 1) := by
        rw [hpid]
        simp [build_full_path, hpne, hq']
      refine ⟨createdDoc dbB dataB idB nowB (q.full_path ++ "/" ++ dataB.slug) (q.level + 1),
        ?_, rfl, rfl, hpid ▸ rfl⟩
      exact create_ok hexB hbp

/-- Witness for C5 on `wdb1`: slug `"a"` under parent `r` collides with
the stored child `a`; the same slug `"a"` under parent `b` succeeds. -/
theorem C5_sibling_uniqueness_witness :
    create_section wdb1 { title := "dup", slug := "a", parent_id := some "r" } "n1" "t1" =
      .error ⟨400, "Section with this slug already exists at this level"⟩ ∧
    ∃ doc : Doc,
      create_section wdb1 { title := "dup", slug := "a", parent_id := some "b" } "n2" "t2" =
        .ok (wdb1 ++ [doc], "n2", "a", doc.full_path) ∧
      doc._id = "n2" ∧ doc.slug = "a" ∧ doc.parent_id = some "b" := by
  refine C5_sibling_uniqueness wdb1 _ "n1" "t1"
    (mkDoc "a" "a" "/r/a" (some "r") (some "/r") 1 1) (by decide) rfl rfl
    (Or.inr (by decide)) wdb1 _ "n2" "t2" ?_ (Or.inr (by decide)) ?_
  · intro e he
    fin_cases he <;> decide
  · intro p hp
    cases hp
    exact ⟨mkDoc "b" "b" "/r/a/b" (some "a") (some "/r/a") 2 2, rfl⟩

/-! ## Claim C7 -/

/-- C7: `get_section` resolves its argument in the fixed precedence
id, then slug, then `full_path` with a leading `"/"` prepended, then raw
`full_path` — five scenarios quantified separately: an id match wins even
when the argument is simultaneously a stored slug; each later level fires
only when all earlier ones miss; and when every lookup misses, the call
fails with the 404 `NotFound`. -/
theorem C7_lookup_precedence
    (db1 : List Doc) (x1 : String) (iv1 : Bool) (d1 : Doc)
    (h1 : look db1 x1 = some d1)
    (db2 : List Doc) (x2 : String) (iv2 : Bool) (d2 : Doc)
    (h2a : look db2 x2 = none)
    (h2b : db2.find? (fun d => d.slug == x2) = some d2)
    (db3 : List Doc) (x3 : String) (iv3 : Bool) (d3 : Doc)
    (h3a : look db3 x3 = none)
    (h3b : db3.find? (fun d => d.slug == x3) = none)
    (h3c : db3.find? (fun d => d.full_path == "/" ++ x3) = some d3)
    (db4 : List Doc) (x4 : String) (iv4 : Bool) (d4 : Doc)
    (h4a : look db4 x4 = none)
    (h4b : db4.find? (fun d => d.slug == x4) = none)
    (h4c : db4.find? (fun d => d.full_path == "/" ++ x4) = none)
    (h4d : db4.find? (fun d => d.full_path == x4) = some d4)
    (db5 : List Doc) (x5 : String) (iv5 : Bool)
    (h5a : look db5 x5 = none)
    (h5b : db5.find? (fun d => d.slug == x5) = none)
    (h5c : db5.find? (fun d => d.full_path == "/" ++ x5) = none)
    (h5d : db5.find? (fun d => d.full_path == x5) = none) :
    secOf (get_section db1 x1 iv1) = some d1 ∧
    secOf (get_section db2 x2 iv2) = some d2 ∧
    secOf (get_section db3 x3 iv3) = some d3 ∧
    secOf (get_section db4 x4 iv4) = some d4 ∧
    get_section db5 x5 iv5 = .error ⟨404, "Section not found"⟩ := by
  refine ⟨?_, ?_, ?_, ?_, ?_⟩
  · have h1' : findOne db1 (fun d => d._id == x1) = some d1 := h1
    unfold get_section
    rw [h1']
    rfl
  · have h2a' : findOne db2 (fun d => d._id == x2) = none := h2a
    have h2b' : findOne db2 (fun d => d.slug == x2) = some d2 := h2b
    unfold get_section
    rw [h2a', h2b']
    rfl
  · have h3a' : findOne db3 (fun d => d._id == x3) = none := h3a
    have h3b' : findOne db3 (fun d => d.slug == x3) = none := h3b
    have h3c' : findOne db3 (fun d => d.full_path == "/" ++ x3) = some d3 := h3c
    unfold get_section
    rw [h3a', h3b', h3c']
    rfl
  · have h4a' : findOne db4 (fun d => d._id == x4) = none := h4a
    have h4b' : findOne db4 (fun d => d.slug == x4) = none := h4b
    have h4c' : findOne db4 (fun d => d.full_path == "/" ++ x4) = none := h4c
    have h4d' : findOne db4 (fun d => d.full_path == x4) = some d4 := h4d
    unfold get_section
    rw [h4a', h4b', h4c', h4d']
    rfl
  · have h5a' : findOne db5 (fun d => d._id == x5) = none := h5a
    have h5b' : findOne db5 (fun d => d.slug == x5) = none := h5b
    have h5c' : findOne db5 (fun d => d.full_path == "/" ++ x5) = none := h5c
    have h5d' : findOne db5 (fun d => d.full_path == x5) = none := h5d
    unfold get_section
    rw [h5a', h5b', h5c', h5d']

/-- Witness for C7 on `wdb2`: `"id1"` (both an id and a slug) resolves to
the id match; `"s1"`, `"p1"`, `"/z"` resolve through the later levels;
`"nope"` is a 404. -/
theorem C7_lookup_precedence_witness :
    secOf (get_section wdb2 "id1" true) = some (mkDoc "id1" "s1" "/p1" none none 0 0) ∧
    secOf (get_section wdb2 "s1" true) = some (mkDoc "id1" "s1" "/p1" none none 0 0) ∧
    secOf (get_section wdb2 "p1" true) = some (mkDoc "id1" "s1" "/p1" none none 0 0) ∧
    secOf (get_section wdb2 "/z" true) = some (mkDoc "id2" "id1" "/z" none none 0 1) ∧
    get_section wdb2 "nope" true = .error ⟨404, "Section not found"⟩ :=
  C7_lookup_precedence wdb2 "id1" true _ (by decide)
    wdb2 "s1" true _ (by decide) (by decide)
    wdb2 "p1" true _ (by decide) (by decide) (by decide)
    wdb2 "/z" true _ (by decide) (by decide) (by decide) (by decide)
    wdb2 "nope" true (by decide) (by decide) (by decide) (by decide)

/-! ### Breadcrumb-walk lemmas -/

theorem upchain_mem {db : List Doc} {x : String} {l : List Doc}
    (h : UpChain db x l) : ∀ q ∈ l, q ∈ db := by
  induction h with
  | last hp _ =>
    intro q hq
    simp only [List.mem_singleton] at hq
    subst hq
    exact hp
  | cons hp _ _ _ ih =>
    intro q hq
    rcases List.mem_cons.mp hq with rfl | hq'
    · exact hp
    · exact ih q hq'

theorem upchain_head {db : List Doc} {x : String} {l : List Doc}
    (h : UpChain db x l) : ∃ h0 tl, l = h0 :: tl ∧ h0._id = x ∧ h0 ∈ db := by
  cases h with
  | last hp _ => exact ⟨_, [], rfl, rfl, hp⟩
  | cons hp _ _ _ => exact ⟨_, _, rfl, rfl, hp⟩

theorem upchain_suffix {db : List Doc} {x : String} {l : List Doc}
    (h : UpChain db x l) :
    ∀ s ∈ l, ∃ ls, ls <:+ l ∧ UpChain db s._id ls ∧ ∃ tl2, ls = s :: tl2 := by
  induction h with
  | @last p hp hstop =>
    intro s hs
    simp only [List.mem_singleton] at hs
    subst hs
    exact ⟨[s], List.suffix_refl _, UpChain.last hp hstop, [], rfl⟩
  | @cons p x' l' hp hx hne hl ih =>
    intro s hs
    rcases List.mem_cons.mp hs with rfl | hs'
    · exact ⟨s :: l', List.suffix_refl _, UpChain.cons hp hx hne hl, l', rfl⟩
    · obtain ⟨ls, hsuf, hch, tl2, htl⟩ := ih s hs'
      exact ⟨ls, hsuf.trans (List.suffix_cons _ _), hch, tl2, htl⟩

theorem mem_updateFirst_of_ne {db : List Doc} {y : String} {f : Doc → Doc}
    {d : Doc} (hd : d ∈ db) (hne : d._id ≠ y) :
    d ∈ updateFirst (fun e => e._id == y) f db := by
  induction db with
  | nil => cases hd
  | cons e ds ih =>
    rcases List.mem_cons.mp hd with rfl | hd'
    · have : ¬ (d._id == y) = true := by simpa using hne
      simp [updateFirst, this]
    · by_cases he : (e._id == y) = true
      · simp [updateFirst, he, List.mem_cons_of_mem _ hd']
      · simp only [updateFirst, he, Bool.false_eq_true, if_false]
        exact List.mem_cons_of_mem _ (ih hd')

theorem idsOf_updateFirst {db : List Doc} {q : Doc → Bool} {f : Doc → Doc}
    (hf : ∀ d, (f d)._id = d._id) :
    idsOf (updateFirst q f db) = idsOf db := by
  induction db with
  | nil => rfl
  | cons e ds ih =>
    by_cases he : q e = true
    · simp [updateFirst, he, idsOf, hf e]
    · simp only [updateFirst, he, Bool.false_eq_true, if_false]
      simp only [idsOf, List.map_cons] at ih ⊢
      rw [ih]

theorem length_updateFirst {db : List Doc} {q : Doc → Bool} {f : Doc → Doc} :
    (updateFirst q f db).length = db.length := by
  induction db with
  | nil => rfl
  | cons e ds ih =>
    by_cases he : q e = true
    · simp [updateFirst, he]
    · simp [updateFirst, he, ih]

theorem look_none_iff {db : List Doc} {x : String} :
    look db x = none ↔ x ∉ idsOf db := by
  constructor
  · intro h hcontr
    simp only [idsOf, List.mem_map] at hcontr
    obtain ⟨d, hd, hid⟩ := hcontr
    have := List.find?_eq_none.mp h d hd
    simp [hid] at this
  · intro h
    rw [look, List.find?_eq_none]
    intro d hd
    intro hcontr
    exact h (by
      simp only [idsOf, List.mem_map]
      exact ⟨d, hd, by simpa using hcontr⟩)

theorem upchain_transfer {db : List Doc} {y : String} {f : Doc → Doc}
    (hf : ∀ d, (f d)._id = d._id)
    {x : String} {l : List Doc} (h : UpChain db x l)
    (hy : ∀ q ∈ l, q._id ≠ y) :
    UpChain (updateFirst (fun e => e._id == y) f db) x l := by
  induction h with
  | @last p hp hstop =>
    refine UpChain.last (mem_updateFirst_of_ne hp (hy p (by simp))) ?_
    rcases hstop with h1 | h2 | h3
    · exact Or.inl h1
    · exact Or.inr (Or.inl h2)
    · refine Or.inr (Or.inr ?_)
      intro q hqq
      have hn := h3 q hqq
      rw [look_none_iff] at hn ⊢
      rwa [idsOf_updateFirst hf]
  | @cons p x' l' hp hx hne hl ih =>
    refine UpChain.cons (mem_updateFirst_of_ne hp (hy p (by simp))) hx hne
      (ih ?_)
    intro q hq
    exact hy q (List.mem_cons_of_mem _ hq)

theorem crumbWalk_none {db : List Doc} {fuel : Nat} {x : String}
    {acc : List Crumb} (h : look db x = none) :
    crumbWalk db fuel x acc = acc := by
  cases fuel with
  | zero => rfl
  | succ f =>
    have h' : findOne db (fun d => d._id == x) = none := h
    simp [crumbWalk, h']

theorem crumbWalk_chain {db : List Doc} (hU : UniqueIds db) {x : String}
    {l : List Doc} (h : UpChain db x l) :
    ∀ fuel acc, l.length ≤ fuel →
      crumbWalk db fuel x acc = (l.map crumbOf).reverse ++ acc := by
  induction h with
  | @last p hp hstop =>
    intro fuel acc hlen
    match fuel, hlen with
    | fuel + 1, _ =>
      have hlook : findOne db (fun d => d._id == p._id) = some p :=
        look_self hU hp
      show crumbWalk db (fuel + 1) p._id acc = _
      simp only [crumbWalk, hlook]
      match hpp : p.parent_id with
      | none => simp [crumbOf]
      | some q =>
        by_cases hq : (q == "") = true
        · simp [hq, crumbOf]
        · have hdangle : look db q = none := by
            rcases hstop with h1 | h2 | h3
            · rw [hpp] at h1; cases h1
            · rw [hpp] at h2
              have : q = "" := by injection h2
              simp [this] at hq
            · exact h3 q hpp
          simp only [hq, Bool.false_eq_true, if_false]
          rw [crumbWalk_none hdangle]
          simp [crumbOf]
  | @cons p x' l' hp hx hne hl ih =>
    intro fuel acc hlen
    match fuel, hlen with
    | fuel + 1, hlen =>
      have hlook : findOne db (fun d => d._id == p._id) = some p :=
        look_self hU hp
      show crumbWalk db (fuel + 1) p._id acc = _
      simp only [crumbWalk, hlook, hx]
      have hne' : ¬ (x' == "") = true := by simpa using hne
      simp only [hne', Bool.false_eq_true, if_false]
      show crumbWalk db fuel x' (crumbOf p :: acc) =
        (List.map crumbOf (p :: l')).reverse ++ acc
      rw [ih fuel (crumbOf p :: acc) (by
        simp only [List.length_cons] at hlen
        omega)]
      simp

/-- A found section never sits inside its own ancestor chain when the
chain has no duplicates and the section's parent resolves. -/
theorem sec_not_in_chain {db : List Doc} (hU : UniqueIds db) {x : String}
    (hx : x ≠ "") {l : List Doc} (hchain : UpChain db x l) (hnd : l.Nodup)
    {s : Doc} (hs : s.parent_id = some x) {r : Doc} (hr : r ∈ db)
    (hrid : r._id = x) : s ∉ l := by
  intro hmem
  obtain ⟨h0, tl, hl0, hh0id, hh0mem⟩ := upchain_head hchain
  obtain ⟨ls, hsuf, hch, tl2, htl2⟩ := upchain_suffix hchain s hmem
  generalize hgid : s._id = sid at hch
  cases hch with
  | @last p hp hstop =>
    have hps : p = s := ((List.cons.injEq _ _ _ _).mp htl2.symm).1.symm
    subst hps
    rcases hstop with h1 | h2 | h3
    · rw [hs] at h1
      cases h1
    · rw [hs] at h2
      have : x = "" := by injection h2
      exact hx this
    · have hlook : look db x = some r := by
        have := look_self hU hr
        rwa [hrid] at this
      have := h3 x hs
      rw [hlook] at this
      cases this
  | @cons p x' l'2 hp hx2 hne2 hl2 =>
    have hps : p = s := ((List.cons.injEq _ _ _ _).mp htl2).1
    subst hps
    have hx'x : x' = x := by
      rw [hs] at hx2
      injection hx2 with h
      exact h.symm
    subst hx'x
    obtain ⟨q0, tl3, htl3, hq0id, hq0mem⟩ := upchain_head hl2
    have hq0h0 : q0 = h0 := by
      have l1 := look_self hU hq0mem
      have l2 := look_self hU hh0mem
      rw [hq0id] at l1
      rw [hh0id] at l2
      rw [l1] at l2
      exact (Option.some.injEq _ _).mp l2
    have hh0tl2 : h0 ∈ l'2 := by
      rw [htl3, hq0h0]
      exact List.mem_cons_self _ _
    have htl2l : l'2 <:+ l := (List.suffix_cons p l'2).trans hsuf
    rw [hl0] at htl2l
    rcases List.suffix_cons_iff.mp htl2l with heq | hsuf2
    · have hlen1 : (p :: l'2).length ≤ l.length := hsuf.length_le
      have hlen2 : l'2.length = l.length := by rw [heq, hl0]
      simp only [List.length_cons] at hlen1
      omega
    · rw [hl0] at hnd
      exact (List.nodup_cons.mp hnd).1 (hsuf2.subset hh0tl2)

theorem get_section_ok_inv {db : List Doc} {x : String} {iv : Bool}
    {res : GetResult} {dbv : List Doc}
    (h : get_section db x iv = .ok (res, dbv)) :
    res.sec ∈ db ∧
    dbv = (if iv then updateFirst (fun d => d._id == res.sec._id)
      (fun d => { d with views := d.views + 1 }) db else db) ∧
    res.breadcrumbs =
      (match res.sec.parent_id with
       | none => []
       | some p =>
         if p == "" then [] else crumbWalk dbv (dbv.length + 1) p []) := by
  unfold get_section at h
  cases hf1 : findOne db (fun d => d._id == x) with
  | some s =>
    rw [hf1] at h
    simp only [Except.ok.injEq, Prod.mk.injEq] at h
    obtain ⟨hres, hdbv⟩ := h
    subst hres
    subst hdbv
    exact ⟨List.mem_of_find?_eq_some hf1, rfl, rfl⟩
  | none =>
    rw [hf1] at h
    cases hf2 : findOne db (fun d => d.slug == x) with
    | some s =>
      rw [hf2] at h
      simp only [Except.ok.injEq, Prod.mk.injEq] at h
      obtain ⟨hres, hdbv⟩ := h
      subst hres
      subst hdbv
      exact ⟨List.mem_of_find?_eq_some hf2, rfl, rfl⟩
    | none =>
      rw [hf2] at h
      cases hf3 : findOne db (fun d => d.full_path == "/" ++ x) with
      | some s =>
        rw [hf3] at h
        simp only [Except.ok.injEq, Prod.mk.injEq] at h
        obtain ⟨hres, hdbv⟩ := h
        subst hres
        subst hdbv
        exact ⟨List.mem_of_find?_eq_some hf3, rfl, rfl⟩
      | none =>
        rw [hf3] at h
        cases hf4 : findOne db (fun d => d.full_path == x) with
        | some s =>
          rw [hf4] at h
          simp only [Except.ok.injEq, Prod.mk.injEq] at h
          obtain ⟨hres, hdbv⟩ := h
          subst hres
          subst hdbv
          exact ⟨List.mem_of_find?_eq_some hf4, rfl, rfl⟩
        | none =>
          rw [hf4] at h
          cases h

/-! ## Claim C8 -/

/-- C8: for every Section found by `get_section`, the returned breadcrumbs
are exactly the traversable ancestors reached by walking `parent_id`
pointers upward — formalised by `UpChain db p l`, whose last element stops
at a root, an empty pointer, or a dangling pointer (the silent break) —
ordered from root to immediate parent (`(l.map crumbOf).reverse` for the
nearest-first chain `l`), each entry carrying the ancestor's id, title and
`full_path` (`crumbOf`), and excluding the Section itself (the walk starts
at its parent, and `sec_not_in_chain` shows the Section cannot reappear in
the chain).  A falsy `parent_id` yields no breadcrumbs. -/
theorem C8_breadcrumb_chain {db : List Doc} (hU : UniqueIds db) {x : String}
    {iv : Bool} {res : GetResult} {dbv : List Doc}
    (hget : get_section db x iv = .ok (res, dbv)) :
    (¬ truthy res.sec.parent_id = true → res.breadcrumbs = []) ∧
    (∀ p l, res.sec.parent_id = some p → p ≠ "" → UpChain db p l →
      l.Nodup → res.breadcrumbs = (l.map crumbOf).reverse) := by
  obtain ⟨hmem, hdbv, hbc⟩ := get_section_ok_inv hget
  constructor
  · intro hnt
    rw [hbc]
    cases hpp : res.sec.parent_id with
    | none => rfl
    | some p =>
      have hpe : p = "" := by
        by_contra hne
        rw [hpp] at hnt
        simp [truthy, hne] at hnt
      subst hpe
      rfl
  · intro p l hpp hpne hchain hnd
    rw [hbc, hpp]
    have hpne' : ¬ (p == "") = true := by simpa using hpne
    simp only [hpne', Bool.false_eq_true, if_false]
    obtain ⟨h0, tl0, hl0, hh0id, hh0mem⟩ := upchain_head hchain
    have hsnotin : res.sec ∉ l :=
      sec_not_in_chain hU hpne hchain hnd hpp hh0mem hh0id
    have hy : ∀ q ∈ l, q._id ≠ res.sec._id := by
      intro q hq hcontr
      have hqmem := upchain_mem hchain q hq
      have l1 := look_self hU hqmem
      have l2 := look_self hU hmem
      rw [hcontr] at l1
      rw [l1] at l2
      have hqs : q = res.sec := (Option.some.injEq _ _).mp l2
      exact hsnotin (hqs ▸ hq)
    have hfid : ∀ d : Doc,
        ((fun d : Doc => { d with views := d.views + 1 }) d)._id = d._id :=
      fun d => rfl
    have hkey : UniqueIds dbv ∧ dbv.length = db.length ∧ UpChain dbv p l := by
      rw [hdbv]
      by_cases hiv : iv = true
      · rw [if_pos hiv]
        refine ⟨?_, length_updateFirst, upchain_transfer hfid hchain hy⟩
        unfold UniqueIds
        rw [idsOf_updateFirst hfid]
        exact hU
      · rw [if_neg hiv]
        exact ⟨hU, rfl, hchain⟩
    obtain ⟨hU2, hlen2, hchain2⟩ := hkey
    have hlenle : l.length ≤ db.length := by
      have hsub : l ⊆ db := fun q hq => upchain_mem hchain q hq
      exact (List.subperm_of_subset hnd hsub).length_le
    rw [crumbWalk_chain hU2 hchain2 (dbv.length + 1) [] (by omega)]
    simp

/-- Witness for C8 on `wdb1`: fetching the grandchild `b` yields
breadcrumbs `[r, a]`, root first, excluding `b`. -/
theorem C8_breadcrumb_chain_witness :
    (get_section wdb1 "b" true).toOption.map (fun y => y.1.breadcrumbs) =
      some (([mkDoc "a" "a" "/r/a" (some "r") (some "/r") 1 1,
              mkDoc "r" "r" "/r" none none 0 0].map crumbOf).reverse) := by
  have hget : get_section wdb1 "b" true =
      .ok ({ sec := mkDoc "b" "b" "/r/a/b" (some "a") (some "/r/a") 2 2,
             children_count := 0,
             breadcrumbs := [crumbOf (mkDoc "r" "r" "/r" none none 0 0),
               crumbOf (mkDoc "a" "a" "/r/a" (some "r") (some "/r") 1 1)] },
           [ mkDoc "r" "r" "/r" none none 0 0,
             mkDoc "a" "a" "/r/a" (some "r") (some "/r") 1 1,
             ({ mkDoc "b" "b" "/r/a/b" (some "a") (some "/r/a") 2 2 with
                 views := 1 } : Doc) ]) := rfl
  have hU1 : UniqueIds wdb1 := show (idsOf wdb1).Nodup by decide
  have hlast : UpChain wdb1 "r" [mkDoc "r" "r" "/r" none none 0 0] :=
    @UpChain.last wdb1 (mkDoc "r" "r" "/r" none none 0 0) (by decide)
      (Or.inl rfl)
  have hchain : UpChain wdb1 "a"
      [mkDoc "a" "a" "/r/a" (some "r") (some "/r") 1 1,
       mkDoc "r" "r" "/r" none none 0 0] :=
    @UpChain.cons wdb1 (mkDoc "a" "a" "/r/a" (some "r") (some "/r") 1 1) "r"
      [mkDoc "r" "r" "/r" none none 0 0] (by decide) rfl (by decide) hlast
  have happ := (C8_breadcrumb_chain hU1 hget).2 "a"
    [mkDoc "a" "a" "/r/a" (some "r") (some "/r") 1 1,
     mkDoc "r" "r" "/r" none none 0 0] rfl (by decide) hchain (by decide)
  rw [hget]
  exact congrArg some happ

/-! ### Tree-construction lemmas -/

theorem docs_eq_of_id {db : List Doc} (hU : UniqueIds db) {e d : Doc}
    (he : e ∈ db) (hd : d ∈ db) (h : e._id = d._id) : e = d := by
  have l1 := look_self hU he
  have l2 := look_self hU hd
  rw [h] at l1
  rw [l1] at l2
  exact (Option.some.injEq _ _).mp l2

theorem insOrd_perm (d : Doc) (l : List Doc) :
    List.Perm (insOrd d l) (d :: l) := by
  induction l with
  | nil => exact List.Perm.refl _
  | cons x xs ih =>
    by_cases hx : x.order < d.order
    · simp only [insOrd, hx, if_pos]
      exact (List.Perm.cons x ih).trans (List.Perm.swap d x xs)
    · simp [insOrd, hx]

theorem sortByOrder_perm (db : List Doc) :
    List.Perm (sortByOrder db) db := by
  induction db with
  | nil => exact List.Perm.refl _
  | cons x xs ih =>
    exact (insOrd_perm x (sortByOrder xs)).trans (List.Perm.cons x ih)

theorem mem_loadedOf {db : List Doc} {status : Option String} {q : Doc}
    (h : q ∈ loadedOf db status) : q ∈ db := by
  unfold loadedOf at h
  have h1 : q ∈ sortByOrder (db.filter (statusFilter status)) :=
    List.mem_of_mem_take h
  have h2 := (sortByOrder_perm _).mem_iff.mp h1
  exact List.mem_of_mem_filter h2

theorem uniqueIds_loadedOf {db : List Doc} (hU : UniqueIds db)
    (status : Option String) : UniqueIds (loadedOf db status) := by
  unfold UniqueIds idsOf at *
  have hfil : ((db.filter (statusFilter status)).map (·._id)).Nodup := by
    have hsub : List.Sublist (db.filter (statusFilter status)) db :=
      List.filter_sublist db
    exact (hsub.map (fun d : Doc => d._id)).nodup hU
  have hperm := (sortByOrder_perm (db.filter (statusFilter status))).map
    (fun d : Doc => d._id)
  have hsorted := (hperm.nodup_iff).mpr hfil
  unfold loadedOf
  exact ((List.take_sublist 1000 _).map (fun d : Doc => d._id)).nodup hsorted

theorem hasId_node (x i a b c : String) (lv : Nat) (o : Int) (st : String)
    (m : Bool) (cs : List SectionTree) :
    (SectionTree.node i a b c lv o st m cs).hasId x =
      (i == x || cs.any (fun t => t.hasId x)) := by
  simp only [SectionTree.hasId]
  congr 1
  rw [Bool.eq_iff_iff, List.any_eq_true, List.any_eq_true]
  constructor
  · rintro ⟨t, ht, hh⟩
    exact ⟨t.1, t.2, hh⟩
  · rintro ⟨t, ht, hh⟩
    exact ⟨⟨t, ht⟩, List.mem_attach _ _, hh⟩

theorem childForest_no_orphan {loaded : List Doc} (hU : UniqueIds loaded)
    {d : Doc} (hd : d ∈ loaded)
    (horph : ∀ q ∈ loaded, some q._id ≠ d.parent_id) :
    ∀ fuel pid, (∃ q ∈ loaded, q._id = pid) →
      forestHasId d._id (childForest loaded fuel pid) = false := by
  intro fuel
  induction fuel with
  | zero =>
    intro pid _
    rfl
  | succ f ih =>
    rintro pid ⟨q, hq, hqid⟩
    rw [childForest, forestHasId, List.any_eq_false]
    intro t ht
    simp only [List.mem_map] at ht
    obtain ⟨e, he, rfl⟩ := ht
    have hefil := List.mem_filter.mp he
    have hee : e ∈ loaded := hefil.1
    have hepid : e.parent_id = some pid := by simpa using hefil.2
    rw [hasId_node]
    simp only [Bool.or_eq_true, not_or]
    constructor
    · intro hcontr
      have hid : e._id = d._id := by simpa using hcontr
      have hed : e = d := docs_eq_of_id hU hee hd hid
      have hdp : d.parent_id = some pid := hed ▸ hepid
      exact horph q hq (by rw [hqid, hdp])
    · have hrec := ih e._id ⟨e, hee, rfl⟩
      rw [forestHasId] at hrec
      intro hcontr
      rw [hrec] at hcontr
      cases hcontr

theorem tree_eq (db : List Doc) (status : Option String) :
    get_sections_tree db status =
      ((loadedOf db status).filter (fun d => !truthy d.parent_id)).map
        (fun d => treeNodeOf d (childForest (loadedOf db status)
          (loadedOf db status).length d._id)) := rfl

/-! ## Claim C6 -/

/-- C6: the forest `get_sections_tree` returns does not depend on the
order the stored sections arrive in — for the three-node family
{root `n1`, children `n2`, `n3`} every one of the six arrival orders
produces exactly one root entry with the two children — and every loaded
section whose `parent_id` does not resolve to another loaded section's id
(an orphan) is absent from the output forest. -/
theorem C6_tree_construction :
    (get_sections_tree [tdoc1, tdoc2, tdoc3] none =
        [treeNodeOf tdoc1 [treeNodeOf tdoc2 [], treeNodeOf tdoc3 []]] ∧
     get_sections_tree [tdoc1, tdoc3, tdoc2] none =
        [treeNodeOf tdoc1 [treeNodeOf tdoc2 [], treeNodeOf tdoc3 []]] ∧
     get_sections_tree [tdoc2, tdoc1, tdoc3] none =
        [treeNodeOf tdoc1 [treeNodeOf tdoc2 [], treeNodeOf tdoc3 []]] ∧
     get_sections_tree [tdoc2, tdoc3, tdoc1] none =
        [treeNodeOf tdoc1 [treeNodeOf tdoc2 [], treeNodeOf tdoc3 []]] ∧
     get_sections_tree [tdoc3, tdoc1, tdoc2] none =
        [treeNodeOf tdoc1 [treeNodeOf tdoc2 [], treeNodeOf tdoc3 []]] ∧
     get_sections_tree [tdoc3, tdoc2, tdoc1] none =
        [treeNodeOf tdoc1 [treeNodeOf tdoc2 [], treeNodeOf tdoc3 []]]) ∧
    (∀ (db : List Doc) (status : Option String) (d : Doc),
      UniqueIds db → d ∈ loadedOf db status → truthy d.parent_id = true →
      (∀ q ∈ loadedOf db status, some q._id ≠ d.parent_id) →
      forestHasId d._id (get_sections_tree db status) = false) := by
  constructor
  · exact ⟨rfl, rfl, rfl, rfl, rfl, rfl⟩
  · intro db status d hU hd htr horph
    rw [tree_eq, forestHasId, List.any_eq_false]
    intro t ht
    simp only [List.mem_map] at ht
    obtain ⟨e, he, rfl⟩ := ht
    have hefil := List.mem_filter.mp he
    have hee : e ∈ loadedOf db status := hefil.1
    have hent : ¬ truthy e.parent_id = true := by simpa using hefil.2
    have hU' := uniqueIds_loadedOf hU status
    rw [treeNodeOf, hasId_node]
    simp only [Bool.or_eq_true, not_or]
    constructor
    · intro hcontr
      have hid : e._id = d._id := by simpa using hcontr
      have hed : e = d := docs_eq_of_id hU' hee hd hid
      rw [hed] at hent
      exact hent htr
    · have hrec := childForest_no_orphan hU' hd horph
        (loadedOf db status).length e._id ⟨e, hee, rfl⟩
      rw [forestHasId] at hrec
      intro hcontr
      rw [hrec] at hcontr
      cases hcontr

/-- Witness for C6: a single stored section pointing at the nonexistent
parent `"q"` is dropped from the forest. -/
theorem C6_tree_construction_witness :
    forestHasId "x" (get_sections_tree
      [mkDoc "x" "x" "/q/x" (some "q") none 1 0] none) = false :=
  C6_tree_construction.2 [mkDoc "x" "x" "/q/x" (some "q") none 1 0] none
    (mkDoc "x" "x" "/q/x" (some "q") none 1 0)
    (show (idsOf [mkDoc "x" "x" "/q/x" (some "q") none 1 0]).Nodup by decide)
    (by decide) (by decide) (by decide)

/-! ### Descent-chain structure under functional parent pointers -/

theorem mem_pairs {db : List Doc} {d : Doc} (hd : d ∈ db) :
    (d._id, d.parent_id) ∈ skelPairs db :=
  List.mem_map_of_mem _ hd

theorem descL_extend {l : List (String × Option String)} {a b c : String}
    {ms : List String} (h : DescL l a ms c) (hab : (a, some b) ∈ l) :
    DescL l b (ms ++ [a]) c :=
  descL_comp (DescL.direct hab) h

/-- Every descent from `a` passes through a direct child of `a`. -/
theorem descL_split {l : List (String × Option String)} {a c : String}
    {ms : List String} (h : DescL l a ms c) :
    ∃ e, (e, some a) ∈ l ∧ (c = e ∨ DescId l e c) := by
  induction h with
  | @direct c' hpair => exact ⟨c', hpair, Or.inl rfl⟩
  | @trans m c' ms' hpair hm ih =>
    obtain ⟨e, he, hcase⟩ := ih
    rcases hcase with hme | ⟨ns, hns⟩
    · refine ⟨e, he, Or.inr ⟨[c'], DescL.direct ?_⟩⟩
      rw [← hme]
      exact hpair
    · exact ⟨e, he, Or.inr ⟨c' :: ns, DescL.trans hpair hns⟩⟩

/-- With functional pointers, one step up from a member of a subtree stays
in the subtree (or reaches its root). -/
theorem parent_step {l : List (String × Option String)}
    (hfun : ∀ x p1 p2, (x, p1) ∈ l → (x, p2) ∈ l → p1 = p2)
    {c x m : String} {ms : List String} (h : DescL l c ms x)
    (hxm : (x, some m) ∈ l) : m = c ∨ DescId l c m := by
  cases h with
  | direct hpair =>
    have := hfun x _ _ hxm hpair
    exact Or.inl ((Option.some.injEq _ _).mp this)
  | @trans m2 _ ms' hpair hm2 =>
    have heq := hfun x _ _ hxm hpair
    have : m = m2 := (Option.some.injEq _ _).mp heq
    subst this
    exact Or.inr ⟨ms', hm2⟩

/-- With functional pointers, two ancestors of the same id are comparable. -/
theorem chain_meet {l : List (String × Option String)}
    (hfun : ∀ x p1 p2, (x, p1) ∈ l → (x, p2) ∈ l → p1 = p2) :
    ∀ {ms : List String} {a b c : String} {ns : List String},
      DescL l a ms c → DescL l b ns c →
      a = b ∨ DescId l a b ∨ DescId l b a := by
  intro ms
  induction ms with
  | nil =>
    intro a b c ns h1 _
    obtain ⟨tl, htl⟩ := descL_head h1
    cases htl
  | cons x0 ms' ih =>
    intro a b c ns h1 h2
    cases h1 with
    | direct hpair1 =>
      cases h2 with
      | direct hpair2 =>
        have := hfun x0 _ _ hpair1 hpair2
        exact Or.inl ((Option.some.injEq _ _).mp this)
      | @trans m2 _ ns' hpair2 hm2 =>
        have heq := hfun x0 _ _ hpair1 hpair2
        have : a = m2 := (Option.some.injEq _ _).mp heq
        subst this
        exact Or.inr (Or.inr ⟨ns', hm2⟩)
    | @trans m1 _ msA hpair1 hm1 =>
      cases h2 with
      | direct hpair2 =>
        have heq := hfun x0 _ _ hpair1 hpair2
        have : m1 = b := ((Option.some.injEq _ _).mp heq.symm).symm
        subst this
        exact Or.inr (Or.inl ⟨ms', hm1⟩)
      | @trans m2 _ ns' hpair2 hm2 =>
        have heq := hfun x0 _ _ hpair1 hpair2
        have hm12 : m1 = m2 := (Option.some.injEq _ _).mp heq
        subst hm12
        exact ih hm1 hm2

/-- Under a chain bound below `id`, two distinct direct children of `id`
have disjoint subtrees. -/
theorem sibling_disjoint {l : List (String × Option String)}
    (hfun : ∀ x p1 p2, (x, p1) ∈ l → (x, p2) ∈ l → p1 = p2)
    {id : String} {B : Nat}
    (hB : ∀ ms c, DescL l id ms c → ms.length < B)
    {c1 c2 : String} (h1 : (c1, some id) ∈ l) (h2 : (c2, some id) ∈ l)
    (hne : c1 ≠ c2) {x : String}
    (hx1 : x = c1 ∨ DescId l c1 x) (hx2 : x = c2 ∨ DescId l c2 x) :
    False := by
  have hnocyc := no_cycle hB
  have hchild : ∀ c : String, (c, some id) ∈ l → ∀ ns, ¬ DescL l c ns id := by
    intro c hc ns hns
    exact hnocyc (ns ++ [c]) (descL_extend hns hc)
  have hnotdesc : ∀ cA cB : String, (cA, some id) ∈ l → (cB, some id) ∈ l →
      cA ≠ cB → ¬ DescId l cA cB := by
    rintro cA cB hcA hcB hAB ⟨ns, hns⟩
    cases hns with
    | direct hpair =>
      have := hfun cB _ _ hpair hcB
      have hcAid : cA = id := by
        injection this with h0
      rw [hcAid] at hcA
      exact hnocyc [id] (DescL.direct hcA)
    | @trans m _ ns' hpair hm =>
      have := hfun cB _ _ hpair hcB
      have hmid : m = id := by injection this with h0
      subst hmid
      exact hchild cA hcA ns' hm
  rcases hx1 with hxc1 | ⟨ms1, hms1⟩
  · rcases hx2 with hxc2 | ⟨ms2, hms2⟩
    · exact hne (hxc1.symm.trans hxc2)
    · refine hnotdesc c2 c1 h2 h1 (Ne.symm hne) ?_
      rw [← hxc1]
      exact ⟨ms2, hms2⟩
  · rcases hx2 with hxc2 | ⟨ms2, hms2⟩
    · refine hnotdesc c1 c2 h1 h2 hne ?_
      rw [← hxc2]
      exact ⟨ms1, hms1⟩
    · rcases chain_meet hfun hms1 hms2 with heq | hd1 | hd2
      · exact hne heq
      · exact hnotdesc c1 c2 h1 h2 hne hd1
      · exact hnotdesc c2 c1 h2 h1 (Ne.symm hne) hd2

/-! ### Transfer lemmas for stores with equal skeletons -/

theorem uniqueIds_of_strip {db db' : List Doc}
    (h : db'.map strip = db.map strip) (hU : UniqueIds db) :
    UniqueIds db' := by
  unfold UniqueIds
  rw [idsOf_eq_of_strip h]
  exact hU

theorem filter_children_length_eq {db db' : List Doc} {s : String}
    (h : db'.map strip = db.map strip) :
    (db'.filter (fun d => d.parent_id == some s)).length =
      (db.filter (fun d => d.parent_id == some s)).length := by
  have hm := childSkels_eq_of_strip (s := s) h
  have := congrArg List.length hm
  simpa using this

theorem pair_of_look {db db' : List Doc}
    (hstrip : db'.map strip = db.map strip) {x m : String} {d : Doc}
    (hx : look db' x = some d) (hm : d.parent_id = some m) :
    (x, some m) ∈ skelPairs db := by
  obtain ⟨hdmem, hdid⟩ := look_eq_some hx
  have := mem_pairs hdmem
  rw [skelPairs_eq_of_strip hstrip] at this
  rw [hdid, hm] at this
  exact this

/-- One step of the `update_children_paths` fold preserves the loop
invariant: rewriting the next direct child `ch` and recursing into its
subtree completes `ch`'s subtree and leaves every other subtree alone. -/
theorem ucp_step {n : Nat}
    (ih : ∀ (id new_path : String) (db db' : List Doc),
      db'.map strip = db.map strip → UniqueIds db → FanoutCap db →
      (∀ ms c, DescL (skelPairs db) id ms c → ms.length < n) →
      UcpOut db db' id new_path (update_children_paths n id new_path db'))
    {db db' : List Doc} {id new_path : String}
    (hstrip : db'.map strip = db.map strip) (hU : UniqueIds db)
    (hcap : FanoutCap db)
    (hB : ∀ ms c, DescL (skelPairs db) id ms c → ms.length < n + 1)
    {done todo : List Doc} {ch : Doc} {acc : List Doc}
    (hsplit : db'.filter (fun d => d.parent_id == some id) = done ++ ch :: todo)
    (hinv : UcpInv db db' id new_path done (ch :: todo) acc) :
    UcpInv db db' id new_path (done ++ [ch]) todo
      (update_children_paths n ch._id (new_path ++ "/" ++ ch.slug)
        (updateFirst (fun d => d._id == ch._id)
          (fun d => { d with full_path := new_path ++ "/" ++ ch.slug, parent_path := some new_path }) acc)) := by
  obtain ⟨hi1, hi2, hi3, hi4, hi5⟩ := hinv
  have hpairs_eq : skelPairs db' = skelPairs db := skelPairs_eq_of_strip hstrip
  have hU' : UniqueIds db' := uniqueIds_of_strip hstrip hU
  have hfun : ∀ x p1 p2, (x, p1) ∈ skelPairs db → (x, p2) ∈ skelPairs db →
      p1 = p2 := fun x p1 p2 h1 h2 => pointer_unique hU h1 h2
  -- facts about the child being processed
  have hchmemF : ch ∈ db'.filter (fun d => d.parent_id == some id) := by
    rw [hsplit]
    exact List.mem_append_right _ (List.mem_cons_self _ _)
  have hchdb' : ch ∈ db' := (List.mem_filter.mp hchmemF).1
  have hchpar : ch.parent_id = some id := by
    simpa using (List.mem_filter.mp hchmemF).2
  have hchpair : (ch._id, some id) ∈ skelPairs db := by
    have := mem_pairs hchdb'
    rw [hpairs_eq] at this
    rwa [hchpar] at this
  have hBc : ∀ ms c, DescL (skelPairs db) ch._id ms c → ms.length < n := by
    intro ms c h
    have := hB (ms ++ [ch._id]) c (descL_extend h hchpair)
    simp only [List.length_append, List.length_singleton] at this
    omega
  have hnc : ¬ DescId (skelPairs db) ch._id ch._id := by
    rintro ⟨ms, h⟩
    exact no_cycle hBc ms h
  have hsubdesc : ∀ x, DescId (skelPairs db) ch._id x →
      DescId (skelPairs db) id x := by
    rintro x ⟨ms, h⟩
    exact ⟨ms ++ [ch._id], descL_extend h hchpair⟩
  have hInS_to_id : ∀ x, (x = ch._id ∨ DescId (skelPairs db) ch._id x) →
      DescId (skelPairs db) id x := by
    rintro x (rfl | hd)
    · exact ⟨[ch._id], DescL.direct hchpair⟩
    · exact hsubdesc x hd
  -- sibling disjointness against another direct child
  have hFnodup : (db'.filter (fun d => d.parent_id == some id)).Nodup := by
    have hdocs : db'.Nodup := by
      have : (db'.map (fun d : Doc => d._id)).Nodup := hU'
      exact this.of_map _
    exact hdocs.sublist (List.filter_sublist db')
  have hdisj : ∀ ch2 : Doc,
      ch2 ∈ db'.filter (fun d => d.parent_id == some id) → ch2 ≠ ch →
      ∀ x, (x = ch._id ∨ DescId (skelPairs db) ch._id x) →
      (x = ch2._id ∨ DescId (skelPairs db) ch2._id x) → False := by
    intro ch2 hch2F hne x hx1 hx2
    have hch2db' : ch2 ∈ db' := (List.mem_filter.mp hch2F).1
    have hch2par : ch2.parent_id = some id := by
      simpa using (List.mem_filter.mp hch2F).2
    have hch2pair : (ch2._id, some id) ∈ skelPairs db := by
      have := mem_pairs hch2db'
      rw [hpairs_eq] at this
      rwa [hch2par] at this
    have hidne : ch._id ≠ ch2._id := by
      intro hcontr
      exact hne (docs_eq_of_id hU' hch2db' hchdb' hcontr.symm)
    exact sibling_disjoint hfun hB hchpair hch2pair hidne hx1 hx2
  -- the updateFirst on ch
  have hf : ∀ d : Doc,
      ((fun d : Doc => { d with full_path := new_path ++ "/" ++ ch.slug, parent_path := some new_path }) d)._id = d._id := fun d => rfl
  have hfs : ∀ d : Doc,
      strip ((fun d : Doc => { d with full_path := new_path ++ "/" ++ ch.slug, parent_path := some new_path }) d) = strip d := fun d => rfl
  have hlookch : look db' ch._id = some ch := look_self hU' hchdb'
  have haccch : look acc ch._id = look db' ch._id :=
    hi3 ch._id ⟨ch, List.mem_cons_self _ _, Or.inl rfl⟩
  have hacc1self : look (updateFirst (fun d => d._id == ch._id)
      (fun d => { d with full_path := new_path ++ "/" ++ ch.slug, parent_path := some new_path }) acc) ch._id =
      some (rw new_path ch) := by
    rw [look_updateFirst_self hf, haccch, hlookch]
    rfl
  have hacc1ne : ∀ y, y ≠ ch._id →
      look (updateFirst (fun d => d._id == ch._id)
        (fun d => { d with full_path := new_path ++ "/" ++ ch.slug, parent_path := some new_path }) acc) y = look acc y :=
    fun y hy => look_updateFirst_ne hf hy
  have hacc1strip : (updateFirst (fun d => d._id == ch._id)
      (fun d => { d with full_path := new_path ++ "/" ++ ch.slug, parent_path := some new_path }) acc).map strip = db.map strip := by
    rw [strip_updateFirst hfs]
    exact hi1
  -- the recursive call on ch's subtree
  have K := ih ch._id (new_path ++ "/" ++ ch.slug) db
    (updateFirst (fun d => d._id == ch._id)
      (fun d => { d with full_path := new_path ++ "/" ++ ch.slug, parent_path := some new_path }) acc)
    hacc1strip hU hcap hBc
  obtain ⟨K1, K2, K3, K4⟩ := K
  -- names for the two intermediate stores
  set acc1 := updateFirst (fun d => d._id == ch._id)
    (fun d => { d with full_path := new_path ++ "/" ++ ch.slug, parent_path := some new_path }) acc with hacc1def
  set R1 := update_children_paths n ch._id (new_path ++ "/" ++ ch.slug) acc1
    with hR1def
  -- frame: anything outside ch's subtree keeps its acc value
  have hframe : ∀ x, x ≠ ch._id → ¬ DescId (skelPairs db) ch._id x →
      look R1 x = look acc x := by
    intro x hx1 hx2
    rw [K2 x hx2]
    exact hacc1ne x hx1
  have hG4ch : look R1 ch._id = some (rw new_path ch) := by
    rw [K2 ch._id hnc]
    exact hacc1self
  refine ⟨K1, ?_, ?_, ?_, ?_⟩
  · -- untouched outside id's subtree
    intro x hx
    have hxch : x ≠ ch._id := by
      intro hcontr
      exact hx (hInS_to_id x (Or.inl hcontr))
    have hxd : ¬ DescId (skelPairs db) ch._id x := by
      intro hcontr
      exact hx (hsubdesc x hcontr)
    rw [hframe x hxch hxd]
    exact hi2 x hx
  · -- untouched in the remaining siblings' subtrees
    rintro x ⟨ch2, hch2todo, hIns2⟩
    have hch2F : ch2 ∈ db'.filter (fun d => d.parent_id == some id) := by
      rw [hsplit]
      exact List.mem_append_right _ (List.mem_cons_of_mem _ hch2todo)
    have hchne : ch2 ≠ ch := by
      intro hcontr
      rw [hsplit] at hFnodup
      have h2 := List.Nodup.of_append_right hFnodup
      have h3 := (List.nodup_cons.mp h2).1
      rw [hcontr] at hch2todo
      exact h3 hch2todo
    have hnotin : ¬ (x = ch._id ∨ DescId (skelPairs db) ch._id x) := by
      intro hcontr
      exact hdisj ch2 hch2F hchne x hcontr hIns2
    have hxch : x ≠ ch._id := fun hcontr => hnotin (Or.inl hcontr)
    have hxd : ¬ DescId (skelPairs db) ch._id x :=
      fun hcontr => hnotin (Or.inr hcontr)
    rw [hframe x hxch hxd]
    exact hi3 x ⟨ch2, List.mem_cons_of_mem _ hch2todo, hIns2⟩
  · -- every processed child is rewritten
    intro ch2 hch2
    rcases List.mem_append.mp hch2 with hch2done | hch2single
    · have hch2F : ch2 ∈ db'.filter (fun d => d.parent_id == some id) := by
        rw [hsplit]
        exact List.mem_append_left _ hch2done
      have hchne : ch2 ≠ ch := by
        intro hcontr
        subst hcontr
        rw [hsplit] at hFnodup
        have hd := List.disjoint_of_nodup_append hFnodup
        exact hd hch2done (List.mem_cons_self _ _)
      have hnotin := hdisj ch2 hch2F hchne ch2._id
      have hxch : ch2._id ≠ ch._id := by
        intro hcontr
        exact hnotin (Or.inl hcontr) (Or.inl rfl)
      have hxd : ¬ DescId (skelPairs db) ch._id ch2._id := by
        intro hcontr
        exact hnotin (Or.inr hcontr) (Or.inl rfl)
      rw [hframe ch2._id hxch hxd]
      exact hi4 ch2 hch2done
    · have : ch2 = ch := by simpa using hch2single
      subst this
      exact hG4ch
  · -- deep rewrite clause
    intro ch2 hch2 x d m hx hm hdesc
    rcases List.mem_append.mp hch2 with hch2done | hch2single
    · -- a previously finished subtree: frame everything
      have hch2F : ch2 ∈ db'.filter (fun d => d.parent_id == some id) := by
        rw [hsplit]
        exact List.mem_append_left _ hch2done
      have hchne : ch2 ≠ ch := by
        intro hcontr
        subst hcontr
        rw [hsplit] at hFnodup
        have hd := List.disjoint_of_nodup_append hFnodup
        exact hd hch2done (List.mem_cons_self _ _)
      obtain ⟨q, hq1, hq2⟩ := hi5 ch2 hch2done x d m hx hm hdesc
      have hxIns : x = ch2._id ∨ DescId (skelPairs db) ch2._id x :=
        Or.inr hdesc
      have hxframe : look R1 x = look acc x := by
        have hnotin := hdisj ch2 hch2F hchne x
        refine hframe x ?_ ?_
        · intro hcontr
          exact hnotin (Or.inl hcontr) hxIns
        · intro hcontr
          exact hnotin (Or.inr hcontr) hxIns
      have hmpair : (x, some m) ∈ skelPairs db := pair_of_look hstrip hx hm
      have hmIns : m = ch2._id ∨ DescId (skelPairs db) ch2._id m := by
        obtain ⟨ms, hms⟩ := hdesc
        exact parent_step hfun hms hmpair
      have hmframe : look R1 m = look acc m := by
        have hnotin := hdisj ch2 hch2F hchne m
        refine hframe m ?_ ?_
        · intro hcontr
          exact hnotin (Or.inl hcontr) hmIns
        · intro hcontr
          exact hnotin (Or.inr hcontr) hmIns
      exact ⟨q, by rw [hmframe]; exact hq1, by rw [hxframe]; exact hq2⟩
    · -- the subtree just processed
      have : ch2 = ch := by simpa using hch2single
      subst this
      have hxne : x ≠ ch2._id := by
        intro hcontr
        subst hcontr
        exact hnc hdesc
      have hacc1x : look acc1 x = some d := by
        rw [hacc1ne x hxne]
        rw [hi3 x ⟨ch2, List.mem_cons_self _ _, Or.inr hdesc⟩]
        exact hx
      have hmpair : (x, some m) ∈ skelPairs db := pair_of_look hstrip hx hm
      obtain ⟨ms, hms⟩ := hdesc
      cases hms with
      | direct hpair =>
        have hmch : m = ch2._id := by
          have := hfun x (some m) (some ch2._id) hmpair hpair
          injection this with h0
        subst hmch
        have hK3 := K3 x d hacc1x (by rw [hm])
        refine ⟨rw new_path ch2, hG4ch, ?_⟩
        rw [hK3]
        rfl
      | @trans m2 _ ms' hpair hm2 =>
        have hmm2 : m = m2 := by
          have := hfun x (some m) (some m2) hmpair hpair
          injection this with h0
        subst hmm2
        exact K4 x d m hacc1x hm ⟨ms', hm2⟩

/-- Full specification of `update_children_paths` on a well-formed store:
with fuel exceeding every chain length below `id` (the API passes
`db.length + 1`, sufficient by `wf_chain_bound`), the skeleton is
preserved, non-descendants of `id` are untouched, every direct child is
rewritten under the new prefix and every deeper descendant consistently
with its rewritten parent. -/
theorem ucp_spec :
    ∀ (fuel : Nat) (id new_path : String) (db db' : List Doc),
      db'.map strip = db.map strip → UniqueIds db → FanoutCap db →
      (∀ ms c, DescL (skelPairs db) id ms c → ms.length < fuel) →
      UcpOut db db' id new_path (update_children_paths fuel id new_path db') := by
  intro fuel
  induction fuel with
  | zero =>
    intro id new_path db db' hstrip hU hcap hB
    refine ⟨hstrip, fun x _ => rfl, ?_, ?_⟩
    · intro x d hx hp
      exfalso
      have hpair := pair_of_look hstrip hx hp
      have := hB [x] x (DescL.direct hpair)
      simp at this
    · rintro x d m hx hp ⟨ms, hms⟩
      exfalso
      obtain ⟨tl, htl⟩ := descL_head hms
      have := hB ms m hms
      rw [htl] at this
      simp at this
  | succ n ih =>
    intro id new_path db db' hstrip hU hcap hB
    have hpairs_eq : skelPairs db' = skelPairs db := skelPairs_eq_of_strip hstrip
    have hfun : ∀ x p1 p2, (x, p1) ∈ skelPairs db →
        (x, p2) ∈ skelPairs db → p1 = p2 :=
      fun x p1 p2 h1 h2 => pointer_unique hU h1 h2
    have htake : (db'.filter (fun d => d.parent_id == some id)).take 1000 =
        db'.filter (fun d => d.parent_id == some id) := by
      apply List.take_of_length_le
      rw [filter_children_length_eq hstrip]
      exact hcap id
    have hunfold : update_children_paths (n + 1) id new_path db' =
        ((db'.filter (fun d => d.parent_id == some id)).take 1000).foldl
          (fun acc child =>
            update_children_paths n child._id (new_path ++ "/" ++ child.slug)
              (updateFirst (fun d => d._id == child._id)
                (fun d => { d with full_path := new_path ++ "/" ++ child.slug, parent_path := some new_path }) acc)) db' := rfl
    rw [hunfold, htake]
    have hfold : ∀ todo done acc,
        db'.filter (fun d => d.parent_id == some id) = done ++ todo →
        UcpInv db db' id new_path done todo acc →
        UcpInv db db' id new_path (done ++ todo) []
          (todo.foldl (fun acc child =>
            update_children_paths n child._id (new_path ++ "/" ++ child.slug)
              (updateFirst (fun d => d._id == child._id)
                (fun d => { d with full_path := new_path ++ "/" ++ child.slug, parent_path := some new_path }) acc)) acc) := by
      intro todo
      induction todo with
      | nil =>
        intro done acc hsplit hinv
        simpa using hinv
      | cons ch todo2 ihf =>
        intro done acc hsplit hinv
        have hstep := ucp_step ih hstrip hU hcap hB hsplit hinv
        have hres := ihf (done ++ [ch]) _ (by rw [hsplit]; simp) hstep
        simpa [List.append_assoc] using hres
    have hinit : UcpInv db db' id new_path []
        (db'.filter (fun d => d.parent_id == some id)) db' := by
      refine ⟨hstrip, fun x _ => rfl, fun x _ => rfl, ?_, ?_⟩
      · intro ch hch
        cases hch
      · intro ch hch
        cases hch
    have hfinal := hfold (db'.filter (fun d => d.parent_id == some id)) [] db'
      (by simp) hinit
    obtain ⟨g1, g2, g3, g4, g5⟩ := hfinal
    refine ⟨g1, g2, ?_, ?_⟩
    · intro x d hx hp
      obtain ⟨hdmem, hdid⟩ := look_eq_some hx
      have hdF : d ∈ db'.filter (fun e => e.parent_id == some id) := by
        rw [List.mem_filter]
        exact ⟨hdmem, by simp [hp]⟩
      have := g4 d (by simpa using hdF)
      rw [hdid] at this
      exact this
    · intro x d m hx hp hdesc
      have hpairx : (x, some m) ∈ skelPairs db := pair_of_look hstrip hx hp
      obtain ⟨msm, hmsm⟩ := hdesc
      have hchainx : DescL (skelPairs db) id (x :: msm) x :=
        DescL.trans hpairx hmsm
      obtain ⟨e, hepair, hecase⟩ := descL_split hchainx
      have hepair' : (e, some id) ∈ skelPairs db' := by
        rw [hpairs_eq]
        exact hepair
      obtain ⟨ed, hedmem, hedid, hedpar⟩ := pair_doc hepair'
      have hedF : ed ∈ db'.filter (fun e => e.parent_id == some id) := by
        rw [List.mem_filter]
        exact ⟨hedmem, by simp [hedpar]⟩
      rcases hecase with hxe | hdesce
      · exfalso
        have hxpair : (x, some id) ∈ skelPairs db := by
          rw [hxe]
          exact hepair
        have hmid : some m = some id := hfun x _ _ hpairx hxpair
        have : m = id := by injection hmid with h0
        subst this
        exact no_cycle hB msm hmsm
      · have := g5 ed (by simpa using hedF) x d m hx hp
          (by rw [hedid]; exact hdesce)
        exact this

/-! ### eraseFirst and sublist lemmas -/

theorem eraseFirst_sublist (q : Doc → Bool) (db : List Doc) :
    List.Sublist (eraseFirst q db) db := by
  induction db with
  | nil => exact List.Sublist.refl _
  | cons e ds ih =>
    by_cases he : q e = true
    · simp only [eraseFirst, he, if_pos]
      exact (List.Sublist.refl ds).cons e
    · simp only [eraseFirst, he, Bool.false_eq_true, if_false]
      exact List.Sublist.cons₂ e ih

theorem look_eraseFirst_ne {db : List Doc} {y x : String} (hxy : x ≠ y) :
    look (eraseFirst (fun d => d._id == y) db) x = look db x := by
  induction db with
  | nil => rfl
  | cons e ds ih =>
    by_cases he : (e._id == y) = true
    · have hey : e._id = y := by simpa using he
      have hex : ¬ (e._id == x) = true := by
        intro hcontr
        exact hxy (by rw [← (by simpa using hcontr : e._id = x), hey])
      simp [eraseFirst, he, look, List.find?_cons_of_neg, hex]
    · by_cases hex : (e._id == x) = true
      · simp [eraseFirst, he, look, List.find?_cons_of_pos, hex]
      · simpa [eraseFirst, he, look, List.find?_cons_of_neg, hex] using ih

theorem look_eraseFirst_self {db : List Doc} (hU : UniqueIds db)
    {y : String} :
    look (eraseFirst (fun d => d._id == y) db) y = none := by
  induction db with
  | nil => rfl
  | cons e ds ih =>
    have hU2 : UniqueIds ds := by
      simp only [UniqueIds, idsOf, List.map_cons, List.nodup_cons] at hU
      exact hU.2
    by_cases he : (e._id == y) = true
    · have hey : e._id = y := by simpa using he
      simp only [eraseFirst, he, if_pos]
      rw [look_none_iff]
      intro hcontr
      simp only [UniqueIds, idsOf, List.map_cons, List.nodup_cons] at hU
      rw [← hey] at hcontr
      exact hU.1 hcontr
    · simp only [eraseFirst, he, Bool.false_eq_true, if_false]
      show List.find? (fun d => d._id == y)
        (e :: eraseFirst (fun d => d._id == y) ds) = none
      have hstep := List.find?_cons_of_neg (p := fun d : Doc => d._id == y)
        (eraseFirst (fun d => d._id == y) ds) he
      rw [hstep]
      exact ih hU2

theorem uniqueIds_sublist {db db' : List Doc} (h : List.Sublist db' db)
    (hU : UniqueIds db) : UniqueIds db' :=
  (h.map (fun d : Doc => d._id)).nodup hU

theorem fanout_sublist {db db' : List Doc} (h : List.Sublist db' db)
    (hcap : FanoutCap db) : FanoutCap db' := by
  intro s
  have := (h.filter (fun d : Doc => d.parent_id == some s)).length_le
  exact le_trans this (hcap s)

theorem skelPairs_sublist {db db' : List Doc} (h : List.Sublist db' db) :
    List.Sublist (skelPairs db') (skelPairs db) :=
  h.map _

theorem descL_mono {l l' : List (String × Option String)}
    (hsub : ∀ p ∈ l', p ∈ l) {a : String} {ms : List String} {c : String}
    (h : DescL l' a ms c) : DescL l a ms c := by
  induction h with
  | direct hpair => exact DescL.direct (hsub _ hpair)
  | trans hpair _ ih => exact DescL.trans (hsub _ hpair) ih

theorem descL_elements {l : List (String × Option String)} {a : String}
    {ms : List String} {c : String} (h : DescL l a ms c) :
    ∀ y ∈ ms, DescId l a y := by
  induction h with
  | @direct c' hpair =>
    intro y hy
    simp only [List.mem_singleton] at hy
    subst hy
    exact ⟨[y], DescL.direct hpair⟩
  | @trans m c' ms' hpair hm ih =>
    intro y hy
    rcases List.mem_cons.mp hy with rfl | hy'
    · exact ⟨y :: ms', DescL.trans hpair hm⟩
    · exact ih y hy'

theorem look_mem_of_eq {db db' : List Doc} {x : String} {d : Doc}
    (h : look db' x = look db x) (hd : look db x = some d) : d ∈ db' := by
  rw [hd] at h
  exact (look_eq_some h).1

/-- A descent chain survives into a sub-store in which every chain element
still resolves to the same document. -/
theorem descL_restore {db' acc : List Doc} (hU : UniqueIds db')
    {a : String} {ms : List String} {c : String}
    (h : DescL (skelPairs db') a ms c)
    (hpres : ∀ y ∈ ms, look acc y = look db' y) :
    DescL (skelPairs acc) a ms c := by
  induction h with
  | @direct c' hpair =>
    obtain ⟨dc, hdc, hdcid, hdcpar⟩ := pair_doc hpair
    have hlook : look db' c' = some dc := by
      have := look_self hU hdc
      rwa [hdcid] at this
    have hmem : dc ∈ acc := look_mem_of_eq (hpres c' (by simp)) hlook
    have := mem_pairs hmem
    rw [hdcid, hdcpar] at this
    exact DescL.direct this
  | @trans m c' ms' hpair hm ih =>
    obtain ⟨dc, hdc, hdcid, hdcpar⟩ := pair_doc hpair
    have hlook : look db' c' = some dc := by
      have := look_self hU hdc
      rwa [hdcid] at this
    have hmem : dc ∈ acc :=
      look_mem_of_eq (hpres c' (List.mem_cons_self _ _)) hlook
    have hpair' : (c', some m) ∈ skelPairs acc := by
      have := mem_pairs hmem
      rw [hdcid, hdcpar] at this
      exact this
    exact DescL.trans hpair' (ih (fun y hy =>
      hpres y (List.mem_cons_of_mem _ hy)))

/-- One-step unfolding of `delete_section` at successor fuel. -/
theorem delete_section_succ (fuel : Nat) (db : List Doc) (id : String)
    (cascade : Bool) :
    delete_section (fuel + 1) db id cascade =
      (match findOne db (fun d => d._id == id) with
      | none => .error ⟨404, "Section not found"⟩
      | some _ =>
        if (db.filter (fun d => d.parent_id == some id)).length > 0 && !cascade then
          .error ⟨400, "Section has " ++
            toString (db.filter (fun d => d.parent_id == some id)).length ++
            " children. Use cascade=true to delete all."⟩
        else
          match (if cascade && (db.filter (fun d => d.parent_id == some id)).length > 0 then
            ((db.filter (fun d => d.parent_id == some id)).take 1000).foldlM
              (fun acc c => delete_section fuel acc c._id true) db
          else .ok db) with
          | .error e => .error e
          | .ok db1 => .ok (eraseFirst (fun d => d._id == id) db1)) := rfl

/-- Cascading delete on a well-formed store removes exactly the node's
subtree: the 1000-cap never bites under `FanoutCap`, every descendant and
the node are gone, and all other documents are untouched. -/
theorem delete_spec :
    ∀ (fuel : Nat) (id : String) (db' : List Doc),
      UniqueIds db' → FanoutCap db' →
      (∀ ms c, DescL (skelPairs db') id ms c → ms.length < fuel + 1) →
      ∀ sec, look db' id = some sec →
      ∃ R, delete_section (fuel + 1) db' id true = .ok R ∧ DelOut db' id R := by
  intro fuel
  induction fuel with
  | zero =>
    intro id db' hU hcap hB sec hsec
    have hnochild : db'.filter (fun d => d.parent_id == some id) = [] := by
      by_contra hne
      obtain ⟨c, hc⟩ := List.exists_mem_of_ne_nil _ hne
      have hcd := List.mem_filter.mp hc
      have hpair : (c._id, some id) ∈ skelPairs db' := by
        have := mem_pairs hcd.1
        rwa [show c.parent_id = some id by simpa using hcd.2] at this
      have := hB [c._id] c._id (DescL.direct hpair)
      simp at this
    refine ⟨eraseFirst (fun d => d._id == id) db', ?_, ?_, ?_, ?_⟩
    · show delete_section 1 db' id true = _
      simp only [delete_section, hsec]
      rw [show findOne db' (fun d => d._id == id) = some sec from hsec]
      simp [hnochild]
    · exact eraseFirst_sublist _ _
    · rintro x (rfl | ⟨ms, hms⟩)
      · exact look_eraseFirst_self hU
      · exfalso
        obtain ⟨tl, htl⟩ := descL_head hms
        have := hB ms x hms
        rw [htl] at this
        simp at this
    · intro x hx
      have hxid : x ≠ id := fun hcontr => hx (Or.inl hcontr)
      exact look_eraseFirst_ne hxid
  | succ n ihD =>
    intro id db' hU hcap hB sec hsec
    have hfun : ∀ x p1 p2, (x, p1) ∈ skelPairs db' →
        (x, p2) ∈ skelPairs db' → p1 = p2 :=
      fun x p1 p2 h1 h2 => pointer_unique hU h1 h2
    have htake : (db'.filter (fun d => d.parent_id == some id)).take 1000 =
        db'.filter (fun d => d.parent_id == some id) :=
      List.take_of_length_le (hcap id)
    have hFnodup : (db'.filter (fun d => d.parent_id == some id)).Nodup := by
      have hdocs : db'.Nodup := List.Nodup.of_map _ hU
      exact hdocs.sublist (List.filter_sublist db')
    have hchfact : ∀ ch ∈ db'.filter (fun d => d.parent_id == some id),
        ch ∈ db' ∧ ch.parent_id = some id ∧
          (ch._id, some id) ∈ skelPairs db' := by
      intro ch hch
      have h1 := List.mem_filter.mp hch
      have hpar : ch.parent_id = some id := by simpa using h1.2
      refine ⟨h1.1, hpar, ?_⟩
      have := mem_pairs h1.1
      rwa [hpar] at this
    have hdisj : ∀ ch1 ch2 : Doc,
        ch1 ∈ db'.filter (fun d => d.parent_id == some id) →
        ch2 ∈ db'.filter (fun d => d.parent_id == some id) → ch1 ≠ ch2 →
        ∀ x, (x = ch1._id ∨ DescId (skelPairs db') ch1._id x) →
          (x = ch2._id ∨ DescId (skelPairs db') ch2._id x) → False := by
      intro ch1 ch2 h1 h2 hne x hx1 hx2
      obtain ⟨h1m, h1p, h1pr⟩ := hchfact ch1 h1
      obtain ⟨h2m, h2p, h2pr⟩ := hchfact ch2 h2
      have hidne : ch1._id ≠ ch2._id := by
        intro hcontr
        exact hne (docs_eq_of_id hU h1m h2m hcontr)
      exact sibling_disjoint hfun hB h1pr h2pr hidne hx1 hx2
    have hfold : ∀ todo done acc,
        db'.filter (fun d => d.parent_id == some id) = done ++ todo →
        DelInv db' done acc →
        ∃ Rf, todo.foldlM (fun a c => delete_section (n + 1) a c._id true)
            acc = .ok Rf ∧ DelInv db' (done ++ todo) Rf := by
      intro todo
      induction todo with
      | nil =>
        intro done acc hsplit hinv
        exact ⟨acc, rfl, by simpa using hinv⟩
      | cons ch todo2 ihf =>
        intro done acc hsplit hinv
        obtain ⟨hs1, hs2, hs3⟩ := hinv
        have hchF : ch ∈ db'.filter (fun d => d.parent_id == some id) := by
          rw [hsplit]
          exact List.mem_append_right _ (List.mem_cons_self _ _)
        obtain ⟨hchm, hchp, hchpr⟩ := hchfact ch hchF
        have hchnotdone : ∀ ch2 ∈ done, ch2 ≠ ch := by
          intro ch2 hch2 hcontr
          rw [hsplit] at hFnodup
          have hd := List.disjoint_of_nodup_append hFnodup
          rw [hcontr] at hch2
          exact hd hch2 (List.mem_cons_self _ _)
        have hchlook : look acc ch._id = look db' ch._id := by
          refine hs3 ch._id ?_
          intro ch2 hch2 hcontr
          exact hdisj ch ch2 hchF (by
            rw [hsplit]
            exact List.mem_append_left _ hch2) (Ne.symm (hchnotdone ch2 hch2))
            ch._id (Or.inl rfl) hcontr
        have hchsec : look acc ch._id = some ch := by
          rw [hchlook]
          exact look_self hU hchm
        have hUacc : UniqueIds acc := uniqueIds_sublist hs1 hU
        have hcapacc : FanoutCap acc := fanout_sublist hs1 hcap
        have hpairsacc : ∀ p ∈ skelPairs acc, p ∈ skelPairs db' :=
          fun p hp => (skelPairs_sublist hs1).subset hp
        have hBacc : ∀ ms c, DescL (skelPairs acc) ch._id ms c →
            ms.length < n + 1 := by
          intro ms c h
          have hdb := descL_mono hpairsacc h
          have := hB (ms ++ [ch._id]) c (descL_extend hdb hchpr)
          simp only [List.length_append, List.length_singleton] at this
          omega
        obtain ⟨R1, hR1eq, hR1sub, hR1del, hR1frame⟩ :=
          ihD ch._id acc hUacc hcapacc hBacc ch hchsec
        have hnextinv : DelInv db' (done ++ [ch]) R1 := by
          refine ⟨hR1sub.trans hs1, ?_, ?_⟩
          · rintro x ⟨ch2, hch2, hIns⟩
            rcases List.mem_append.mp hch2 with hch2done | hch2s
            · -- an earlier subtree: already gone, and R1 leaves it alone
              have hnone : look acc x = none := hs2 x ⟨ch2, hch2done, hIns⟩
              have hninch : ¬(x = ch._id ∨
                  DescId (skelPairs acc) ch._id x) := by
                rintro (hxe | hxd)
                · exact hdisj ch2 ch (by
                      rw [hsplit]
                      exact List.mem_append_left _ hch2done) hchF
                    (hchnotdone ch2 hch2done) x hIns (Or.inl hxe)
                · exact hdisj ch2 ch (by
                      rw [hsplit]
                      exact List.mem_append_left _ hch2done) hchF
                    (hchnotdone ch2 hch2done) x hIns
                    (Or.inr ⟨hxd.choose, descL_mono hpairsacc hxd.choose_spec⟩)
              rw [hR1frame x hninch]
              exact hnone
            · have hche : ch2 = ch := by simpa using hch2s
              subst hche
              rcases hIns with hxe | ⟨ms, hms⟩
              · exact hR1del x (Or.inl hxe)
              · -- restore the chain inside acc, then the recursive delete
                have hels := descL_elements hms
                have hpres : ∀ y ∈ ms, look acc y = look db' y := by
                  intro y hy
                  refine hs3 y ?_
                  intro ch3 hch3 hcontr
                  exact hdisj ch2 ch3 hchF (by
                      rw [hsplit]
                      exact List.mem_append_left _ hch3)
                    (Ne.symm (hchnotdone ch3 hch3)) y
                    (Or.inr (hels y hy)) hcontr
                have hmsacc := descL_restore hU hms hpres
                exact hR1del x (Or.inr ⟨ms, hmsacc⟩)
          · intro x hx
            have hninch : ¬(x = ch._id ∨
                DescId (skelPairs acc) ch._id x) := by
              rintro (hxe | hxd)
              · exact hx ch (List.mem_append_right _ (by simp)) (Or.inl hxe)
              · exact hx ch (List.mem_append_right _ (by simp))
                  (Or.inr ⟨hxd.choose, descL_mono hpairsacc hxd.choose_spec⟩)
            rw [hR1frame x hninch]
            exact hs3 x (fun ch2 hch2 => hx ch2 (List.mem_append_left _ hch2))
        obtain ⟨Rf, hRfeq, hRfinv⟩ := ihf (done ++ [ch]) R1
          (by rw [hsplit]; simp) hnextinv
        refine ⟨Rf, ?_, by simpa [List.append_assoc] using hRfinv⟩
        show (delete_section (n + 1) acc ch._id true) >>= _ = .ok Rf
        rw [hR1eq]
        simpa using hRfeq
    -- assemble the top-level call
    by_cases hcc : (db'.filter (fun d => d.parent_id == some id)).length = 0
    · have hnochild : db'.filter (fun d => d.parent_id == some id) = [] :=
        List.eq_nil_of_length_eq_zero hcc
      refine ⟨eraseFirst (fun d => d._id == id) db', ?_, ?_, ?_, ?_⟩
      · show delete_section (n + 2) db' id true = _
        simp only [delete_section]
        rw [show findOne db' (fun d => d._id == id) = some sec from hsec]
        simp [hnochild]
      · exact eraseFirst_sublist _ _
      · rintro x (rfl | ⟨ms, hms⟩)
        · exact look_eraseFirst_self hU
        · exfalso
          obtain ⟨e, hepair, _⟩ := descL_split hms
          obtain ⟨ed, hedm, hedid, hedpar⟩ := pair_doc hepair
          have : ed ∈ db'.filter (fun d => d.parent_id == some id) := by
            rw [List.mem_filter]
            exact ⟨hedm, by simp [hedpar]⟩
          rw [hnochild] at this
          cases this
      · intro x hx
        exact look_eraseFirst_ne (fun hcontr => hx (Or.inl hcontr))
    · have hinit : DelInv db' [] db' := by
        refine ⟨List.Sublist.refl _, ?_, ?_⟩
        · rintro x ⟨ch, hch, _⟩
          cases hch
        · intro x _
          rfl
      obtain ⟨Rf, hRfeq, hRf1, hRf2, hRf3⟩ :=
        hfold (db'.filter (fun d => d.parent_id == some id)) [] db'
          (by simp) hinit
      refine ⟨eraseFirst (fun d => d._id == id) Rf, ?_, ?_, ?_, ?_⟩
      · show delete_section (n + 1 + 1) db' id true = _
        have hccpos : 0 < (db'.filter (fun d => d.parent_id == some id)).length :=
          Nat.pos_of_ne_zero hcc
        rw [delete_section_succ]
        rw [show findOne db' (fun d => d._id == id) = some sec from hsec]
        rw [htake]
        rw [show (List.foldlM (fun a c => delete_section (n + 1) a c._id true)
          db' (db'.filter (fun d => d.parent_id == some id)) :
            Except HTTPError (List Doc)) = .ok Rf from hRfeq]
        simp [hccpos]
      · exact (eraseFirst_sublist _ _).trans hRf1
      · rintro x (rfl | ⟨ms, hms⟩)
        · exact look_eraseFirst_self (uniqueIds_sublist hRf1 hU)
        · obtain ⟨e, hepair, hecase⟩ := descL_split hms
          obtain ⟨ed, hedm, hedid, hedpar⟩ := pair_doc hepair
          have hedF : ed ∈ db'.filter (fun d => d.parent_id == some id) := by
            rw [List.mem_filter]
            exact ⟨hedm, by simp [hedpar]⟩
          have hxins : x = ed._id ∨ DescId (skelPairs db') ed._id x := by
            rcases hecase with hxe | hde
            · exact Or.inl (by rw [hxe, hedid])
            · exact Or.inr (by rw [hedid]; exact hde)
          have hnone : look Rf x = none := hRf2 x ⟨ed, by simpa using hedF, hxins⟩
          by_cases hxid : x = id
          · subst hxid
            exact look_eraseFirst_self (uniqueIds_sublist hRf1 hU)
          · rw [look_eraseFirst_ne hxid]
            exact hnone
      · intro x hx
        have hxid : x ≠ id := fun hcontr => hx (Or.inl hcontr)
        rw [look_eraseFirst_ne hxid]
        refine hRf3 x ?_
        intro ch hch hcontr
        obtain ⟨hchm, hchp, hchpr⟩ := hchfact ch (by simpa using hch)
        rcases hcontr with hxe | ⟨ms, hms⟩
        · exact hx (Or.inr ⟨[ch._id], by
            rw [hxe]
            exact DescL.direct hchpr⟩)
        · exact hx (Or.inr ⟨ms ++ [ch._id], descL_extend hms hchpr⟩)

/-- Frame property of `update_children_paths` without any fanout cap: a
document that is neither one of the first 1000 direct children nor inside
one of their subtrees keeps its record — in particular, with more than
1000 direct children, the children beyond the first 1000 (and their
subtrees) keep their stale paths. -/
theorem ucp_frame :
    ∀ (fuel : Nat) (id new_path : String) (db db' : List Doc),
      db'.map strip = db.map strip → UniqueIds db →
      (∀ ms c, DescL (skelPairs db) id ms c → ms.length < fuel) →
      ((update_children_paths fuel id new_path db').map strip = db.map strip ∧
       ∀ x, (∀ ch ∈ (db'.filter (fun d => d.parent_id == some id)).take 1000,
          ¬(x = ch._id ∨ DescId (skelPairs db) ch._id x)) →
        look (update_children_paths fuel id new_path db') x = look db' x) := by
  intro fuel
  induction fuel with
  | zero =>
    intro id new_path db db' hstrip hU hB
    exact ⟨hstrip, fun x _ => rfl⟩
  | succ n ih =>
    intro id new_path db db' hstrip hU hB
    have hpairs_eq : skelPairs db' = skelPairs db := skelPairs_eq_of_strip hstrip
    have hunfold : update_children_paths (n + 1) id new_path db' =
        ((db'.filter (fun d => d.parent_id == some id)).take 1000).foldl
          (fun acc child =>
            update_children_paths n child._id (new_path ++ "/" ++ child.slug)
              (updateFirst (fun d => d._id == child._id)
                (fun d => { d with full_path := new_path ++ "/" ++ child.slug, parent_path := some new_path }) acc)) db' := rfl
    rw [hunfold]
    have hfold : ∀ todo done acc,
        (db'.filter (fun d => d.parent_id == some id)).take 1000 =
          done ++ todo →
        (acc.map strip = db.map strip ∧
          (∀ x, (∀ ch ∈ done,
            ¬(x = ch._id ∨ DescId (skelPairs db) ch._id x)) →
            look acc x = look db' x)) →
        ((todo.foldl (fun acc child =>
            update_children_paths n child._id (new_path ++ "/" ++ child.slug)
              (updateFirst (fun d => d._id == child._id)
                (fun d => { d with full_path := new_path ++ "/" ++ child.slug, parent_path := some new_path }) acc)) acc).map strip =
          db.map strip ∧
         (∀ x, (∀ ch ∈ done ++ todo,
            ¬(x = ch._id ∨ DescId (skelPairs db) ch._id x)) →
          look (todo.foldl (fun acc child =>
            update_children_paths n child._id (new_path ++ "/" ++ child.slug)
              (updateFirst (fun d => d._id == child._id)
                (fun d => { d with full_path := new_path ++ "/" ++ child.slug, parent_path := some new_path }) acc)) acc) x = look db' x)) := by
      intro todo
      induction todo with
      | nil =>
        intro done acc hsplit hinv
        simpa using hinv
      | cons ch todo2 ihf =>
        intro done acc hsplit hinv
        obtain ⟨hi1, hi2⟩ := hinv
        have hchT : ch ∈ (db'.filter (fun d => d.parent_id == some id)).take 1000 := by
          rw [hsplit]
          exact List.mem_append_right _ (List.mem_cons_self _ _)
        have hchF : ch ∈ db'.filter (fun d => d.parent_id == some id) :=
          List.mem_of_mem_take hchT
        have hchm : ch ∈ db' := (List.mem_filter.mp hchF).1
        have hchp : ch.parent_id = some id := by
          simpa using (List.mem_filter.mp hchF).2
        have hchpr : (ch._id, some id) ∈ skelPairs db := by
          have := mem_pairs hchm
          rw [hpairs_eq] at this
          rwa [hchp] at this
        have hBc : ∀ ms c, DescL (skelPairs db) ch._id ms c →
            ms.length < n := by
          intro ms c h
          have := hB (ms ++ [ch._id]) c (descL_extend h hchpr)
          simp only [List.length_append, List.length_singleton] at this
          omega
        have hf : ∀ d : Doc,
            ((fun d : Doc => { d with
              full_path := new_path ++ "/" ++ ch.slug,
              parent_path := some new_path }) d)._id = d._id := fun d => rfl
        have hfs : ∀ d : Doc,
            strip ((fun d : Doc => { d with
              full_path := new_path ++ "/" ++ ch.slug,
              parent_path := some new_path }) d) = strip d := fun d => rfl
        have hacc1strip : (updateFirst (fun d => d._id == ch._id)
            (fun d => { d with full_path := new_path ++ "/" ++ ch.slug, parent_path := some new_path }) acc).map strip = db.map strip := by
          rw [strip_updateFirst hfs]
          exact hi1
        obtain ⟨K1, K2⟩ := ih ch._id (new_path ++ "/" ++ ch.slug) db
          (updateFirst (fun d => d._id == ch._id)
            (fun d => { d with full_path := new_path ++ "/" ++ ch.slug, parent_path := some new_path }) acc)
          hacc1strip hU hBc
        have hstepinv : ((update_children_paths n ch._id
              (new_path ++ "/" ++ ch.slug)
              (updateFirst (fun d => d._id == ch._id)
                (fun d => { d with full_path := new_path ++ "/" ++ ch.slug, parent_path := some new_path }) acc)).map strip = db.map strip ∧
            (∀ x, (∀ ch2 ∈ done ++ [ch],
              ¬(x = ch2._id ∨ DescId (skelPairs db) ch2._id x)) →
              look (update_children_paths n ch._id
                (new_path ++ "/" ++ ch.slug)
                (updateFirst (fun d => d._id == ch._id)
                  (fun d => { d with full_path := new_path ++ "/" ++ ch.slug, parent_path := some new_path }) acc)) x = look db' x)) := by
          refine ⟨K1, ?_⟩
          intro x hx
          have hxch : ¬(x = ch._id ∨ DescId (skelPairs db) ch._id x) :=
            hx ch (List.mem_append_right _ (by simp))
          have hK2x : ∀ ch2 ∈ ((updateFirst (fun d => d._id == ch._id)
              (fun d => { d with full_path := new_path ++ "/" ++ ch.slug, parent_path := some new_path }) acc).filter
                (fun d => d.parent_id == some ch._id)).take 1000,
              ¬(x = ch2._id ∨ DescId (skelPairs db) ch2._id x) := by
            intro ch2 hch2 hcontr
            have hch2F := List.mem_filter.mp (List.mem_of_mem_take hch2)
            have hch2p : ch2.parent_id = some ch._id := by
              simpa using hch2F.2
            have hch2pr : (ch2._id, some ch._id) ∈ skelPairs db := by
              have hm := mem_pairs hch2F.1
              have hse : (updateFirst (fun d => d._id == ch._id)
                  (fun d => { d with full_path := new_path ++ "/" ++ ch.slug, parent_path := some new_path }) acc).map strip = db.map strip :=
                hacc1strip
              rw [skelPairs_eq_of_strip hse] at hm
              rwa [hch2p] at hm
            rcases hcontr with hxe | ⟨ms, hms⟩
            · exact hxch (Or.inr ⟨[ch2._id], by
                rw [hxe]
                exact DescL.direct hch2pr⟩)
            · exact hxch (Or.inr ⟨ms ++ [ch2._id], descL_extend hms hch2pr⟩)
          rw [K2 x hK2x]
          have hxne : x ≠ ch._id := fun hcontr => hxch (Or.inl hcontr)
          rw [look_updateFirst_ne hf hxne]
          exact hi2 x (fun ch2 hch2 => hx ch2 (List.mem_append_left _ hch2))
        have hres := ihf (done ++ [ch]) _ (by rw [hsplit]; simp) hstepinv
        simpa [List.append_assoc] using hres
    have hinit := hfold ((db'.filter (fun d => d.parent_id == some id)).take 1000)
      [] db' (by simp) ⟨hstrip, fun x _ => rfl⟩
    simpa using hinit

/-- Frame invariant for the cascading-delete fold without a fanout cap. -/
def DFInv (db' : List Doc) (done : List Doc) (acc : List Doc) : Prop :=
  List.Sublist acc db' ∧
  (∀ x, (∀ ch ∈ done, ¬(x = ch._id ∨ DescId (skelPairs db') ch._id x)) →
    look acc x = look db' x)

/-- Frame property of `delete_section` without any fanout cap: the cascade
succeeds and a document that is neither the deleted node, nor one of its
first 1000 direct children, nor inside one of their subtrees, keeps its
record — in particular, with more than 1000 direct children, the children
beyond the first 1000 (and their subtrees) survive the cascade. -/
theorem delete_frame :
    ∀ (fuel : Nat) (id : String) (db' : List Doc),
      UniqueIds db' →
      (∀ ms c, DescL (skelPairs db') id ms c → ms.length < fuel + 1) →
      ∀ sec, look db' id = some sec →
      ∃ R, delete_section (fuel + 1) db' id true = .ok R ∧
        List.Sublist R db' ∧
        (∀ x, x ≠ id →
          (∀ ch ∈ (db'.filter (fun d => d.parent_id == some id)).take 1000,
            ¬(x = ch._id ∨ DescId (skelPairs db') ch._id x)) →
          look R x = look db' x) := by
  intro fuel
  induction fuel with
  | zero =>
    intro id db' hU hB sec hsec
    have hnochild : db'.filter (fun d => d.parent_id == some id) = [] := by
      by_contra hne
      obtain ⟨c, hc⟩ := List.exists_mem_of_ne_nil _ hne
      have hcd := List.mem_filter.mp hc
      have hpair : (c._id, some id) ∈ skelPairs db' := by
        have := mem_pairs hcd.1
        rwa [show c.parent_id = some id by simpa using hcd.2] at this
      have := hB [c._id] c._id (DescL.direct hpair)
      simp at this
    refine ⟨eraseFirst (fun d => d._id == id) db', ?_, eraseFirst_sublist _ _, ?_⟩
    · show delete_section 1 db' id true = _
      simp only [delete_section]
      rw [show findOne db' (fun d => d._id == id) = some sec from hsec]
      simp [hnochild]
    · intro x hxid _
      exact look_eraseFirst_ne hxid
  | succ n ihD =>
    intro id db' hU hB sec hsec
    have hfun : ∀ x p1 p2, (x, p1) ∈ skelPairs db' →
        (x, p2) ∈ skelPairs db' → p1 = p2 :=
      fun x p1 p2 h1 h2 => pointer_unique hU h1 h2
    have hFnodup : (db'.filter (fun d => d.parent_id == some id)).Nodup := by
      have hdocs : db'.Nodup := List.Nodup.of_map _ hU
      exact hdocs.sublist (List.filter_sublist db')
    have hTnodup :
        ((db'.filter (fun d => d.parent_id == some id)).take 1000).Nodup :=
      hFnodup.sublist (List.take_sublist _ _)
    have hchfact : ∀ ch ∈ (db'.filter (fun d => d.parent_id == some id)).take 1000,
        ch ∈ db' ∧ ch.parent_id = some id ∧
          (ch._id, some id) ∈ skelPairs db' := by
      intro ch hch
      have h1 := List.mem_filter.mp (List.mem_of_mem_take hch)
      have hpar : ch.parent_id = some id := by simpa using h1.2
      refine ⟨h1.1, hpar, ?_⟩
      have := mem_pairs h1.1
      rwa [hpar] at this
    have hdisj : ∀ ch1 ch2 : Doc,
        ch1 ∈ (db'.filter (fun d => d.parent_id == some id)).take 1000 →
        ch2 ∈ (db'.filter (fun d => d.parent_id == some id)).take 1000 →
        ch1 ≠ ch2 →
        ∀ x, (x = ch1._id ∨ DescId (skelPairs db') ch1._id x) →
          (x = ch2._id ∨ DescId (skelPairs db') ch2._id x) → False := by
      intro ch1 ch2 h1 h2 hne x hx1 hx2
      obtain ⟨h1m, h1p, h1pr⟩ := hchfact ch1 h1
      obtain ⟨h2m, h2p, h2pr⟩ := hchfact ch2 h2
      have hidne : ch1._id ≠ ch2._id := by
        intro hcontr
        exact hne (docs_eq_of_id hU h1m h2m hcontr)
      exact sibling_disjoint hfun hB h1pr h2pr hidne hx1 hx2
    have hfold : ∀ todo done acc,
        (db'.filter (fun d => d.parent_id == some id)).take 1000 =
          done ++ todo →
        DFInv db' done acc →
        ∃ Rf, todo.foldlM (fun a c => delete_section (n + 1) a c._id true)
            acc = .ok Rf ∧ DFInv db' (done ++ todo) Rf := by
      intro todo
      induction todo with
      | nil =>
        intro done acc hsplit hinv
        exact ⟨acc, rfl, by simpa using hinv⟩
      | cons ch todo2 ihf =>
        intro done acc hsplit hinv
        obtain ⟨hs1, hs3⟩ := hinv
        have hchT : ch ∈ (db'.filter (fun d => d.parent_id == some id)).take 1000 := by
          rw [hsplit]
          exact List.mem_append_right _ (List.mem_cons_self _ _)
        obtain ⟨hchm, hchp, hchpr⟩ := hchfact ch hchT
        have hchnotdone : ∀ ch2 ∈ done, ch2 ≠ ch := by
          intro ch2 hch2 hcontr
          rw [hsplit] at hTnodup
          have hd := List.disjoint_of_nodup_append hTnodup
          rw [hcontr] at hch2
          exact hd hch2 (List.mem_cons_self _ _)
        have hchlook : look acc ch._id = look db' ch._id := by
          refine hs3 ch._id ?_
          intro ch2 hch2 hcontr
          exact hdisj ch ch2 hchT (by
            rw [hsplit]
            exact List.mem_append_left _ hch2) (Ne.symm (hchnotdone ch2 hch2))
            ch._id (Or.inl rfl) hcontr
        have hchsec : look acc ch._id = some ch := by
          rw [hchlook]
          exact look_self hU hchm
        have hUacc : UniqueIds acc := uniqueIds_sublist hs1 hU
        have hpairsacc : ∀ p ∈ skelPairs acc, p ∈ skelPairs db' :=
          fun p hp => (skelPairs_sublist hs1).subset hp
        have hBacc : ∀ ms c, DescL (skelPairs acc) ch._id ms c →
            ms.length < n + 1 := by
          intro ms c h
          have hdb := descL_mono hpairsacc h
          have := hB (ms ++ [ch._id]) c (descL_extend hdb hchpr)
          simp only [List.length_append, List.length_singleton] at this
          omega
        obtain ⟨R1, hR1eq, hR1sub, hR1frame⟩ :=
          ihD ch._id acc hUacc hBacc ch hchsec
        have hnextinv : DFInv db' (done ++ [ch]) R1 := by
          refine ⟨hR1sub.trans hs1, ?_⟩
          intro x hx
          have hninch : ¬(x = ch._id ∨ DescId (skelPairs db') ch._id x) :=
            hx ch (List.mem_append_right _ (by simp))
          have hxne : x ≠ ch._id := fun hcontr => hninch (Or.inl hcontr)
          have hsafe : ∀ ch2 ∈ (acc.filter
              (fun d => d.parent_id == some ch._id)).take 1000,
              ¬(x = ch2._id ∨ DescId (skelPairs acc) ch2._id x) := by
            intro ch2 hch2 hcontr
            have hch2F := List.mem_filter.mp (List.mem_of_mem_take hch2)
            have hch2m : ch2 ∈ db' := hs1.subset hch2F.1
            have hch2p : ch2.parent_id = some ch._id := by
              simpa using hch2F.2
            have hch2pr : (ch2._id, some ch._id) ∈ skelPairs db' := by
              have := mem_pairs hch2m
              rwa [hch2p] at this
            rcases hcontr with hxe | ⟨ms, hms⟩
            · exact hninch (Or.inr ⟨[ch2._id], by
                rw [hxe]
                exact DescL.direct hch2pr⟩)
            · exact hninch (Or.inr ⟨ms ++ [ch2._id],
                descL_extend (descL_mono hpairsacc hms) hch2pr⟩)
          rw [hR1frame x hxne hsafe]
          exact hs3 x (fun ch2 hch2 => hx ch2 (List.mem_append_left _ hch2))
        obtain ⟨Rf, hRfeq, hRfinv⟩ := ihf (done ++ [ch]) R1
          (by rw [hsplit]; simp) hnextinv
        refine ⟨Rf, ?_, by simpa [List.append_assoc] using hRfinv⟩
        show (delete_section (n + 1) acc ch._id true) >>= _ = .ok Rf
        rw [hR1eq]
        simpa using hRfeq
    by_cases hcc : (db'.filter (fun d => d.parent_id == some id)).length = 0
    · have hnochild : db'.filter (fun d => d.parent_id == some id) = [] :=
        List.eq_nil_of_length_eq_zero hcc
      refine ⟨eraseFirst (fun d => d._id == id) db', ?_,
        eraseFirst_sublist _ _, ?_⟩
      · show delete_section (n + 2) db' id true = _
        simp only [delete_section]
        rw [show findOne db' (fun d => d._id == id) = some sec from hsec]
        simp [hnochild]
      · intro x hxid _
        exact look_eraseFirst_ne hxid
    · have hinit : DFInv db' [] db' := ⟨List.Sublist.refl _, fun x _ => rfl⟩
      obtain ⟨Rf, hRfeq, hRf1, hRf3⟩ :=
        hfold ((db'.filter (fun d => d.parent_id == some id)).take 1000)
          [] db' (by simp) hinit
      refine ⟨eraseFirst (fun d => d._id == id) Rf, ?_,
        (eraseFirst_sublist _ _).trans hRf1, ?_⟩
      · show delete_section (n + 1 + 1) db' id true = _
        have hccpos : 0 < (db'.filter (fun d => d.parent_id == some id)).length :=
          Nat.pos_of_ne_zero hcc
        rw [delete_section_succ]
        rw [show findOne db' (fun d => d._id == id) = some sec from hsec]
        rw [show (List.foldlM (fun a c => delete_section (n + 1) a c._id true)
          db' ((db'.filter (fun d => d.parent_id == some id)).take 1000) :
            Except HTTPError (List Doc)) = .ok Rf from hRfeq]
        simp [hccpos]
      · intro x hxid hsafe
        rw [look_eraseFirst_ne hxid]
        exact hRf3 x hsafe

/-! ### Small helpers for the create/update invariant proofs -/

theorem findOne_look (db : List Doc) (x : String) :
    findOne db (fun d => d._id == x) = look db x := rfl

theorem look_append_left {db : List Doc} (l : List Doc) {x : String} {d : Doc}
    (h : look db x = some d) : look (db ++ l) x = some d := by
  induction db with
  | nil => cases h
  | cons e ds ih =>
    by_cases he : (e._id == x) = true
    · have h1 : look ((e :: ds) ++ l) x = some e := by
        simp [look, List.find?_cons_of_pos, he]
      have h2 : look (e :: ds) x = some e := by
        simp [look, List.find?_cons_of_pos, he]
      rw [h2] at h
      exact h1.trans h
    · have h1 : look ((e :: ds) ++ l) x = look (ds ++ l) x := by
        simp [look, List.find?_cons_of_neg, he]
      have h2 : look (e :: ds) x = look ds x := by
        simp [look, List.find?_cons_of_neg, he]
      rw [h2] at h
      rw [h1]
      exact ih h

theorem fanout_small {db : List Doc} (h : db.length ≤ 1000) : FanoutCap db :=
  fun _s => le_trans (List.length_filter_le _ _) h

theorem wf_no_self {db : List Doc} (hW : WF db) {id : String}
    (h : (id, some id) ∈ skelPairs db) : False := by
  obtain ⟨d, hd, hdid, _⟩ := pair_doc h
  have hlook : look db id = some d := by
    have := look_self hW.1 hd
    rwa [hdid] at this
  exact no_cycle (wf_chain_bound hW hlook) [id] (DescL.direct h)

theorem wf_not_descid_self {db : List Doc} (hW : WF db) {id : String}
    {sdoc : Doc} (hs : look db id = some sdoc) :
    ¬ DescId (skelPairs db) id id := by
  rintro ⟨ms, h⟩
  exact no_cycle (wf_chain_bound hW hs) ms h

theorem circ_false_safe {db : List Doc} (hW : WF db) {id : String}
    {sdoc : Doc} (hs : look db id = some sdoc) {p : String}
    (hc : check_circular_reference db id (some p) = false) :
    ¬(p = id ∨ DescId (skelPairs db) id p) := by
  rintro (rfl | hd)
  · rw [check_circular_true hW hs (Or.inl rfl)] at hc
    cases hc
  · rw [check_circular_true hW hs (Or.inr hd)] at hc
    cases hc

/-- Every element of a subtree has a documented id: the pair starting any
descent chain names a stored document. -/
theorem desc_target_doc {db : List Doc} {a m : String}
    (h : DescId (skelPairs db) a m) : ∃ d ∈ db, d._id = m := by
  obtain ⟨ms, hms⟩ := h
  cases hms with
  | direct hpair =>
    obtain ⟨d, hd, hdid, _⟩ := pair_doc hpair
    exact ⟨d, hd, hdid⟩
  | trans hpair _ =>
    obtain ⟨d, hd, hdid, _⟩ := pair_doc hpair
    exact ⟨d, hd, hdid⟩

/-- Every member of `id`'s subtree resolves to a stored document whose
pointer either is `id` itself or stays inside the subtree. -/
theorem subtree_cases {db : List Doc} (hU : UniqueIds db) {id x : String}
    (h : DescId (skelPairs db) id x) :
    ∃ d, look db x = some d ∧ d._id = x ∧
      (d.parent_id = some id ∨
        ∃ m, d.parent_id = some m ∧ DescId (skelPairs db) id m) := by
  obtain ⟨ms, hms⟩ := h
  cases hms with
  | direct hpair =>
    obtain ⟨d, hd, hdid, hdpar⟩ := pair_doc hpair
    have hlook : look db x = some d := by
      have := look_self hU hd
      rwa [hdid] at this
    exact ⟨d, hlook, hdid, Or.inl hdpar⟩
  | @trans m _ ms2 hpair hm =>
    obtain ⟨d, hd, hdid, hdpar⟩ := pair_doc hpair
    have hlook : look db x = some d := by
      have := look_self hU hd
      rwa [hdid] at this
    exact ⟨d, hlook, hdid, Or.inr ⟨m, hdpar, ⟨ms2, hm⟩⟩⟩

/-- A direct child of `id` beyond the 1000-snapshot is not inside any other
direct child's subtree (functional pointers, bounded chains below `id`). -/
theorem dropped_child_safe {db : List Doc} (hU : UniqueIds db) {B : Nat}
    {id : String} (hB : ∀ ms c, DescL (skelPairs db) id ms c → ms.length < B)
    {x ch : Doc} (hx : x ∈ db) (hp : x.parent_id = some id)
    (hch : ch ∈ db) (hchp : ch.parent_id = some id)
    (hne : x._id ≠ ch._id) :
    ¬(x._id = ch._id ∨ DescId (skelPairs db) ch._id x._id) := by
  have hxp : (x._id, some id) ∈ skelPairs db := by
    have := mem_pairs hx
    rwa [hp] at this
  have hchpair : (ch._id, some id) ∈ skelPairs db := by
    have := mem_pairs hch
    rwa [hchp] at this
  rintro (h | ⟨ms, hms⟩)
  · exact hne h
  · cases hms with
    | direct hpair =>
      have heq : some ch._id = some id := pointer_unique hU hpair hxp
      have hchid : ch._id = id := by injection heq
      rw [hchid] at hchpair
      exact no_cycle hB [id] (DescL.direct hchpair)
    | @trans m _ ms2 hpair hm =>
      have heq : some m = some id := pointer_unique hU hpair hxp
      have hmid : m = id := by injection heq
      rw [hmid] at hm
      exact no_cycle hB (ms2 ++ [ch._id])
        (descL_comp (DescL.direct hchpair) hm)

/-- What the combined write `updWrite` (propagation, then the node's own
`update_one`) does to a well-formed store, for any id-preserving node
rewrite `f`: the node becomes `f sec`, non-subtree documents are untouched,
direct children are rewritten under `nfp`, deeper descendants are rewritten
consistently with their parents, and the id multiset is preserved. -/
theorem write_after_ucp {db : List Doc} (hW : WF db) (hcap : FanoutCap db)
    {id : String} {sec : Doc} (hsec : look db id = some sec)
    (nfp : String) (f : Doc → Doc) (hf : ∀ d, (f d)._id = d._id) :
    look (updWrite db id nfp f) id = some (f sec) ∧
    (∀ x, ¬(x = id ∨ DescId (skelPairs db) id x) →
      look (updWrite db id nfp f) x = look db x) ∧
    (∀ x d, look db x = some d → d.parent_id = some id →
      look (updWrite db id nfp f) x = some (rw nfp d)) ∧
    (∀ x d m, look db x = some d → d.parent_id = some m →
      DescId (skelPairs db) id m →
      ∃ q, look (updWrite db id nfp f) m = some q ∧
        look (updWrite db id nfp f) x = some (rw q.full_path d)) ∧
    idsOf (updWrite db id nfp f) = idsOf db := by
  have hU := hW.1
  have hB := wf_chain_bound hW hsec
  obtain ⟨o1, o2, o3, o4⟩ :=
    ucp_spec (db.length + 1) id nfp db db rfl hU hcap hB
  have hnid : ¬ DescId (skelPairs db) id id := wf_not_descid_self hW hsec
  have h1 : look (update_children_paths (db.length + 1) id nfp db) id =
      some sec := (o2 id hnid).trans hsec
  refine ⟨?_, ?_, ?_, ?_, ?_⟩
  · show look (updateFirst (fun d => d._id == id) f _) id = _
    rw [look_updateFirst_self hf, h1]
    rfl
  · intro x hx
    have hxid : x ≠ id := fun hc => hx (Or.inl hc)
    show look (updateFirst (fun d => d._id == id) f _) x = _
    rw [look_updateFirst_ne hf hxid]
    exact o2 x (fun hc => hx (Or.inr hc))
  · intro x d hx hp
    have hxd : DescId (skelPairs db) id x :=
      ⟨[x], DescL.direct (pair_of_look rfl hx hp)⟩
    have hxid : x ≠ id := by
      intro hc
      rw [hc] at hxd
      exact hnid hxd
    show look (updateFirst (fun d => d._id == id) f _) x = _
    rw [look_updateFirst_ne hf hxid]
    exact o3 x d hx hp
  · intro x d m hx hp hm
    have hmid : m ≠ id := by
      intro hc
      rw [hc] at hm
      exact hnid hm
    have hxd : DescId (skelPairs db) id x := by
      obtain ⟨ms, hms⟩ := hm
      exact ⟨x :: ms, DescL.trans (pair_of_look rfl hx hp) hms⟩
    have hxid : x ≠ id := by
      intro hc
      rw [hc] at hxd
      exact hnid hxd
    obtain ⟨q, hq1, hq2⟩ := o4 x d m hx hp hm
    refine ⟨q, ?_, ?_⟩
    · show look (updateFirst (fun d => d._id == id) f _) m = _
      rw [look_updateFirst_ne hf hmid]
      exact hq1
    · show look (updateFirst (fun d => d._id == id) f _) x = _
      rw [look_updateFirst_ne hf hxid]
      exact hq2
  · show idsOf (updateFirst (fun d => d._id == id) f _) = _
    rw [idsOf_updateFirst hf]
    exact idsOf_eq_of_strip o1

/-- Reduction of `update_section`'s `parent_id`-carrying branch. -/
theorem update_section_parent_eq {db : List Doc} {id : String}
    {data : SectionUpdate} {now : String} {sec : Doc}
    (hsec : findOne db (fun d => d._id == id) = some sec)
    {p : String} (hp : data.parent_id = some p)
    (hcirc : check_circular_reference db id data.parent_id = false)
    {nfp : String} {nlv : Nat}
    (hbp : build_full_path db data.parent_id (data.slug.getD sec.slug) =
      .ok (nfp, nlv)) :
    update_section db id data now =
      .ok (updWrite db id nfp (parentWriter db data now p nfp nlv)) := by
  rw [hp] at hcirc hbp
  unfold update_section
  rw [hsec]
  simp only [hp, Option.isSome_some, if_true, hcirc, Bool.false_eq_true,
    if_false, hbp]
  rfl

/-- Reduction of `update_section`'s slug-only branch. -/
theorem update_section_slug_eq {db : List Doc} {id : String}
    {data : SectionUpdate} {now : String} {sec : Doc}
    (hsec : findOne db (fun d => d._id == id) = some sec)
    (hpid : data.parent_id = none) {s : String} (hs : data.slug = some s)
    {nfp : String} {nlv : Nat}
    (hbp : build_full_path db sec.parent_id s = .ok (nfp, nlv)) :
    update_section db id data now =
      .ok (updWrite db id nfp (slugWriter data now nfp nlv)) := by
  unfold update_section
  rw [hsec]
  simp only [hpid, Option.isSome_none, Bool.false_eq_true, if_false, hs,
    Option.isSome_some, if_true, Option.getD_some, hbp]
  rfl

/-- Reduction of `update_section`'s plain branch (no `parent_id`, no
`slug` in the payload). -/
theorem update_section_base_eq {db : List Doc} {id : String}
    {data : SectionUpdate} {now : String} {sec : Doc}
    (hsec : findOne db (fun d => d._id == id) = some sec)
    (hpid : data.parent_id = none) (hs : data.slug = none) :
    update_section db id data now =
      .ok (updateFirst (fun d => d._id == id) (applyBase data now) db) := by
  unfold update_section
  rw [hsec]
  simp only [hpid, hs, Option.isSome_none, Bool.false_eq_true, if_false]

theorem rw_id (p : String) (d : Doc) : (rw p d)._id = d._id := rfl

theorem rw_slug (p : String) (d : Doc) : (rw p d).slug = d.slug := rfl

theorem rw_level (p : String) (d : Doc) : (rw p d).level = d.level := rfl

theorem rw_parent_id (p : String) (d : Doc) :
    (rw p d).parent_id = d.parent_id := rfl

theorem rw_full_path (p : String) (d : Doc) :
    (rw p d).full_path = p ++ "/" ++ d.slug := rfl

theorem rw_parent_path (p : String) (d : Doc) :
    (rw p d).parent_path = some p := rfl

theorem applyBase_id (data : SectionUpdate) (now : String) (d : Doc) :
    (applyBase data now d)._id = d._id := rfl

/-- The full-path half of the path invariant survives a path-recomputing
update, for any id-preserving node rewrite `f` whose output is consistent
with the recomputed prefix `nfp`. -/
theorem fullPathInv_updWrite {db : List Doc} (hW : WF db) (hcap : FanoutCap db)
    {id : String} {sec : Doc} (hsec : look db id = some sec)
    {nfp : String} (f : Doc → Doc) (hf : ∀ d, (f d)._id = d._id)
    (hffp : (f sec).full_path = nfp)
    (hroot : ¬ truthy (f sec).parent_id = true → nfp = "/" ++ (f sec).slug)
    (hpar : ∀ p', (f sec).parent_id = some p' → p' ≠ "" →
      ∃ q0, look db p' = some q0 ∧ nfp = q0.full_path ++ "/" ++ (f sec).slug ∧
        ¬(p' = id ∨ DescId (skelPairs db) id p')) :
    FullPathInv (updWrite db id nfp f) := by
  obtain ⟨wA, wB, wC, wD, wE⟩ := write_after_ucp hW hcap hsec nfp f hf
  have hU := hW.1
  have hE := hW.2.1
  have hFP := hW.2.2
  have hUR : UniqueIds (updWrite db id nfp f) := by
    unfold UniqueIds
    rw [wE]
    exact hU
  intro d' hd'
  have hlookR : look (updWrite db id nfp f) d'._id = some d' :=
    look_self hUR hd'
  by_cases hxid : d'._id = id
  · rw [hxid] at hlookR
    have hde : d' = f sec := by
      rw [wA] at hlookR
      exact ((Option.some.injEq _ _).mp hlookR).symm
    subst hde
    constructor
    · intro hft
      rw [hffp]
      exact hroot hft
    · intro p' hp' hne
      obtain ⟨q0, hq0, heq, hsafe⟩ := hpar p' hp' hne
      refine ⟨q0, ?_, ?_⟩
      · rw [wB p' hsafe]
        exact hq0
      · rw [hffp]
        exact heq
  · by_cases hxdesc : DescId (skelPairs db) id d'._id
    · obtain ⟨d0, hd0, hd0id, hcase⟩ := subtree_cases hU hxdesc
      rcases hcase with hdir | ⟨m, hm, hmdesc⟩
      · have hlx := wC d'._id d0 hd0 hdir
        have hde : d' = rw nfp d0 := by
          rw [hlx] at hlookR
          exact ((Option.some.injEq _ _).mp hlookR).symm
        have hidne : id ≠ "" := by
          obtain ⟨hsm, hsid⟩ := look_eq_some hsec
          rw [← hsid]
          exact hE sec hsm
        subst hde
        constructor
        · intro hft
          exfalso
          apply hft
          rw [rw_parent_id, hdir]
          simp [truthy, hidne]
        · intro p' hp' hne'
          have hp'id : p' = id := by
            rw [rw_parent_id, hdir] at hp'
            exact ((Option.some.injEq _ _).mp hp').symm
          subst hp'id
          refine ⟨f sec, wA, ?_⟩
          rw [rw_full_path, rw_slug, hffp]
      · obtain ⟨q, hqm, hqx⟩ := wD d'._id d0 m hd0 hm hmdesc
        have hde : d' = rw q.full_path d0 := by
          rw [hqx] at hlookR
          exact ((Option.some.injEq _ _).mp hlookR).symm
        have hmne : m ≠ "" := by
          obtain ⟨dm, hdm, hdmid⟩ := desc_target_doc hmdesc
          rw [← hdmid]
          exact hE dm hdm
        subst hde
        constructor
        · intro hft
          exfalso
          apply hft
          rw [rw_parent_id, hm]
          simp [truthy, hmne]
        · intro p' hp' hne'
          have hp'm : p' = m := by
            rw [rw_parent_id, hm] at hp'
            exact ((Option.some.injEq _ _).mp hp').symm
          subst hp'm
          refine ⟨q, hqm, ?_⟩
          rw [rw_full_path, rw_slug]
    · have hlx := wB d'._id (not_or.mpr ⟨hxid, hxdesc⟩)
      have hlookdb : look db d'._id = some d' := by
        rw [← hlx]
        exact hlookR
      obtain ⟨hdmem, -⟩ := look_eq_some hlookdb
      have hold := hFP d' hdmem
      refine ⟨hold.1, ?_⟩
      intro p' hp' hne'
      obtain ⟨q, hq, heq⟩ := hold.2 p' hp' hne'
      have hpairx : (d'._id, some p') ∈ skelPairs db := by
        have := mem_pairs hdmem
        rwa [hp'] at this
      have hsafe : ¬(p' = id ∨ DescId (skelPairs db) id p') := by
        rintro (rfl | ⟨ms, hms⟩)
        · exact hxdesc ⟨[d'._id], DescL.direct hpairx⟩
        · exact hxdesc ⟨d'._id :: ms, DescL.trans hpairx hms⟩
      refine ⟨q, ?_, heq⟩
      rw [wB p' hsafe]
      exact hq

/-- The full-path invariant survives the plain update branch: no payload
`parent_id` and no payload `slug` means `full_path`, `slug` and
`parent_id` are all untouched. -/
theorem fullPathInv_base {db : List Doc} (hW : WF db) {id : String}
    {sec : Doc} (hsec : look db id = some sec) {data : SectionUpdate}
    {now : String} (hpid : data.parent_id = none) (hs : data.slug = none) :
    FullPathInv (updateFirst (fun d => d._id == id) (applyBase data now) db) := by
  have hf : ∀ d, (applyBase data now d)._id = d._id := fun d => rfl
  have hUR : UniqueIds
      (updateFirst (fun d => d._id == id) (applyBase data now) db) := by
    unfold UniqueIds
    rw [idsOf_updateFirst hf]
    exact hW.1
  have hkeep : ∀ d : Doc, (applyBase data now d).full_path = d.full_path ∧
      (applyBase data now d).slug = d.slug ∧
      (applyBase data now d).parent_id = d.parent_id := by
    intro d
    refine ⟨rfl, ?_, ?_⟩
    · show data.slug.getD d.slug = d.slug
      rw [hs]
      rfl
    · show (match data.parent_id with
        | some v => some v
        | none => d.parent_id) = d.parent_id
      rw [hpid]
  have hsecmem := (look_eq_some hsec).1
  have hsecid := (look_eq_some hsec).2
  have hnode : look (updateFirst (fun d => d._id == id) (applyBase data now) db)
      id = some (applyBase data now sec) := by
    rw [look_updateFirst_self hf, hsec]
    rfl
  intro d' hd'
  have hlookR : look (updateFirst (fun d => d._id == id) (applyBase data now) db)
      d'._id = some d' := look_self hUR hd'
  by_cases hxid : d'._id = id
  · rw [hxid] at hlookR
    have hde : d' = applyBase data now sec := by
      rw [hnode] at hlookR
      exact ((Option.some.injEq _ _).mp hlookR).symm
    subst hde
    obtain ⟨hfp0, hsl0, hpi0⟩ := hkeep sec
    have hold := hW.2.2 sec hsecmem
    constructor
    · intro hft
      rw [hpi0] at hft
      rw [hfp0, hsl0]
      exact hold.1 hft
    · intro p' hp' hne'
      rw [hpi0] at hp'
      obtain ⟨q, hq, heq⟩ := hold.2 p' hp' hne'
      have hp'ne : p' ≠ id := by
        intro hc
        apply @wf_no_self db hW id
        have hpair := mem_pairs hsecmem
        rw [hsecid, hp', hc] at hpair
        exact hpair
      refine ⟨q, ?_, ?_⟩
      · rw [look_updateFirst_ne hf hp'ne]
        exact hq
      · rw [hfp0, hsl0]
        exact heq
  · have hlookdb : look db d'._id = some d' := by
      rw [← look_updateFirst_ne hf hxid]
      exact hlookR
    obtain ⟨hdmem, -⟩ := look_eq_some hlookdb
    have hold := hW.2.2 d' hdmem
    refine ⟨hold.1, ?_⟩
    intro p' hp' hne'
    obtain ⟨q, hq, heq⟩ := hold.2 p' hp' hne'
    by_cases hp'id : p' = id
    · subst hp'id
      have hqsec : q = sec := by
        rw [hq] at hsec
        exact (Option.some.injEq _ _).mp hsec
      refine ⟨applyBase data now sec, hnode, ?_⟩
      have : (applyBase data now sec).full_path = sec.full_path :=
        (hkeep sec).1
      rw [this, ← hqsec]
      exact heq
    · refine ⟨q, ?_, heq⟩
      rw [look_updateFirst_ne hf hp'id]
      exact hq

/-- Every successful `update_section` preserves the full-path invariant on
a well-formed store (the level invariant does not survive: see the
counterexamples — descendants keep their stored `level`). -/
theorem fullPathInv_update {db : List Doc} (hW : WF db) (hcap : FanoutCap db)
    {id : String} {data : SectionUpdate} {now : String} {R : List Doc}
    (h : update_section db id data now = .ok R) : FullPathInv R := by
  cases hfind : findOne db (fun d => d._id == id) with
  | none =>
    unfold update_section at h
    rw [hfind] at h
    exact Except.noConfusion h
  | some sec =>
    have hsec : look db id = some sec := hfind
    cases hp : data.parent_id with
    | some p =>
      cases hcirc : check_circular_reference db id data.parent_id with
      | true =>
        unfold update_section at h
        rw [hfind] at h
        rw [hp] at hcirc
        simp [hp, hcirc] at h
      | false =>
        cases hbp : build_full_path db data.parent_id
            (data.slug.getD sec.slug) with
        | error e =>
          unfold update_section at h
          rw [hfind] at h
          rw [hp] at hcirc hbp
          simp [hp, hcirc, hbp] at h
        | ok pr =>
          obtain ⟨nfp, nlv⟩ := pr
          have heq := @update_section_parent_eq db id data now sec hfind
            p hp hcirc nfp nlv hbp
          rw [heq] at h
          have hR : R = updWrite db id nfp
              (parentWriter db data now p nfp nlv) :=
            ((Except.ok.injEq _ _).mp h).symm
          subst hR
          rw [hp] at hcirc hbp
          have hpid' : (parentWriter db data now p nfp nlv sec).parent_id =
              some p := by
            show (applyBase data now sec).parent_id = some p
            show (match data.parent_id with
              | some v => some v
              | none => sec.parent_id) = some p
            rw [hp]
          have hslug' : (parentWriter db data now p nfp nlv sec).slug =
              data.slug.getD sec.slug := rfl
          apply fullPathInv_updWrite hW hcap hsec
            (f := parentWriter db data now p nfp nlv) (fun d => rfl) rfl
          · intro hft
            rw [hpid'] at hft
            by_cases hpe : p = ""
            · subst hpe
              simp [build_full_path] at hbp
              rw [hslug']
              exact hbp.1.symm
            · exfalso
              apply hft
              simp [truthy, hpe]
          · intro p' hp' hne'
            rw [hpid'] at hp'
            have hp'p : p' = p := ((Option.some.injEq _ _).mp hp').symm
            subst hp'p
            have hpe : ¬(p' == "") = true := by simpa using hne'
            cases hq0 : findOne db (fun d => d._id == p') with
            | none =>
              exfalso
              simp [build_full_path, hpe, hq0] at hbp
            | some q0 =>
              simp [build_full_path, hpe, hq0] at hbp
              refine ⟨q0, hq0, ?_, ?_⟩
              · rw [hslug']
                exact hbp.1.symm
              · exact circ_false_safe hW hsec hcirc
    | none =>
      cases hs : data.slug with
      | some sl =>
        cases hbp : build_full_path db sec.parent_id sl with
        | error e =>
          unfold update_section at h
          rw [hfind] at h
          simp [hp, hs, hbp] at h
        | ok pr =>
          obtain ⟨nfp, nlv⟩ := pr
          have heq := @update_section_slug_eq db id data now sec hfind
            hp sl hs nfp nlv hbp
          rw [heq] at h
          have hR : R = updWrite db id nfp (slugWriter data now nfp nlv) :=
            ((Except.ok.injEq _ _).mp h).symm
          subst hR
          have hpid' : (slugWriter data now nfp nlv sec).parent_id =
              sec.parent_id := by
            show (applyBase data now sec).parent_id = sec.parent_id
            show (match data.parent_id with
              | some v => some v
              | none => sec.parent_id) = sec.parent_id
            rw [hp]
          have hslug' : (slugWriter data now nfp nlv sec).slug = sl := by
            show data.slug.getD sec.slug = sl
            rw [hs]
            rfl
          have hsecmem := (look_eq_some hsec).1
          have hsecid := (look_eq_some hsec).2
          apply fullPathInv_updWrite hW hcap hsec
            (f := slugWriter data now nfp nlv) (fun d => rfl) rfl
          · intro hft
            rw [hpid'] at hft
            rw [hslug']
            cases hsp : sec.parent_id with
            | none =>
              rw [hsp] at hbp
              simp [build_full_path] at hbp
              exact hbp.1.symm
            | some p0 =>
              rw [hsp] at hbp hft
              by_cases hpe : p0 = ""
              · subst hpe
                simp [build_full_path] at hbp
                exact hbp.1.symm
              · exfalso
                apply hft
                simp [truthy, hpe]
          · intro p' hp' hne'
            rw [hpid'] at hp'
            rw [hp'] at hbp
            have hpe : ¬(p' == "") = true := by simpa using hne'
            cases hq0 : findOne db (fun d => d._id == p') with
            | none =>
              exfalso
              simp [build_full_path, hpe, hq0] at hbp
            | some q0 =>
              simp [build_full_path, hpe, hq0] at hbp
              refine ⟨q0, hq0, ?_, ?_⟩
              · rw [hslug']
                exact hbp.1.symm
              · have hpair : (id, some p') ∈ skelPairs db := by
                  have := mem_pairs hsecmem
                  rwa [hsecid, hp'] at this
                rintro (rfl | ⟨ms, hms⟩)
                · exact wf_no_self hW hpair
                · exact wf_not_descid_self hW hsec
                    ⟨id :: ms, DescL.trans hpair hms⟩
      | none =>
        have heq := @update_section_base_eq db id data now sec hfind hp hs
        rw [heq] at h
        have hR : R = updateFirst (fun d => d._id == id)
            (applyBase data now) db :=
          ((Except.ok.injEq _ _).mp h).symm
        subst hR
        exact fullPathInv_base hW hsec hp hs

/-- A successful create is an append of `createdDoc` under the computed
path. -/
theorem create_shape {db : List Doc} {data : SectionCreate}
    {newId now : String} {db2 : List Doc} {r : String × String × String}
    (h : create_section db data newId now = .ok (db2, r)) :
    ∃ fp lv, build_full_path db data.parent_id data.slug = .ok (fp, lv) ∧
      db2 = db ++ [createdDoc db data newId now fp lv] := by
  unfold create_section at h
  cases hex : (if truthy data.parent_id then
      findOne db (fun d => d.slug == data.slug && d.parent_id == data.parent_id)
    else
      findOne db (fun d => d.slug == data.slug && d.parent_id == none)) with
  | some e =>
    rw [hex] at h
    exact Except.noConfusion h
  | none =>
    rw [hex] at h
    cases hbp : build_full_path db data.parent_id data.slug with
    | error e =>
      rw [hbp] at h
      exact Except.noConfusion h
    | ok pr =>
      obtain ⟨fp, lv⟩ := pr
      rw [hbp] at h
      refine ⟨fp, lv, rfl, ?_⟩
      have h2 := (Except.ok.injEq _ _).mp h
      exact (congrArg Prod.fst h2).symm

/-- `create_section` preserves the full-path invariant. -/
theorem fullPathInv_create {db : List Doc} {data : SectionCreate}
    {newId now fp : String} {lv : Nat} (hFP : FullPathInv db)
    (hbp : build_full_path db data.parent_id data.slug = .ok (fp, lv)) :
    FullPathInv (db ++ [createdDoc db data newId now fp lv]) := by
  intro d' hd'
  rcases List.mem_append.mp hd' with hold | hnew
  · have h0 := hFP d' hold
    refine ⟨h0.1, ?_⟩
    intro p' hp' hne'
    obtain ⟨q, hq, heq⟩ := h0.2 p' hp' hne'
    exact ⟨q, look_append_left _ hq, heq⟩
  · have hde : d' = createdDoc db data newId now fp lv := by simpa using hnew
    subst hde
    have hpid : (createdDoc db data newId now fp lv).parent_id =
        data.parent_id := rfl
    cases hpd : data.parent_id with
    | none =>
      constructor
      · intro _
        rw [hpd] at hbp
        simp [build_full_path] at hbp
        show fp = "/" ++ data.slug
        exact hbp.1.symm
      · intro p' hp' hne'
        rw [hpid, hpd] at hp'
        exact Option.noConfusion hp'
    | some p =>
      by_cases hpe : p = ""
      · subst hpe
        constructor
        · intro _
          rw [hpd] at hbp
          simp [build_full_path] at hbp
          show fp = "/" ++ data.slug
          exact hbp.1.symm
        · intro p' hp' hne'
          rw [hpid, hpd] at hp'
          have : p' = "" := ((Option.some.injEq _ _).mp hp').symm
          exact absurd this hne'
      · constructor
        · intro hft
          exfalso
          apply hft
          rw [hpid, hpd]
          simp [truthy, hpe]
        · intro p' hp' hne'
          rw [hpid, hpd] at hp'
          have hp'p : p' = p := ((Option.some.injEq _ _).mp hp').symm
          subst hp'p
          rw [hpd] at hbp
          have hpe' : ¬(p' == "") = true := by simpa using hpe
          cases hq0 : findOne db (fun d => d._id == p') with
          | none =>
            exfalso
            simp [build_full_path, hpe', hq0] at hbp
          | some q0 =>
            simp [build_full_path, hpe', hq0] at hbp
            refine ⟨q0, look_append_left _ hq0, ?_⟩
            show fp = q0.full_path ++ "/" ++ data.slug
            exact hbp.1.symm

/-- `create_section` preserves the level invariant. -/
theorem levelInv_create {db : List Doc} {data : SectionCreate}
    {newId now fp : String} {lv : Nat} (hLV : LevelInv db)
    (hbp : build_full_path db data.parent_id data.slug = .ok (fp, lv)) :
    LevelInv (db ++ [createdDoc db data newId now fp lv]) := by
  intro d' hd'
  rcases List.mem_append.mp hd' with hold | hnew
  · have h0 := hLV d' hold
    refine ⟨h0.1, ?_⟩
    intro p' hp' hne'
    obtain ⟨q, hq, heq⟩ := h0.2 p' hp' hne'
    exact ⟨q, look_append_left _ hq, heq⟩
  · have hde : d' = createdDoc db data newId now fp lv := by simpa using hnew
    subst hde
    have hpid : (createdDoc db data newId now fp lv).parent_id =
        data.parent_id := rfl
    cases hpd : data.parent_id with
    | none =>
      constructor
      · intro _
        rw [hpd] at hbp
        simp [build_full_path] at hbp
        show lv = 0
        exact hbp.2.symm
      · intro p' hp' hne'
        rw [hpid, hpd] at hp'
        exact Option.noConfusion hp'
    | some p =>
      by_cases hpe : p = ""
      · subst hpe
        constructor
        · intro _
          rw [hpd] at hbp
          simp [build_full_path] at hbp
          show lv = 0
          exact hbp.2.symm
        · intro p' hp' hne'
          rw [hpid, hpd] at hp'
          have : p' = "" := ((Option.some.injEq _ _).mp hp').symm
          exact absurd this hne'
      · constructor
        · intro hft
          exfalso
          apply hft
          rw [hpid, hpd]
          simp [truthy, hpe]
        · intro p' hp' hne'
          rw [hpid, hpd] at hp'
          have hp'p : p' = p := ((Option.some.injEq _ _).mp hp').symm
          subst hp'p
          rw [hpd] at hbp
          have hpe' : ¬(p' == "") = true := by simpa using hpe
          cases hq0 : findOne db (fun d => d._id == p') with
          | none =>
            exfalso
            simp [build_full_path, hpe', hq0] at hbp
          | some q0 =>
            simp [build_full_path, hpe', hq0] at hbp
            refine ⟨q0, look_append_left _ hq0, ?_⟩
            show lv = q0.level + 1
            exact hbp.2.symm

/-! ## Claim C1 -/

/-- C1 (amended): after every successful `create_section` on a store
satisfying the path and level invariants, both invariants hold again (for
roots `full_path = "/" + slug` and `level = 0`; under a truthy parent,
`full_path = parent.full_path + "/" + slug` and `level = parent.level + 1`);
and after every successful `update_section` on a well-formed store with
complete `to_list(1000)` snapshots, the `full_path` half of the invariant
holds again.  The `level` half is *not* restored by updates: the
propagation writes only `full_path`/`parent_path`, so descendants of a
moved section keep their stored `level` (see the counterexample). -/
theorem C1_path_level_invariant :
    (∀ (db : List Doc) (data : SectionCreate) (newId now : String)
        (db2 : List Doc) (r : String × String × String),
      FullPathInv db → LevelInv db →
      create_section db data newId now = .ok (db2, r) →
      FullPathInv db2 ∧ LevelInv db2) ∧
    (∀ (db : List Doc) (id : String) (data : SectionUpdate) (now : String)
        (R : List Doc),
      WF db → FanoutCap db →
      update_section db id data now = .ok R → FullPathInv R) := by
  constructor
  · intro db data newId now db2 r hFP hLV h
    obtain ⟨fp, lv, hbp, hdb2⟩ := create_shape h
    subst hdb2
    exact ⟨fullPathInv_create hFP hbp, levelInv_create hLV hbp⟩
  · intro db id data now R hW hcap h
    exact fullPathInv_update hW hcap h

/-- C1 counterexample: moving the root `a1` (whose child `b1` has level 1)
under the root `r2` recomputes `a1`'s level to 1 and rewrites `b1`'s
`full_path`, but leaves `b1.level = 1` although its parent now has level 1
— the level invariant does not hold after this update. -/
theorem C1_level_counterexample :
    update_section wdbMove1 "a1" { parent_id := some "r2" } "t1" =
      .ok wdbMove1R ∧
    ¬ LevelInv wdbMove1R := by
  refine ⟨rfl, ?_⟩
  intro hL
  have hmem : mkDoc "b1" "b1" "/r2/a1/b1" (some "a1") (some "/r2/a1") 1 2 ∈
      wdbMove1R := by decide
  obtain ⟨-, h2⟩ := hL _ hmem
  obtain ⟨q, hq, heq⟩ := h2 "a1" rfl (by decide)
  have hqv : q = { mkDoc "a1" "a1" "/r2/a1" (some "r2") (some "/r2") 1 1 with
      updated_at := "t1" } := by
    have hlook : look wdbMove1R "a1" =
        some { mkDoc "a1" "a1" "/r2/a1" (some "r2") (some "/r2") 1 1 with
          updated_at := "t1" } := by decide
    rw [hlook] at hq
    exact ((Option.some.injEq _ _).mp hq).symm
  rw [hqv] at heq
  exact absurd heq (by decide)

theorem C1_path_level_invariant_witness :
    FullPathInv wdb1 ∧ LevelInv wdb1 ∧ WF wdb1 ∧ FanoutCap wdb1 ∧
    (FullPathInv (wdb1 ++ [createdDoc wdb1
        { title := "N", slug := "n", parent_id := some "a" } "n1" "t1"
        "/r/a/n" 2]) ∧
      LevelInv (wdb1 ++ [createdDoc wdb1
        { title := "N", slug := "n", parent_id := some "a" } "n1" "t1"
        "/r/a/n" 2])) ∧
    FullPathInv (updateFirst (fun d => d._id == "b")
      (applyBase { status := some "published" } "t1") wdb1) := by
  have hFP : FullPathInv wdb1 := fullPathInv_of_B (by decide)
  have hLV : LevelInv wdb1 := levelInv_of_B (by decide)
  have hW : WF wdb1 := wf_of_B (by decide) (by decide) (by decide)
  refine ⟨hFP, hLV, hW, fanout_small (by decide), ?_, ?_⟩
  · exact C1_path_level_invariant.1 wdb1
      { title := "N", slug := "n", parent_id := some "a" } "n1" "t1" _
      ("n1", "n", "/r/a/n") hFP hLV rfl
  · exact C1_path_level_invariant.2 wdb1 "b"
      { status := some "published" } "t1" _ hW (fanout_small (by decide)) rfl

/-! ## Claim C2 -/

/-- C2 (amended): on a well-formed store in which no node has more than
1000 direct children (`FanoutCap`, making every `to_list(1000)` children
snapshot of the propagation complete), moving a subtree `A` under a new
resolving parent rewrites `A`'s `full_path`/`level`/`parent_path` from the
new parent, and rewrites every direct and transitive descendant's
`full_path` and `parent_path` consistently with its (rewritten) parent,
never touching a descendant's `slug`.  Without the cap the rewrite stops
at the first 1000 children of each node (see C10).  A descendant's
`level`, moreover, is *not* rewritten (`rw` keeps it): the claim's `level`
part for descendants fails, see the counterexample. -/
theorem C2_subtree_move {db : List Doc} (hW : WF db) (hcap : FanoutCap db)
    {id : String} {sec : Doc} (hsec : look db id = some sec)
    {data : SectionUpdate} {now : String} {p : String}
    (hp : data.parent_id = some p) (hpne : p ≠ "")
    {pdoc : Doc} (hpdoc : look db p = some pdoc)
    (hcirc : check_circular_reference db id data.parent_id = false) :
    ∃ R, update_section db id data now = .ok R ∧
      (∃ a', look R id = some a' ∧
        a'.full_path = pdoc.full_path ++ "/" ++ data.slug.getD sec.slug ∧
        a'.level = pdoc.level + 1 ∧
        a'.parent_path = some pdoc.full_path ∧
        a'.parent_id = some p ∧
        a'.slug = data.slug.getD sec.slug) ∧
      (∀ x d, look db x = some d → d.parent_id = some id →
        look R x =
          some (rw (pdoc.full_path ++ "/" ++ data.slug.getD sec.slug) d)) ∧
      (∀ x d m, look db x = some d → d.parent_id = some m →
        DescId (skelPairs db) id m →
        ∃ q, look R m = some q ∧ look R x = some (rw q.full_path d)) ∧
      (∀ pre d, (rw pre d).slug = d.slug ∧ (rw pre d).level = d.level) := by
  have hpe : ¬(p == "") = true := by simpa using hpne
  have hbp : build_full_path db data.parent_id (data.slug.getD sec.slug) =
      .ok (pdoc.full_path ++ "/" ++ data.slug.getD sec.slug,
        pdoc.level + 1) := by
    rw [hp]
    simp [build_full_path, hpe, findOne_look, hpdoc]
  have heq := @update_section_parent_eq db id data now sec hsec p hp hcirc
    _ _ hbp
  obtain ⟨wA, wB, wC, wD, wE⟩ := write_after_ucp hW hcap hsec
    (pdoc.full_path ++ "/" ++ data.slug.getD sec.slug)
    (parentWriter db data now p
      (pdoc.full_path ++ "/" ++ data.slug.getD sec.slug) (pdoc.level + 1))
    (fun d => rfl)
  refine ⟨_, heq, ⟨_, wA, rfl, rfl, ?_, ?_, rfl⟩, wC, wD,
    fun pre d => ⟨rfl, rfl⟩⟩
  · show (if p == "" then none
      else (findOne db (fun d2 => d2._id == p)).map (·.full_path)) =
        some pdoc.full_path
    simp [hpe, findOne_look, hpdoc]
  · show (match data.parent_id with
      | some v => some v
      | none => sec.parent_id) = some p
    rw [hp]

/-- C2 counterexample: moving `A` (child `B`) from the root level under
`q` (level 1) gives `A` level 2 and rewrites `B`'s `full_path` and
`parent_path`, but `B.level` stays 1 — it does not reflect the new
parent's depth. -/
theorem C2_move_level_counterexample :
    update_section wdbMove2 "A" { parent_id := some "q" } "t1" =
      .ok wdbMove2R ∧
    (look wdbMove2R "B").map (fun d => d.slug) = some "B" ∧
    (look wdbMove2R "B").map (fun d => d.full_path) = some "/p/q/A/B" ∧
    (look wdbMove2R "B").map (fun d => d.parent_path) =
      some (some "/p/q/A") ∧
    (look wdbMove2R "A").map (fun d => d.level) = some 2 ∧
    (look wdbMove2R "B").map (fun d => d.level) = some 1 :=
  ⟨rfl, by decide, by decide, by decide, by decide, by decide⟩

theorem C2_subtree_move_witness :
    WF wdbMove2 ∧ FanoutCap wdbMove2 ∧
    check_circular_reference wdbMove2 "A" (some "q") = false ∧
    (∃ R, update_section wdbMove2 "A" { parent_id := some "q" } "t1" =
        .ok R ∧
      (∃ a', look R "A" = some a' ∧
        a'.full_path = "/p/q" ++ "/" ++ "A" ∧
        a'.level = 1 + 1 ∧
        a'.parent_path = some "/p/q" ∧
        a'.parent_id = some "q" ∧
        a'.slug = "A") ∧
      (∀ x d, look wdbMove2 x = some d → d.parent_id = some "A" →
        look R x = some (rw ("/p/q" ++ "/" ++ "A") d)) ∧
      (∀ x d m, look wdbMove2 x = some d → d.parent_id = some m →
        DescId (skelPairs wdbMove2) "A" m →
        ∃ q, look R m = some q ∧ look R x = some (rw q.full_path d)) ∧
      (∀ pre d, (rw pre d).slug = d.slug ∧ (rw pre d).level = d.level)) := by
  have hW : WF wdbMove2 := wf_of_B (by decide) (by decide) (by decide)
  refine ⟨hW, fanout_small (by decide), rfl, ?_⟩
  exact @C2_subtree_move wdbMove2 hW (fanout_small (by decide)) "A"
    (mkDoc "A" "A" "/A" none none 0 2) rfl
    { parent_id := some "q" } "t1" "q" rfl (by decide)
    (mkDoc "q" "q" "/p/q" (some "p") (some "/p") 1 1) rfl rfl

/-! ## Claim C9 -/

/-- C9 (amended): `update_section` discards every null payload field —
each `none` field leaves the stored field unchanged, `parent_id` in
particular is never overwritten by a null payload (a section cannot be
moved to the root via update), each non-null field is written, and
`updated_at` is always refreshed.  With a null `parent_id` and a null
`slug` the write is exactly these field merges; with a null `parent_id`
but a non-null `slug`, however, `full_path` and `level` *are* recomputed
(against the unchanged stored parent) even though the payload's
`parent_id` is null — the claim's "full_path unchanged" part fails, see
the counterexample. -/
theorem C9_null_discard {db : List Doc} {id : String} {data : SectionUpdate}
    {now : String} {sec : Doc} (hW : WF db) (hcap : FanoutCap db)
    (hsec : look db id = some sec) (hpid : data.parent_id = none) :
    (∀ d : Doc,
      (applyBase data now d)._id = d._id ∧
      (applyBase data now d).full_path = d.full_path ∧
      (applyBase data now d).level = d.level ∧
      (applyBase data now d).parent_path = d.parent_path ∧
      (applyBase data now d).parent_id = d.parent_id ∧
      (applyBase data now d).updated_at = now ∧
      (data.title = none → (applyBase data now d).title = d.title) ∧
      (∀ v, data.title = some v → (applyBase data now d).title = v) ∧
      (data.slug = none → (applyBase data now d).slug = d.slug) ∧
      (∀ v, data.slug = some v → (applyBase data now d).slug = v) ∧
      (data.description = none →
        (applyBase data now d).description = d.description) ∧
      (∀ v, data.description = some v →
        (applyBase data now d).description = some v) ∧
      (data.cover_image = none →
        (applyBase data now d).cover_image = d.cover_image) ∧
      (∀ v, data.cover_image = some v →
        (applyBase data now d).cover_image = some v) ∧
      (data.order = none → (applyBase data now d).order = d.order) ∧
      (∀ v, data.order = some v → (applyBase data now d).order = v) ∧
      (data.in_main_menu = none →
        (applyBase data now d).in_main_menu = d.in_main_menu) ∧
      (∀ v, data.in_main_menu = some v →
        (applyBase data now d).in_main_menu = v) ∧
      (data.menu_title = none →
        (applyBase data now d).menu_title = d.menu_title) ∧
      (∀ v, data.menu_title = some v →
        (applyBase data now d).menu_title = some v) ∧
      (data.modules = none → (applyBase data now d).modules = d.modules) ∧
      (∀ v, data.modules = some v → (applyBase data now d).modules = v) ∧
      (data.child_types = none →
        (applyBase data now d).child_types = d.child_types) ∧
      (∀ v, data.child_types = some v →
        (applyBase data now d).child_types = v) ∧
      (data.show_children_list = none →
        (applyBase data now d).show_children_list = d.show_children_list) ∧
      (∀ v, data.show_children_list = some v →
        (applyBase data now d).show_children_list = v) ∧
      (data.seo = none → (applyBase data now d).seo = d.seo) ∧
      (∀ v, data.seo = some v → (applyBase data now d).seo = v) ∧
      (data.tags = none → (applyBase data now d).tags = d.tags) ∧
      (∀ v, data.tags = some v → (applyBase data now d).tags = v) ∧
      (data.status = none → (applyBase data now d).status = d.status) ∧
      (∀ v, data.status = some v → (applyBase data now d).status = v)) ∧
    (data.slug = none →
      update_section db id data now =
        .ok (updateFirst (fun d => d._id == id) (applyBase data now) db)) ∧
    (∀ s, data.slug = some s → ∀ nfp nlv,
      build_full_path db sec.parent_id s = .ok (nfp, nlv) →
      ∃ R, update_section db id data now = .ok R ∧
        ∃ d', look R id = some d' ∧ d'.parent_id = sec.parent_id ∧
          d'.parent_path = sec.parent_path ∧ d'.full_path = nfp ∧
          d'.level = nlv ∧ d'.slug = s) := by
  refine ⟨?_, ?_, ?_⟩
  · intro d
    refine ⟨rfl, rfl, rfl, rfl, by simp [applyBase, hpid], rfl,
      fun h => by simp [applyBase, h], fun v h => by simp [applyBase, h],
      fun h => by simp [applyBase, h], fun v h => by simp [applyBase, h],
      fun h => by simp [applyBase, h], fun v h => by simp [applyBase, h],
      fun h => by simp [applyBase, h], fun v h => by simp [applyBase, h],
      fun h => by simp [applyBase, h], fun v h => by simp [applyBase, h],
      fun h => by simp [applyBase, h], fun v h => by simp [applyBase, h],
      fun h => by simp [applyBase, h], fun v h => by simp [applyBase, h],
      fun h => by simp [applyBase, h], fun v h => by simp [applyBase, h],
      fun h => by simp [applyBase, h], fun v h => by simp [applyBase, h],
      fun h => by simp [applyBase, h], fun v h => by simp [applyBase, h],
      fun h => by simp [applyBase, h], fun v h => by simp [applyBase, h],
      fun h => by simp [applyBase, h], fun v h => by simp [applyBase, h],
      fun h => by simp [applyBase, h], fun v h => by simp [applyBase, h]⟩
  · intro hs
    exact @update_section_base_eq db id data now sec hsec hpid hs
  · intro s hs nfp nlv hbp
    have heq := @update_section_slug_eq db id data now sec hsec hpid s hs
      nfp nlv hbp
    obtain ⟨wA, -, -, -, -⟩ := write_after_ucp hW hcap hsec nfp
      (slugWriter data now nfp nlv) (fun d => rfl)
    refine ⟨_, heq, _, wA, ?_, rfl, rfl, rfl, ?_⟩
    · show (match data.parent_id with
        | some v => some v
        | none => sec.parent_id) = sec.parent_id
      rw [hpid]
    · show data.slug.getD sec.slug = s
      rw [hs]
      rfl

/-- C9 counterexample: the payload `{slug: "x"}` has a null `parent_id`,
yet updating `S` with it rewrites the stored `full_path` from `/R/s` to
`/R/x` (while `parent_id` indeed stays `"R"`). -/
theorem C9_full_path_rewrite_counterexample :
    ({ slug := some "x" } : SectionUpdate).parent_id = none ∧
    update_section wdbSlug "S" { slug := some "x" } "t1" = .ok wdbSlugR ∧
    (look wdbSlug "S").map (fun d => d.full_path) = some "/R/s" ∧
    (look wdbSlugR "S").map (fun d => d.parent_id) = some (some "R") ∧
    (look wdbSlugR "S").map (fun d => d.full_path) = some "/R/x" :=
  ⟨rfl, rfl, by decide, by decide, by decide⟩

theorem C9_null_discard_witness :
    WF wdbSlug ∧ FanoutCap wdbSlug ∧
    look wdbSlug "S" = some (mkDoc "S" "s" "/R/s" (some "R") (some "/R") 1 1) ∧
    (applyBase { slug := some "x" } "t1"
      (mkDoc "S" "s" "/R/s" (some "R") (some "/R") 1 1)).parent_id =
        some "R" ∧
    (∃ R, update_section wdbSlug "S" { slug := some "x" } "t1" = .ok R ∧
      ∃ d', look R "S" = some d' ∧ d'.parent_id = some "R" ∧
        d'.parent_path = some "/R" ∧ d'.full_path = "/R/x" ∧
        d'.level = 1 ∧ d'.slug = "x") := by
  have hW : WF wdbSlug := wf_of_B (by decide) (by decide) (by decide)
  have h := @C9_null_discard wdbSlug "S" { slug := some "x" } "t1"
    (mkDoc "S" "s" "/R/s" (some "R") (some "/R") 1 1) hW
    (fanout_small (by decide)) rfl rfl
  exact ⟨hW, fanout_small (by decide), rfl,
    (h.1 (mkDoc "S" "s" "/R/s" (some "R") (some "/R") 1 1)).2.2.2.2.1,
    h.2.2 "x" rfl "/R/x" 1 rfl⟩

/-! ## The wide store `bigdb` -/

theorem cid_inj : Function.Injective cid := by
  intro i j h
  have hd : 'c' :: List.replicate i 'x' = 'c' :: List.replicate j 'x' :=
    congrArg String.data h
  have hlen := congrArg List.length hd
  simpa using hlen

theorem cid_ne_P (i : Nat) : cid i ≠ "P" := by
  intro h
  have hd : 'c' :: List.replicate i 'x' = "P".data := congrArg String.data h
  have h2 : ("P".data).headD 'z' = 'c' := by
    rw [← hd]
    rfl
  exact absurd h2 (by decide)

theorem bigdb_ids : idsOf bigdb = "P" :: (List.range 1001).map cid := by
  simp only [idsOf, bigdb, List.map_cons, List.map_map]
  congr 1

theorem uniqueIds_bigdb : UniqueIds bigdb := by
  show (idsOf bigdb).Nodup
  rw [bigdb_ids]
  refine List.nodup_cons.mpr ⟨?_, ?_⟩
  · intro hmem
    obtain ⟨i, -, hie⟩ := List.mem_map.mp hmem
    exact cid_ne_P i hie
  · exact (List.nodup_range 1001).map cid_inj

theorem bigdb_pairs : ∀ q ∈ skelPairs bigdb,
    q.2 = none ∨ (q.2 = some "P" ∧ q.1 ≠ "P") := by
  intro q hq
  simp only [skelPairs, bigdb, List.map_cons, List.map_map, List.mem_cons,
    List.mem_map] at hq
  rcases hq with hq | ⟨i, -, hq⟩
  · left
    rw [hq]
    rfl
  · right
    rw [← hq]
    exact ⟨rfl, cid_ne_P i⟩

/-- In `bigdb` no pointer chain ever ends at the root `P`. -/
theorem bigdb_no_chain_to_P : ∀ a ms, ¬ DescL (skelPairs bigdb) a ms "P" := by
  intro a ms h
  cases h with
  | direct hpair =>
    rcases bigdb_pairs _ hpair with h1 | ⟨-, h4⟩
    · exact Option.noConfusion h1
    · exact h4 rfl
  | trans hpair _ =>
    rcases bigdb_pairs _ hpair with h1 | ⟨-, h4⟩
    · exact Option.noConfusion h1
    · exact h4 rfl

theorem bigdb_chains : ∀ ms c, DescL (skelPairs bigdb) "P" ms c →
    ms.length = 1 := by
  intro ms c h
  cases h with
  | direct hpair => rfl
  | @trans m _ ms2 hpair hm =>
    exfalso
    rcases bigdb_pairs _ hpair with h1 | ⟨h2, -⟩
    · exact Option.noConfusion h1
    · have hmP : m = "P" := (Option.some.injEq _ _).mp h2
      rw [hmP] at hm
      exact bigdb_no_chain_to_P _ _ hm

theorem bigdb_length : bigdb.length = 1002 := by
  show ((List.range 1001).map cdoc).length + 1 = 1002
  rw [List.length_map, List.length_range]

theorem bigdb_bound : ∀ ms c, DescL (skelPairs bigdb) "P" ms c →
    ms.length < bigdb.length + 1 := by
  intro ms c h
  rw [bigdb_chains ms c h, bigdb_length]
  omega

theorem bigdb_filter : bigdb.filter (fun d => d.parent_id == some "P") =
    (List.range 1001).map cdoc := by
  show List.filter _ (mkDoc "P" "P" "/P" none none 0 0 :: _) = _
  rw [List.filter_cons_of_neg (by decide), List.filter_map]
  have hp : ((fun d => d.parent_id == some "P") ∘ cdoc) = fun _ => true := by
    funext i
    rfl
  rw [hp, List.filter_true]

theorem bigdb_take : ((List.range 1001).map cdoc).take 1000 =
    (List.range 1000).map cdoc := by
  rw [← List.map_take, List.take_range]
  norm_num

theorem cdoc_mem_bigdb {i : Nat} (h : i < 1001) : cdoc i ∈ bigdb :=
  List.mem_cons_of_mem _ (List.mem_map_of_mem _ (List.mem_range.mpr h))

set_option maxRecDepth 8000 in
theorem look_bigdb_cdoc {i : Nat} (h : i < 1001) :
    look bigdb (cid i) = some (cdoc i) := by
  have h1 := look_self uniqueIds_bigdb (cdoc_mem_bigdb h)
  have hid : (cdoc i)._id = cid i := rfl
  rwa [hid] at h1

theorem look_bigdb_P : look bigdb "P" =
    some (mkDoc "P" "P" "/P" none none 0 0) := rfl

/-- The 1001st child is disjoint from each of the first 1000 children's
subtrees. -/
theorem bigdb_c1000_safe :
    ∀ ch ∈ (bigdb.filter (fun d => d.parent_id == some "P")).take 1000,
      ¬(cid 1000 = ch._id ∨
        DescId (skelPairs bigdb) ch._id (cid 1000)) := by
  intro ch hch
  rw [bigdb_filter, bigdb_take] at hch
  obtain ⟨i, hi, hie⟩ := List.mem_map.mp hch
  have hilt : i < 1000 := List.mem_range.mp hi
  rintro (heq | ⟨ms, hms⟩)
  · rw [← hie] at heq
    have : 1000 = i := cid_inj heq
    omega
  · cases hms with
    | direct hpair =>
      rcases bigdb_pairs _ hpair with h1 | ⟨h2, -⟩
      · exact Option.noConfusion h1
      · have : ch._id = "P" := (Option.some.injEq _ _).mp h2
        rw [← hie] at this
        exact cid_ne_P i this
    | @trans m _ ms2 hpair hm =>
      rcases bigdb_pairs _ hpair with h1 | ⟨h2, -⟩
      · exact Option.noConfusion h1
      · have hmP : m = "P" := (Option.some.injEq _ _).mp h2
        rw [hmP] at hm
        exact bigdb_no_chain_to_P _ _ hm

/-! ## Claim C4 -/

/-- C4 counterexample: on a root with 1001 direct children, the cascade
delete succeeds but the 1001st child — a direct descendant — survives,
because the recursion only sees the `to_list(1000)` snapshot of the
children. -/
theorem C4_cascade_cap_counterexample :
    (cdoc 1000).parent_id = some "P" ∧
    look bigdb (cid 1000) = some (cdoc 1000) ∧
    ∃ R, delete_section_api bigdb "P" true = .ok R ∧
      look R (cid 1000) = some (cdoc 1000) := by
  obtain ⟨R, heq, hsub, hframe⟩ := delete_frame bigdb.length "P" bigdb
    uniqueIds_bigdb
    (fun ms c h => by
      rw [bigdb_chains ms c h]
      have := bigdb_length
      omega)
    (mkDoc "P" "P" "/P" none none 0 0) look_bigdb_P
  refine ⟨rfl, look_bigdb_cdoc (by omega), R, ?_, ?_⟩
  · show delete_section (bigdb.length + 1) bigdb "P" true = .ok R
    exact heq
  · rw [hframe (cid 1000) (cid_ne_P 1000) bigdb_c1000_safe]
    exact look_bigdb_cdoc (by omega)

/-- C4 (amended): for a section with at least one direct child, delete
with `cascade=false` fails with the 400 error reporting the exact child
count (the raise precedes any write, so nothing is deleted); delete with
`cascade=true` on a well-formed store with complete `to_list(1000)`
snapshots removes exactly the node and its direct and transitive
descendants, leaving every other record untouched.  Beyond 1000 direct
children the cascade silently skips the overflow (see the
counterexample). -/
theorem C4_cascade_delete {db : List Doc} (hW : WF db) (hcap : FanoutCap db)
    {id : String} {sec : Doc} (hsec : look db id = some sec)
    (hchild : 0 < (db.filter (fun d => d.parent_id == some id)).length) :
    delete_section_api db id false =
      .error ⟨400, "Section has " ++
        toString (db.filter (fun d => d.parent_id == some id)).length ++
        " children. Use cascade=true to delete all."⟩ ∧
    ∃ R, delete_section_api db id true = .ok R ∧ DelOut db id R := by
  constructor
  · show delete_section (db.length + 1) db id false = _
    rw [delete_section_succ]
    rw [show findOne db (fun d => d._id == id) = some sec from hsec]
    have hb : ((db.filter (fun d => d.parent_id == some id)).length > 0 &&
        !false) = true := by
      simp [hchild]
    rw [if_pos hb]
  · have hB := wf_chain_bound hW hsec
    obtain ⟨R, hR, hout⟩ := delete_spec db.length id db hW.1 hcap hB sec hsec
    exact ⟨R, hR, hout⟩

theorem C4_cascade_delete_witness :
    WF wdbDel ∧ FanoutCap wdbDel ∧
    0 < (wdbDel.filter (fun d => d.parent_id == some "D")).length ∧
    (delete_section_api wdbDel "D" false =
      .error ⟨400, "Section has " ++
        toString (wdbDel.filter (fun d => d.parent_id == some "D")).length ++
        " children. Use cascade=true to delete all."⟩ ∧
     ∃ R, delete_section_api wdbDel "D" true = .ok R ∧ DelOut wdbDel "D" R) := by
  have hW : WF wdbDel := wf_of_B (by decide) (by decide) (by decide)
  exact ⟨hW, fanout_small (by decide), by decide,
    @C4_cascade_delete wdbDel hW (fanout_small (by decide)) "D"
      (mkDoc "D" "D" "/D" none none 0 0) rfl (by decide)⟩

/-! ## Claim C10 -/

theorem cdoc1000_not_take :
    cdoc 1000 ∉ (bigdb.filter (fun d => d.parent_id == some "P")).take 1000 := by
  rw [bigdb_filter, bigdb_take]
  intro hmem
  obtain ⟨i, hi, hie⟩ := List.mem_map.mp hmem
  have h1 : cid i = cid 1000 := congrArg (fun d => d._id) hie
  have h2 := cid_inj h1
  have h3 := List.mem_range.mp hi
  omega

/-- C10: the three `to_list(1000)` caps.  (a) Path propagation processes
only the first 1000 direct children: a direct child outside that snapshot
keeps its exact record (stale path included).  (b) Cascade delete likewise:
the delete succeeds and a direct child outside the snapshot survives with
its record intact.  (c) The tree endpoint loads at most 1000 sections in
total. -/
theorem C10_thousand_cap :
    (∀ (db : List Doc) (id new_path : String) (x : Doc),
      UniqueIds db →
      (∀ ms c, DescL (skelPairs db) id ms c → ms.length < db.length + 1) →
      x ∈ db → x.parent_id = some id →
      x ∉ (db.filter (fun d => d.parent_id == some id)).take 1000 →
      look (update_children_paths (db.length + 1) id new_path db) x._id =
        some x) ∧
    (∀ (db : List Doc) (id : String) (sec x : Doc),
      UniqueIds db →
      (∀ ms c, DescL (skelPairs db) id ms c → ms.length < db.length + 1) →
      look db id = some sec →
      x ∈ db → x.parent_id = some id →
      x ∉ (db.filter (fun d => d.parent_id == some id)).take 1000 →
      ∃ R, delete_section_api db id true = .ok R ∧
        look R x._id = some x) ∧
    (∀ (db : List Doc) (status : Option String),
      (loadedOf db status).length ≤ 1000) := by
  refine ⟨?_, ?_, ?_⟩
  · intro db id new_path x hU hB hx hp hdrop
    have hsafe : ∀ ch ∈ (db.filter (fun d => d.parent_id == some id)).take 1000,
        ¬(x._id = ch._id ∨ DescId (skelPairs db) ch._id x._id) := by
      intro ch hch
      have hchF := List.mem_filter.mp (List.mem_of_mem_take hch)
      have hchp : ch.parent_id = some id := by simpa using hchF.2
      have hne : x._id ≠ ch._id := by
        intro hc
        have hxch : x = ch := docs_eq_of_id hU hx hchF.1 hc
        rw [hxch] at hdrop
        exact hdrop hch
      exact dropped_child_safe hU hB hx hp hchF.1 hchp hne
    obtain ⟨-, hframe⟩ := ucp_frame (db.length + 1) id new_path db db rfl hU hB
    rw [hframe x._id hsafe]
    exact look_self hU hx
  · intro db id sec x hU hB hsec hx hp hdrop
    have hxid : x._id ≠ id := by
      intro hc
      have hpair : (id, some id) ∈ skelPairs db := by
        have := mem_pairs hx
        rwa [hp, hc] at this
      exact no_cycle hB [id] (DescL.direct hpair)
    have hsafe : ∀ ch ∈ (db.filter (fun d => d.parent_id == some id)).take 1000,
        ¬(x._id = ch._id ∨ DescId (skelPairs db) ch._id x._id) := by
      intro ch hch
      have hchF := List.mem_filter.mp (List.mem_of_mem_take hch)
      have hchp : ch.parent_id = some id := by simpa using hchF.2
      have hne : x._id ≠ ch._id := by
        intro hc
        have hxch : x = ch := docs_eq_of_id hU hx hchF.1 hc
        rw [hxch] at hdrop
        exact hdrop hch
      exact dropped_child_safe hU hB hx hp hchF.1 hchp hne
    obtain ⟨R, heq, -, hframe⟩ := delete_frame db.length id db hU hB sec hsec
    refine ⟨R, heq, ?_⟩
    rw [hframe x._id hxid hsafe]
    exact look_self hU hx
  · intro db status
    exact List.length_take_le _ _

theorem C10_thousand_cap_witness :
    UniqueIds bigdb ∧ (cdoc 1000).parent_id = some "P" ∧
    cdoc 1000 ∈ bigdb ∧
    look (update_children_paths (bigdb.length + 1) "P" "/NEW" bigdb)
      (cdoc 1000)._id = some (cdoc 1000) ∧
    (∃ R, delete_section_api bigdb "P" true = .ok R ∧
      look R (cdoc 1000)._id = some (cdoc 1000)) ∧
    (loadedOf bigdb none).length ≤ 1000 := by
  refine ⟨uniqueIds_bigdb, rfl, cdoc_mem_bigdb (by omega), ?_, ?_, ?_⟩
  · exact C10_thousand_cap.1 bigdb "P" "/NEW" (cdoc 1000) uniqueIds_bigdb
      bigdb_bound (cdoc_mem_bigdb (by omega)) rfl cdoc1000_not_take
  · exact C10_thousand_cap.2.1 bigdb "P" (mkDoc "P" "P" "/P" none none 0 0)
      (cdoc 1000) uniqueIds_bigdb bigdb_bound look_bigdb_P
      (cdoc_mem_bigdb (by omega)) rfl cdoc1000_not_take
  · exact C10_thousand_cap.2.2 bigdb none

end Humorpedia
